import Mathlib

/-!
# A shallow embedding of the segmented write-ahead log (package `wal`)

This file models, in Lean, the WAL implementation of the repository
(`segment`, `Log`, `Batch`, the append / read / truncation paths and the
directory recovery in `load`).  Offsets are `Int` (the source uses `int64`;
no claim exercises 64-bit overflow), byte buffers are `List Nat`
(one `Nat` per byte), and the `afero` filesystem is modelled by keeping each
segment's on-disk byte content in the segment record (`fdata`) together with
an `onDisk` flag (the initial empty segment's file is deleted by `cycle`
while the `segment` value stays in `l.segments`, so existence must be
tracked).  A file's path is always `segmentName(offset)` plus a suffix, so
paths are represented by the offset and a suffix kind.  Filesystem calls
behave deterministically (`Remove`/`OpenFile` of a missing file fails with
the filesystem's not-found error); *external* I/O failures (disk errors) can
be injected through an `FsFail` record, which the ordinary entry points
instantiate with `noFail`.  Locks, metrics and the `NoCopy` choice (which
only decides whether the returned bytes are a copy) are not modelled.
A Go runtime panic from an out-of-range slice index is modelled by the
distinguished error `WalErr.oob`.
-/

namespace Wal

/-- Error values of the `wal` package (`ErrCorrupt`, `ErrClosed`, `ErrNotFound`,
`ErrOutOfRange`), the ad-hoc `errors.New("invalid seek")`, the filesystem's
file-not-found error, injected external I/O errors, and the Go runtime panic
raised by an out-of-range index or slice bound. -/
inductive WalErr where
  | corrupt
  | closed
  | notFound
  | outOfRange
  | invalidSeek
  | fsNotFound
  | ioErr (code : Nat)
  | oob
deriving DecidableEq, Repr

/-- `binary.PutUvarint`: unsigned LEB128, little-endian 7-bit groups, the
continuation bit set on every byte but the last. -/
def putUvarint (x : Nat) : List Nat :=
  if x < 128 then [x] else (x % 128 + 128) :: putUvarint (x / 128)
termination_by x
decreasing_by
  exact Nat.div_lt_self (by omega) (by omega)

/-- `binary.Uvarint`: returns the decoded value and the number of bytes read,
or `none` when the buffer ends inside a varint (the source's `n <= 0` case;
the 10-byte overflow cut-off of the source is for values above 2^64 and is
not modelled since offsets/lengths stay far below it in every claim). -/
def uvarint : List Nat → Option (Nat × Nat)
  | [] => none
  | b :: rest =>
    if b < 128 then some (b, 1)
    else
      match uvarint rest with
      | none => none
      | some (v, n) => some (v * 128 + b % 128, n + 1)

/-- Byte position of one entry inside a segment buffer (`bpos`); `endp` is the
source's `end` field (one byte past the entry). -/
structure bpos where
  pos : Nat
  endp : Nat
deriving DecidableEq, Repr

/-- The framed bytes of one entry: `uvarint(len) || data` (see `appendEntry`
and the on-disk layout). -/
def frameOf (data : List Nat) : List Nat :=
  putUvarint data.length ++ data

/-- Concatenated framed entries: the canonical content of a segment file
holding the entry list `es`. -/
def frames (es : List (List Nat)) : List Nat :=
  (es.map frameOf).flatten

/-- The `epos` table of a segment whose buffer holds the framed entries `es`,
starting at byte position `pos`. -/
def posOf (es : List (List Nat)) (pos : Nat) : List bpos :=
  match es with
  | [] => []
  | e :: rest => ⟨pos, pos + (frameOf e).length⟩ :: posOf rest (pos + (frameOf e).length)

/-- `loadNextEntry`: length in bytes of the next frame of `data`, or
`ErrCorrupt` on an unterminated varint or a truncated payload. -/
def loadNextEntry (data : List Nat) : Except WalErr Nat :=
  match uvarint data with
  | none => .error .corrupt
  | some (size, n) =>
    if data.length - n < size then .error .corrupt else .ok (n + size)

theorem uvarint_ok_bounds {data : List Nat} {v n : Nat}
    (h : uvarint data = some (v, n)) : 1 ≤ n ∧ n ≤ data.length := by
  induction data generalizing v n with
  | nil => simp [uvarint] at h
  | cons b rest ih =>
    rw [uvarint] at h
    by_cases hb : b < 128
    · rw [if_pos hb] at h
      obtain ⟨h1, h2⟩ := Prod.mk.injEq .. ▸ Option.some.injEq .. ▸ h
      subst h2
      simp
    · rw [if_neg hb] at h
      rcases h' : uvarint rest with _ | ⟨w, m⟩ <;> rw [h'] at h
      · simp at h
      · obtain ⟨h1, h2⟩ := Prod.mk.injEq .. ▸ Option.some.injEq .. ▸ h
        subst h2
        have := ih h'
        simp only [List.length_cons]
        omega

theorem loadNextEntry_ok_bounds {data : List Nat} {n : Nat}
    (h : loadNextEntry data = .ok n) : 1 ≤ n := by
  unfold loadNextEntry at h
  rcases h' : uvarint data with _ | ⟨v, m⟩ <;> rw [h'] at h
  · simp at h
  · by_cases hkeep : data.length - m < v
    · simp [hkeep] at h
    · simp [hkeep] at h
      have := uvarint_ok_bounds h'
      omega

/-- The entry-scanning loop of `loadSegmentEntries`: decode the frames of
`data` sequentially, building the byte-position table. -/
def parseEntries (data : List Nat) (pos : Nat) : Except WalErr (List bpos) :=
  if hd : data = [] then .ok []
  else
    match h : loadNextEntry data with
    | .error e => .error e
    | .ok n =>
      match parseEntries (data.drop n) (pos + n) with
      | .error e => .error e
      | .ok rest => .ok (⟨pos, pos + n⟩ :: rest)
termination_by data.length
decreasing_by
  have h1 : 1 ≤ n := loadNextEntry_ok_bounds h
  have h2 : data.length ≠ 0 := fun hlen => hd (List.eq_nil_of_length_eq_zero hlen)
  simp [List.length_drop]
  omega

/-- Full frame decoding of a buffer into its entry list (used by the
specification layer only: a segment file is well formed exactly when this
returns `some`). -/
def decEntries (data : List Nat) : Option (List (List Nat)) :=
  if hd : data = [] then some []
  else
    match h : loadNextEntry data with
    | .error _ => none
    | .ok n =>
      match huv : uvarint data with
      | none => none
      | some (size, m) =>
        match decEntries (data.drop n) with
        | none => none
        | some rest => some (((data.drop m).take size) :: rest)
termination_by data.length
decreasing_by
  have h1 : 1 ≤ n := loadNextEntry_ok_bounds h
  have h2 : data.length ≠ 0 := fun hlen => hd (List.eq_nil_of_length_eq_zero hlen)
  simp [List.length_drop]
  omega

/-- `Options` for the log (`NoCopy`, the lock discipline and the permission
bits do not influence any modelled observable and are omitted). -/
structure Options where
  NoSync : Bool
  SegmentSize : Nat
  SegmentCacheSize : Nat
deriving DecidableEq, Repr

/-- `DefaultOptions()` (20 MB segments, 2 cached segments). -/
def DefaultOptions : Options :=
  { NoSync := false, SegmentSize := 20971520, SegmentCacheSize := 2 }

/-- A `segment`: its first offset, its file (`onDisk`/`fdata` stand for the
file at `path = segmentName(offset)`; `cycle` deletes the initial segment's
file while keeping the record in `l.segments`, hence the flag), and the
cached in-memory buffer and entry positions (`nil` slices are `[]`). -/
structure segment where
  offset : Int
  onDisk : Bool
  fdata : List Nat
  ebuf : List Nat
  epos : List bpos
deriving DecidableEq, Repr

/-- The `Log` record.  `scache` is the `tinylru` cache of segment indices,
most recently used first (the cache stores `segIdx → *segment`; since the
pointers always denote `l.segments[segIdx]`, the index list is enough).
The tail file handle `sfile` always points at the last segment's file and
its write position is the file's end, so it needs no own field. -/
structure Log where
  opts : Options
  closed : Bool
  corrupt : Bool
  segments : List segment
  firstOffset : Int
  lastOffset : Int
  scache : List Nat
deriving DecidableEq, Repr

/-- Result of a state-changing operation: the source mutates `l` in place and
returns an `error`, so both outcomes carry the (possibly partially mutated)
log. -/
inductive WalRes where
  | ok (l : Log)
  | err (e : WalErr) (l : Log)
deriving DecidableEq, Repr

/-- Result of `Read`: the entry's bytes or an error, plus the log (reads
materialize segments and touch the cache). -/
inductive ReadRes where
  | ok (data : List Nat) (l : Log)
  | err (e : WalErr) (l : Log)
deriving DecidableEq, Repr

/-- The data/error component of a `ReadRes` ("the read result"). -/
def readVal : ReadRes → Except WalErr (List Nat)
  | .ok data _ => .ok data
  | .err e _ => .error e

/-- Replace segment `i` of the log (the source mutates through the
`*segment` pointer). -/
def setSeg (l : Log) (i : Nat) (s : segment) : Log :=
  { l with segments := l.segments.set i s }

/-- Dematerialize segment `i` (`s.ebuf = nil; s.epos = nil`). -/
def dropSegCache (l : Log) (i : Nat) : Log :=
  match l.segments.get? i with
  | none => l
  | some s => setSeg l i { s with ebuf := [], epos := [] }

/-- `pushCache(segIdx)`: `tinylru.SetEvicted` moves an existing key to the
front; otherwise it inserts at the front and, past capacity, evicts the least
recently used entry, whose segment is dematerialized. -/
def pushCache (l : Log) (segIdx : Nat) : Log :=
  if l.scache.contains segIdx then
    { l with scache := segIdx :: l.scache.erase segIdx }
  else
    let c := segIdx :: l.scache
    if l.opts.SegmentCacheSize < c.length then
      match c.getLast? with
      | some ev => { (dropSegCache l ev) with scache := c.dropLast }
      | none => { l with scache := c }
    else
      { l with scache := c }

/-- `clearCache()`: dematerialize every cached segment and reset the LRU. -/
def clearCache (l : Log) : Log :=
  let l1 := l.scache.foldl (fun acc i => dropSegCache acc i) l
  { l1 with scache := [] }

/-- `createInitialSegment(offset)`: append a fresh empty segment, set
`firstOffset = offset`, `lastOffset = offset - 1`, and create its (empty)
file, which becomes the tail. -/
def createInitialSegment (l : Log) (offset : Int) : Log :=
  { l with
    segments := l.segments ++ [⟨offset, true, [], [], []⟩]
    firstOffset := offset
    lastOffset := offset - 1 }

/-- `cycle(nextOffset)`: sync and close the tail file; if the tail is the
initial empty segment at offset 0, delete its *file* and move `firstOffset`
(the stale record stays in `l.segments`, as in the source); otherwise push
the tail into the cache.  Then create the next segment's file and append the
new segment. -/
def cycle (l : Log) (nextOffset : Int) : WalRes :=
  match l.segments.getLast? with
  | none => .err .oob l
  | some lastSegment =>
    let step : WalRes :=
      if lastSegment.offset == 0 && lastSegment.ebuf.isEmpty then
        if lastSegment.onDisk then
          .ok { l with
            firstOffset := nextOffset
            segments := l.segments.dropLast ++ [{ lastSegment with onDisk := false }] }
        else
          .err .fsNotFound l
      else
        .ok (pushCache l (l.segments.length - 1))
    match step with
    | .err e l1 => .err e l1
    | .ok l1 =>
      .ok { l1 with segments := l1.segments ++ [⟨nextOffset, true, [], [], []⟩] }

/-- One record of a `Batch` (`offset` plus the payload size). -/
structure batchEntry where
  offset : Int
  size : Nat
deriving DecidableEq, Repr

/-- A `Batch`: entry records plus the concatenation of all payloads. -/
structure Batch where
  entries : List batchEntry
  datas : List Nat
deriving DecidableEq, Repr

/-- `Batch.Write(offset, data)`. -/
def batchWrite (b : Batch) (offset : Int) (data : List Nat) : Batch :=
  { entries := b.entries ++ [⟨offset, data.length⟩], datas := b.datas ++ data }

/-- `appendEntry` applied to the tail segment: frame `data` into `ebuf` and
record its position in `epos`. -/
def segAppendEntry (s : segment) (data : List Nat) : segment :=
  { s with
    ebuf := s.ebuf ++ frameOf data
    epos := s.epos ++ [⟨s.ebuf.length, s.ebuf.length + (frameOf data).length⟩] }

/-- Intermediate result of the `writeBatch` entry loop: the log plus the
current flush mark. -/
inductive LoopRes where
  | ok (l : Log) (mark : Nat)
  | err (e : WalErr) (l : Log)
deriving DecidableEq, Repr

/-- The entry loop of `writeBatch`: frame each entry into the tail buffer;
when the buffer reaches `SegmentSize`, flush `ebuf[mark:]` to the tail file,
set `lastOffset` to the entry just written, and `cycle` to the next offset.
`datas[:size]` on a too-short buffer would panic in Go (`.oob`). -/
def writeLoop (l : Log) (mark : Nat) (entries : List batchEntry) (datas : List Nat) :
    LoopRes :=
  match entries with
  | [] => .ok l mark
  | e :: rest =>
    match l.segments.getLast? with
    | none => .err .oob l
    | some s =>
      if datas.length < e.size then .err .oob l
      else
        let s1 := segAppendEntry s (datas.take e.size)
        let l1 := { l with segments := l.segments.dropLast ++ [s1] }
        if l.opts.SegmentSize ≤ s1.ebuf.length then
          -- sfile.Write(s.ebuf[mark:]) appends to the tail file
          let s2 := { s1 with fdata := s1.fdata ++ s1.ebuf.drop mark }
          let l2 := { l1 with
            segments := l1.segments.dropLast ++ [s2]
            lastOffset := e.offset }
          match cycle l2 (e.offset + 1) with
          | .err e2 l3 => .err e2 l3
          | .ok l3 => writeLoop l3 0 rest (datas.drop e.size)
        else
          writeLoop l1 mark rest (datas.drop e.size)

/-- The tail phase of `writeBatch`: run the entry loop with the flush mark
at the end of the tail's current buffer, then flush `ebuf[mark:]` to the
tail file and set `lastOffset` to the final entry's offset. -/
def writeBatchFinish (l1 : Log) (b : Batch) : WalRes :=
  match l1.segments.getLast? with
  | none => .err .oob l1
  | some s1 =>
    match writeLoop l1 s1.ebuf.length b.entries b.datas with
    | .err e l2 => .err e l2
    | .ok l2 mark =>
      match l2.segments.getLast?, b.entries.getLast? with
      | none, _ => .err .oob l2
      | _, none => .err .oob l2
      | some s2, some eLast =>
        if 0 < s2.ebuf.length - mark then
          let s3 := { s2 with fdata := s2.fdata ++ s2.ebuf.drop mark }
          .ok { l2 with
            segments := l2.segments.dropLast ++ [s3]
            lastOffset := eLast.offset }
        else
          .ok l2

/-- `writeBatch(b)` (the private path: callers have verified the log is open
and not corrupt, and that the batch is nonempty; an empty `b.entries` would
make `b.entries[0]` panic).  Cycle when the batch jumps past
`lastOffset + 1` or the tail buffer is over `SegmentSize`, run the entry
loop, flush the remainder past the mark and set `lastOffset` to the last
entry's offset, then fsync unless `NoSync`. -/
def writeBatch (l : Log) (b : Batch) : WalRes :=
  match b.entries.head? with
  | none => .err .oob l
  | some e0 =>
    match l.segments.getLast? with
    | none => .err .oob l
    | some s =>
      let step : WalRes :=
        if l.lastOffset + 1 < e0.offset || l.opts.SegmentSize < s.ebuf.length then
          cycle l e0.offset
        else
          .ok l
      match step with
      | .err e l1 => .err e l1
      | .ok l1 => writeBatchFinish l1 b

/-- `Write(offset, data)`: check `corrupt`/`closed`, then write a fresh
one-entry batch through `writeBatch`. -/
def Write (l : Log) (offset : Int) (data : List Nat) : WalRes :=
  if l.corrupt then .err .corrupt l
  else if l.closed then .err .closed l
  else writeBatch l (batchWrite ⟨[], []⟩ offset data)

/-- `WriteBatch(b)`: check `corrupt`/`closed`; an empty batch is a no-op. -/
def WriteBatch (l : Log) (b : Batch) : WalRes :=
  if l.corrupt then .err .corrupt l
  else if l.closed then .err .closed l
  else if b.entries.isEmpty then .ok l
  else writeBatch l b

/-- `FirstIndex()`. -/
def FirstIndex (l : Log) : Except WalErr Int :=
  if l.corrupt then .error .corrupt
  else if l.closed then .error .closed
  else .ok l.firstOffset

/-- `LastIndex()`. -/
def LastIndex (l : Log) : Except WalErr Int :=
  if l.corrupt then .error .corrupt
  else if l.closed then .error .closed
  else .ok l.lastOffset

/-- The binary-search loop of `findSegment` over `i < j`. -/
def bsearchLoop (segs : List segment) (index : Int) (i j : Nat) : Nat :=
  if hij : i < j then
    match segs.get? (i + (j - i) / 2) with
    | some s => if s.offset ≤ index then bsearchLoop segs index (i + (j - i) / 2 + 1) j
                else bsearchLoop segs index i (i + (j - i) / 2)
    | none => i
  else i
termination_by j - i
decreasing_by
  · omega
  · omega

/-- `findSegment(index)`: binary search for the last segment whose offset is
at most `index`, as an `Int` (the source returns `i - 1`, which is `-1` when
every segment starts after `index`; indexing with it would then panic). -/
def findSegment (l : Log) (index : Int) : Int :=
  (bsearchLoop l.segments index 0 l.segments.length : Int) - 1

/-- `loadSegmentEntries(s)` for segment `i`: read the segment's file and
rebuild `ebuf`/`epos` by scanning the frames. -/
def loadSegmentEntries (l : Log) (i : Nat) : Except WalErr Log :=
  match l.segments.get? i with
  | none => .error .oob
  | some s =>
    if !s.onDisk then .error .fsNotFound
    else
      match parseEntries s.fdata 0 with
      | .error e => .error e
      | .ok epos => .ok (setSeg l i { s with ebuf := s.fdata, epos := epos })

/-- The cache probe of `loadSegment`: `scache.Range` visits the most
recently used entry and the callback returns `false`, so only that entry is
checked; it hits when it covers `index`. -/
def cacheHitIdx (l : Log) (index : Int) : Option Nat :=
  match l.scache.head? with
  | none => none
  | some ci =>
    match l.segments.get? ci with
    | none => none
    | some cs =>
      if cs.offset ≤ index ∧ index < cs.offset + (cs.epos.length : Int)
      then some ci else none

/-- `loadSegment(index)`: the tail if `index` reaches it; else the most
recently used cached segment when it covers `index`; else binary-search the
segment array, materialize the segment if needed, and push it onto the
cache.  Returns the log and the index of the chosen segment. -/
def loadSegment (l : Log) (index : Int) : Except WalErr (Log × Nat) :=
  match l.segments.getLast? with
  | none => .error .oob
  | some lseg =>
    if lseg.offset ≤ index then .ok (l, l.segments.length - 1)
    else
      match cacheHitIdx l index with
      | some ci => .ok (l, ci)
      | none =>
        if findSegment l index < 0 then .error .oob
        else
          match l.segments.get? (findSegment l index).toNat with
          | none => .error .oob
          | some s =>
            if s.epos.length == 0 then
              match loadSegmentEntries l (findSegment l index).toNat with
              | .error e => .error e
              | .ok l1 => .ok (pushCache l1 (findSegment l index).toNat, (findSegment l index).toNat)
            else
              .ok (pushCache l (findSegment l index).toNat, (findSegment l index).toNat)

/-- `Read(offset)`: bounds check against `[firstOffset, lastOffset]`
(`ErrNotFound` outside), locate and load the owning segment, index its
`epos` table at `offset - s.offset` (a Go panic when out of range), slice
the frame out of `ebuf` and decode it.  `NoCopy` only decides whether the
returned bytes are a copy, so both branches yield the same value. -/
def Read (l : Log) (offset : Int) : ReadRes :=
  if l.corrupt then .err .corrupt l
  else if l.closed then .err .closed l
  else if offset < l.firstOffset ∨ l.lastOffset < offset then .err .notFound l
  else
    match loadSegment l offset with
    | .error e => .err e l
    | .ok (l1, si) =>
      match l1.segments.get? si with
      | none => .err .oob l1
      | some s =>
        let k := offset - s.offset
        if k < 0 then .err .oob l1
        else
          match s.epos.get? k.toNat with
          | none => .err .oob l1
          | some ep =>
            if s.ebuf.length < ep.endp ∨ ep.endp < ep.pos then .err .oob l1
            else
              let edata := (s.ebuf.take ep.endp).drop ep.pos
              match uvarint edata with
              | none => .err .corrupt l1
              | some (size, n) =>
                if edata.length - n < size then .err .corrupt l1
                else .ok ((edata.drop n).take size) l1

/-- Injectable *external* I/O failures (disk errors) for the filesystem calls
made by `truncateFront`/`truncateBack`, one slot per call site, carrying an
error code.  `removeAt i` is the `fs.Remove` of `l.segments[i].path`.
The ordinary entry points use `noFail` (no external failures); deterministic
failures — removing or opening a file that does not exist — are modelled
unconditionally. -/
structure FsFail where
  tempNew : Option Nat
  tempWrite : Option Nat
  tempSync : Option Nat
  tempClose : Option Nat
  commitRename : Option Nat
  tailClose : Option Nat
  removeAt : Nat → Option Nat
  finalRename : Option Nat
  reopen : Option Nat
  seek : Option Nat
  readFile : Option Nat

/-- No injected failures. -/
def noFail : FsFail :=
  ⟨none, none, none, none, none, none, fun _ => none, none, none, none, none⟩

/-- The `func() error` closure of the truncations: create `TEMP`, write
`content`, sync, close.  Returns the `TEMP` file's content afterwards
(`none` when the file was never created).  A failed write leaves the file
with unspecified partial content, modelled as empty; sync/close failures
leave the content intact.  The closure's error is *assigned* to `err` in the
source but overwritten unchecked by the subsequent rename's result, so only
the file state matters. -/
def tempPhase (fe : FsFail) (content : List Nat) : Option (List Nat) :=
  match fe.tempNew with
  | some _ => none
  | none =>
    match fe.tempWrite with
    | some _ => some []
    | none => some content

/-- The segment-file deletion loop of the truncations: `fs.Remove` each of
`cnt` segment files starting at list index `lo`.  Removing a missing file
fails with the filesystem's not-found error; `l.segments[i]` past the end
would panic. -/
def removeSegs (l : Log) (fe : FsFail) (lo : Nat) : Nat → WalRes
  | 0 => .ok l
  | cnt + 1 =>
    match fe.removeAt lo with
    | some c => .err (.ioErr c) l
    | none =>
      match l.segments.get? lo with
      | none => .err .oob l
      | some s =>
        if !s.onDisk then .err .fsNotFound l
        else removeSegs (setSeg l lo { s with onDisk := false }) fe (lo + 1) cnt

/-- `truncateFront(index)` with injectable I/O failures.  After the commit
rename (`TEMP → <index>.START`), the deferred `recover()` turns only a Go
*panic* into `ErrCorrupt` + `l.corrupt = true`; an error returned by a
cleanup call is returned verbatim with `corrupt` untouched.  `clearCache`
runs through the cached `*segment` pointers, so in the model it is applied
before the prefix drop re-indexes the list (the two orders agree on the
segment objects). -/
def truncateFrontF (l : Log) (index : Int) (fe : FsFail) : WalRes :=
  if index < l.firstOffset ∨ l.lastOffset < index then .err .outOfRange l
  else if index == l.firstOffset then .ok l
  else
    let segIdx := findSegment l index
    match loadSegment l index with
    | .error e => .err e l
    | .ok (l1, si) =>
      match l1.segments.get? si with
      | none => .err .oob l1
      | some s =>
        let k := index - s.offset
        if k < 0 ∨ (s.epos.length : Int) < k then .err .oob l1
        else
          match (s.epos.drop k.toNat).head? with
          | none => .err .oob l1
          | some e0 =>
            if s.ebuf.length < e0.pos then .err .oob l1
            else
              let ebuf := s.ebuf.drop e0.pos
              let tmp := tempPhase fe ebuf
              match fe.commitRename with
              | some c => .err (.ioErr c) l1
              | none =>
                match tmp with
                | none => .err .fsNotFound l1
                | some startContent =>
                  let isTail := segIdx == (l1.segments.length : Int) - 1
                  match (if isTail then fe.tailClose else none) with
                  | some c => .err (.ioErr c) l1
                  | none =>
                    match removeSegs l1 fe 0 (segIdx + 1).toNat with
                    | .err e l2 => .err e l2
                    | .ok l2 =>
                      match fe.finalRename with
                      | some c => .err (.ioErr c) l2
                      | none =>
                        match l2.segments.get? si with
                        | none => .err .oob l2
                        | some sNow =>
                          let l3 := setSeg l2 si
                            { sNow with offset := index, onDisk := true, fdata := startContent }
                          let fin : Log → WalRes := fun lx =>
                            if segIdx < 0 then .err .oob lx
                            else
                              let ly := clearCache lx
                              .ok { ly with
                                segments := ly.segments.drop segIdx.toNat
                                firstOffset := index }
                          if isTail then
                            match fe.reopen with
                            | some c => .err (.ioErr c) l3
                            | none =>
                              match fe.seek with
                              | some c => .err (.ioErr c) l3
                              | none =>
                                if startContent.length ≠ ebuf.length then .err .invalidSeek l3
                                else
                                  match fe.readFile with
                                  | some c => .err (.ioErr c) l3
                                  | none =>
                                    match loadSegmentEntries l3 si with
                                    | .error e => .err e l3
                                    | .ok l4 => fin l4
                          else fin l3

/-- `truncateBackAll(newFirstIndex)`: when `newFirstIndex == lastOffset` the
source returns `nil` ("nothing to truncate") leaving the log unchanged.
Otherwise it tries to create the `<newFirstIndex>.TRUNCATE` marker with
`l.openFile` — `O_WRONLY` *without* `O_CREATE` — and no such file exists at
a quiescent state, so the open fails with the filesystem's not-found error
and the function returns it before mutating anything.  (The subsequent
steps of the source — close the tail, delete every segment, rename the
marker, reopen, reset to a single empty segment with
`lastOffset = newFirstIndex - 1` — are unreachable.) -/
def truncateBackAll (l : Log) (newFirstIndex : Int) : WalRes :=
  if newFirstIndex == l.lastOffset then .ok l
  else .err .fsNotFound l

/-- `truncateBack(index)` with injectable I/O failures (same corruption
discipline as `truncateFrontF`: post-commit fs errors return verbatim,
only a panic would set `corrupt`). -/
def truncateBackF (l : Log) (index : Int) (fe : FsFail) : WalRes :=
  if index == l.firstOffset - 1 then truncateBackAll l l.firstOffset
  else if index < l.firstOffset ∨ l.lastOffset < index then .err .outOfRange l
  else if index == l.lastOffset then .ok l
  else
    let segIdx := findSegment l index
    match loadSegment l index with
    | .error e => .err e l
    | .ok (l1, si) =>
      match l1.segments.get? si with
      | none => .err .oob l1
      | some s =>
        let k := index - s.offset
        if k < 0 ∨ (s.epos.length : Int) < k + 1 then .err .oob l1
        else
          let epos1 := s.epos.take (k + 1).toNat
          match epos1.getLast? with
          | none => .err .oob l1
          | some eL =>
            if s.ebuf.length < eL.endp then .err .oob l1
            else
              let ebuf := s.ebuf.take eL.endp
              let tmp := tempPhase fe ebuf
              match fe.commitRename with
              | some c => .err (.ioErr c) l1
              | none =>
                match tmp with
                | none => .err .fsNotFound l1
                | some endContent =>
                  match fe.tailClose with
                  | some c => .err (.ioErr c) l1
                  | none =>
                    if segIdx < 0 then .err .oob l1
                    else
                      match removeSegs l1 fe segIdx.toNat
                          (l1.segments.length - segIdx.toNat) with
                      | .err e l2 => .err e l2
                      | .ok l2 =>
                        match fe.finalRename with
                        | some c => .err (.ioErr c) l2
                        | none =>
                          match l2.segments.get? si with
                          | none => .err .oob l2
                          | some sNow =>
                            let l3 := setSeg l2 si
                              { sNow with onDisk := true, fdata := endContent }
                            match fe.reopen with
                            | some c => .err (.ioErr c) l3
                            | none =>
                              match fe.seek with
                              | some c => .err (.ioErr c) l3
                              | none =>
                                if endContent.length ≠ ebuf.length then
                                  .err .invalidSeek l3
                                else
                                  let l4 := clearCache { l3 with
                                    segments := l3.segments.take (segIdx.toNat + 1)
                                    lastOffset := index }
                                  match fe.readFile with
                                  | some c => .err (.ioErr c) l4
                                  | none =>
                                    match loadSegmentEntries l4 si with
                                    | .error e => .err e l4
                                    | .ok l5 => .ok l5

/-- `TruncateFront(index)`. -/
def TruncateFront (l : Log) (index : Int) : WalRes :=
  if l.corrupt then .err .corrupt l
  else if l.closed then .err .closed l
  else truncateFrontF l index noFail

/-- `TruncateBack(index)`. -/
def TruncateBack (l : Log) (index : Int) : WalRes :=
  if l.corrupt then .err .corrupt l
  else if l.closed then .err .closed l
  else truncateBackF l index noFail

/-- `clear()`: clear the cache, best-effort delete every segment file
(`os.Remove`, errors discarded — note the source bypasses `l.fs` here),
reset `segments` and create a fresh initial segment at offset 0. -/
def clear (l : Log) : WalRes :=
  let l1 := clearCache l
  .ok (createInitialSegment { l1 with segments := [] } 0)

/-- `Clear()`. -/
def Clear (l : Log) : WalRes :=
  if l.corrupt then .err .corrupt l
  else if l.closed then .err .closed l
  else clear l

/-- `Sync()` (the fsync itself has no modelled effect). -/
def Sync (l : Log) : WalRes :=
  if l.corrupt then .err .corrupt l
  else if l.closed then .err .closed l
  else .ok l

/-- `ClearCache()`. -/
def ClearCache (l : Log) : WalRes :=
  if l.corrupt then .err .corrupt l
  else if l.closed then .err .closed l
  else .ok (clearCache l)

/-- `Close()`: sync and close the tail file, set `closed`; a corrupt log
reports `ErrCorrupt` even while closing. -/
def Close (l : Log) : WalRes :=
  if l.closed then
    if l.corrupt then .err .corrupt l else .err .closed l
  else
    let l1 := { l with closed := true }
    if l1.corrupt then .err .corrupt l1 else .ok l1

/-! ## Directory scan and recovery (`load`) -/

/-- The marker kind encoded in a segment file's name: no suffix, `.START`,
`.END`, or `.TRUNCATE`. -/
inductive FKind where
  | plain
  | start
  | fend
  | trunc
deriving DecidableEq, Repr

/-- One directory entry surviving the name filter of `load` (basename starts
with 20 digits and is bare or carries one of the three suffixes), in the
sorted order `afero.ReadDir` returns; `offset` is the parsed 20-digit
prefix and `content` the file's bytes. -/
structure DirEntry where
  offset : Int
  kind : FKind
  content : List Nat
deriving DecidableEq, Repr

/-- Scan state of `load`: the accumulated segment list and the recorded
marker positions (`-1` = absent). -/
structure ScanSt where
  segs : List segment
  startIdx : Int
  endIdx : Int
  truncIdx : Int
deriving DecidableEq, Repr

/-- The directory loop of `load`: skip entries parsing to `-1`; remember the
*last* START, the *first* END, and fail with `ErrCorrupt` on a second
TRUNCATE; append a (dormant) segment for every surviving entry. -/
def scanDir : List DirEntry → ScanSt → Except WalErr ScanSt
  | [], st => .ok st
  | f :: rest, st =>
    if f.offset == -1 then scanDir rest st
    else
      let seg : segment := ⟨f.offset, true, f.content, [], []⟩
      match f.kind with
      | .start =>
        scanDir rest { st with startIdx := st.segs.length, segs := st.segs ++ [seg] }
      | .fend =>
        scanDir rest { st with
          endIdx := if st.endIdx == -1 then (st.segs.length : Int) else st.endIdx
          segs := st.segs ++ [seg] }
      | .trunc =>
        if st.truncIdx != -1 then .error .corrupt
        else scanDir rest { st with truncIdx := st.segs.length, segs := st.segs ++ [seg] }
      | .plain =>
        scanDir rest { st with segs := st.segs ++ [seg] }

/-- The scan plus the marker-conflict check of `load`: with at least one
segment present, any two of START/END/TRUNCATE being present is
`ErrCorrupt` (a second TRUNCATE already failed inside the scan). -/
def loadMarkerCheck (dir : List DirEntry) : Except WalErr ScanSt :=
  match scanDir dir ⟨[], -1, -1, -1⟩ with
  | .error e => .error e
  | .ok st =>
    if st.segs.isEmpty then .ok st
    else if (st.startIdx != -1 && st.endIdx != -1) ||
            (st.startIdx != -1 && st.truncIdx != -1) ||
            (st.truncIdx != -1 && st.endIdx != -1) then .error .corrupt
    else .ok st

/-- A `Log` before `load` fills it in (the zero value plus options). -/
def emptyLog (opts : Options) : Log :=
  { opts := opts, closed := false, corrupt := false, segments := [],
    firstOffset := 0, lastOffset := 0, scache := [] }

/-- The recovery tail of `load` after the marker check: apply the START /
END / TRUNCATE cleanup branches, then set `firstOffset`, open the last
segment for appending, materialize it and set `lastOffset`.  File deletions
and the suffix-dropping renames act on files that the scan proved present,
so only the final materialization can fail (`ErrCorrupt` on bad frames). -/
def loadFinish (opts : Options) (st : ScanSt) : Except WalErr Log :=
  if st.segs.isEmpty then .ok (createInitialSegment (emptyLog opts) 0)
  else
    let segs1 :=
      if st.startIdx != -1 then st.segs.drop st.startIdx.toNat
      else st.segs
    let segs2 :=
      if st.endIdx != -1 then
        let kept := segs1.take (st.endIdx.toNat + 1)
        if 2 ≤ kept.length ∧
            (kept.get? (kept.length - 2)).map segment.offset =
            (kept.get? (kept.length - 1)).map segment.offset then
          (kept.take (kept.length - 2)) ++ kept.drop (kept.length - 1)
        else kept
      else segs1
    let segs3 :=
      if st.truncIdx != -1 then
        match st.segs.get? st.truncIdx.toNat with
        | some s => [s]
        | none => segs2
      else segs2
    match segs3.head?, segs3.getLast? with
    | none, _ => .error .oob
    | _, none => .error .oob
    | some s0, some _ =>
      let l0 := { emptyLog opts with segments := segs3, firstOffset := s0.offset }
      match loadSegmentEntries l0 (segs3.length - 1) with
      | .error e => .error e
      | .ok l1 =>
        match l1.segments.getLast? with
        | none => .error .oob
        | some lseg =>
          .ok { l1 with lastOffset := lseg.offset + (lseg.epos.length : Int) - 1 }

/-- `load()`: scan the directory, reject conflicting markers, then recover. -/
def load (opts : Options) (dir : List DirEntry) : Except WalErr Log :=
  match loadMarkerCheck dir with
  | .error e => .error e
  | .ok st => loadFinish opts st

/-- `OpenWithShard`'s option normalization: zero-valued sizes fall back to
the defaults. -/
def normalizeOpts (opts : Options) : Options :=
  { opts with
    SegmentCacheSize :=
      if opts.SegmentCacheSize == 0 then DefaultOptions.SegmentCacheSize
      else opts.SegmentCacheSize
    SegmentSize :=
      if opts.SegmentSize == 0 then DefaultOptions.SegmentSize
      else opts.SegmentSize }

/-- `open(path, opts)` over a directory listing: normalize options, make the
directory, `load`. -/
def openLog (opts : Options) (dir : List DirEntry) : Except WalErr Log :=
  load (normalizeOpts opts) dir

/-- The quiescent directory listing backing a log: one plain segment file per
`onDisk` segment (marker and `TEMP` files exist only inside an operation).
For the nonnegative, strictly sorted offsets of reachable states this list
is in the filename order `afero.ReadDir` produces. -/
def dirOf (l : Log) : List DirEntry :=
  l.segments.filterMap fun s =>
    if s.onDisk then some ⟨s.offset, .plain, s.fdata⟩ else none

/-! ## Specification layer

Abstract views of a log state and the well-formedness invariant that
successful contract-respecting operations preserve.  Everything here is
derived from the on-disk content (`offset`/`onDisk`/`fdata`), which is what
survives `Close`/`open`. -/

/-- The record left in `l.segments` after `cycle` deletes the initial empty
segment's file. -/
def staleSeg : segment := ⟨0, false, [], [], []⟩

/-- The entry list a segment's file encodes (meaningful when `decEntries`
succeeds). -/
def segEs (s : segment) : List (List Nat) := (decEntries s.fdata).getD []

/-- The observable core of a segment: what `Close`/`open` and the readers'
data path depend on. -/
def segCore (s : segment) : Int × Bool × List Nat := (s.offset, s.onDisk, s.fdata)

/-- The entry a single segment's file stores for offset `off`. -/
def segLookup (s : segment) (off : Int) : Option (List Nat) :=
  match decEntries s.fdata with
  | none => none
  | some es => es.get? (off - s.offset).toNat

/-- The entry stored for offset `off` by a segment list: the last segment
whose base offset is at most `off` owns it, holding it at position
`off - offset` of its decoded file. -/
def entriesAt (segs : List segment) (off : Int) : Option (List Nat) :=
  match (segs.takeWhile fun s => decide (s.offset ≤ off)).getLast? with
  | none => none
  | some s => segLookup s off

/-- The segments whose file exists. -/
def liveOf (l : Log) : List segment := l.segments.filter (·.onDisk)

/-- Total number of entries stored on disk. -/
def entryCount (l : Log) : Nat :=
  ((liveOf l).map fun s => (segEs s).length).sum

/-- A segment whose file exists and holds the canonical frame encoding of
some entry list, with the in-memory cache either absent or exactly
mirroring the file. -/
def segLive (s : segment) : Prop :=
  s.onDisk = true ∧ (∃ es, s.fdata = frames es) ∧
    ((s.ebuf = [] ∧ s.epos = []) ∨
      (s.ebuf = s.fdata ∧ s.epos = posOf (segEs s) 0))

/-- A materialized segment: buffer and position table mirror the file. -/
def segMat (s : segment) : Prop :=
  s.ebuf = s.fdata ∧ s.epos = posOf (segEs s) 0

/-- Segment ordering: bases strictly increase and each segment's entry range
ends at or before the next base (jumps leave gaps). -/
def segOrder (a b : segment) : Prop :=
  a.offset < b.offset ∧ a.offset + ((segEs a).length : Int) ≤ b.offset

/-- Well-formedness of an open log: the invariant of every state reachable
from a fresh log by successful appends that respect the write contract
(consecutive offsets within a batch, each batch starting at
`lastOffset + 1` or beyond, nonnegative) and successful truncations.  -/
structure WF (l : Log) : Prop where
  notClosed : l.closed = false
  notCorrupt : l.corrupt = false
  capPos : 1 ≤ l.opts.SegmentCacheSize
  shape : l.segments = liveOf l ∨ l.segments = staleSeg :: liveOf l
  liveNe : liveOf l ≠ []
  liveAll : ∀ s ∈ liveOf l, segLive s
  liveNonneg : ∀ s ∈ liveOf l, 0 ≤ s.offset
  ordered : l.segments.Pairwise segOrder
  adjEmpty : (liveOf l).Chain' fun a b =>
    segEs b = [] → a.offset + ((segEs a).length : Int) = b.offset
  firstEq : ∀ h, (liveOf l).head? = some h → l.firstOffset = h.offset
  tailMat : ∀ t, l.segments.getLast? = some t →
    segMat t ∧ l.lastOffset = t.offset + ((segEs t).length : Int) - 1
  headNonempty : l.firstOffset ≤ l.lastOffset →
    ∀ h, (liveOf l).head? = some h → segEs h ≠ []
  cacheBound : ∀ i ∈ l.scache, i + 1 < l.segments.length
  cacheNodup : l.scache.Nodup

/-- Batch entry records for consecutive offsets `o0, o0+1, …` with the given
payloads. -/
def mkEntries (o0 : Int) : List (List Nat) → List batchEntry
  | [] => []
  | d :: rest => ⟨o0, d.length⟩ :: mkEntries (o0 + 1) rest

/-- The `Batch` a caller builds with `Batch.Write` for consecutive offsets
from `o0` with the given payloads. -/
def mkBatch (o0 : Int) (ds : List (List Nat)) : Batch :=
  ⟨mkEntries o0 ds, ds.flatten⟩

/-- States reachable from a freshly opened empty directory by successful
operations, appends respecting the write contract. -/
inductive Reach (opts : Options) : Log → Prop where
  | openR {l} : openLog opts [] = .ok l → Reach opts l
  | writeR {l l1 o0 ds} : Reach opts l → 0 ≤ o0 → l.lastOffset + 1 ≤ o0 →
      ds ≠ [] → WriteBatch l (mkBatch o0 ds) = .ok l1 → Reach opts l1
  | truncFrontR {l l1 i} : Reach opts l → TruncateFront l i = .ok l1 → Reach opts l1
  | truncBackR {l l1 i} : Reach opts l → TruncateBack l i = .ok l1 → Reach opts l1
  | clearR {l l1} : Reach opts l → Clear l = .ok l1 → Reach opts l1
  | syncR {l l1} : Reach opts l → Sync l = .ok l1 → Reach opts l1
  | clearCacheR {l l1} : Reach opts l → ClearCache l = .ok l1 → Reach opts l1
  | readR {l l1 off d} : Reach opts l → Read l off = .ok d l1 → Reach opts l1

/-- A marker kind is present in the directory listing (ignoring entries the
scan skips). -/
def hasKind (dir : List DirEntry) (k : FKind) : Bool :=
  dir.any fun f => f.kind == k && f.offset != -1

/-- Number of TRUNCATE marker files in the listing. -/
def countTrunc (dir : List DirEntry) : Nat :=
  (dir.filter fun f => f.kind == FKind.trunc && f.offset != -1).length

/-- Marker combinations the scan of `load` rejects: two *distinct* marker
kinds present, or at least two TRUNCATE files. -/
def markerConflict (dir : List DirEntry) : Bool :=
  (hasKind dir .start && hasKind dir .fend) ||
  (hasKind dir .start && hasKind dir .trunc) ||
  (hasKind dir .trunc && hasKind dir .fend) ||
  decide (2 ≤ countTrunc dir)

/-- The segment list as it would stand after flushing the tail's entry
buffer to its file: `writeBatch` keeps the tail's `fdata` behind its `ebuf`
mid-loop and reconciles them with the final flush. -/
def completeSegs (L : List segment) : List segment :=
  match L.getLast? with
  | none => []
  | some t => L.dropLast ++ [{ t with fdata := t.ebuf }]

/-- Invariant of the `writeBatch` entry loop.  The log's segments split as
`base ++ [t]`; `t` is the tail receiving appends, holding the framed entries
`tes` in its buffer with the first `mark` buffer bytes already flushed to its
file; `base` carries every already-complete segment (plus possibly the stale
head record). -/
structure MidInv (l : Log) (base : List segment) (t : segment)
    (tes : List (List Nat)) (mark : Nat) : Prop where
  segsEq : l.segments = base ++ [t]
  notClosed : l.closed = false
  notCorrupt : l.corrupt = false
  capPos : 1 ≤ l.opts.SegmentCacheSize
  baseLive : ∀ s ∈ base, s.onDisk = true → segLive s
  baseClean : ∀ s ∈ base, s.onDisk = false → s.ebuf = [] ∧ s.epos = []
  baseNonneg : ∀ s ∈ base, 0 ≤ s.offset
  baseOrd : base.Pairwise segOrder
  baseChain : (base.filter (·.onDisk)).Chain' fun a b =>
    segEs b = [] → a.offset + ((segEs a).length : Int) = b.offset
  shape : base.filter (·.onDisk) = base ∨
    ∃ b2, base = staleSeg :: b2 ∧ b2.filter (·.onDisk) = b2
  tDisk : t.onDisk = true
  tEbuf : t.ebuf = frames tes
  tEpos : t.epos = posOf tes 0
  tFdata : t.fdata = (frames tes).take mark
  tMark : mark ≤ (frames tes).length
  tNonneg : 0 ≤ t.offset
  crossOrd : ∀ s ∈ base, s.offset < t.offset ∧ s.offset + ((segEs s).length : Int) ≤ t.offset
  firstEq : ∀ h, (liveOf l).head? = some h → l.firstOffset = h.offset
  headNe : l.firstOffset + 1 ≤ t.offset + (tes.length : Int) →
    ∀ h, (base.filter (fun s => s.onDisk) ++ [({ t with fdata := t.ebuf } : segment)]).head? = some h →
      segEs h ≠ []
  cacheBound : ∀ i ∈ l.scache, i + 1 < l.segments.length
  cacheNodup : l.scache.Nodup

/-! ## Concrete example states

Small reachable (and one contract-violating) logs used to exercise the
operations on explicit inputs. -/

/-- The log `openLog DefaultOptions []` produces: a single fresh empty
segment at offset 0. -/
def exFresh : Log := createInitialSegment (emptyLog (normalizeOpts DefaultOptions)) 0

/-- On-disk segment holding the single entry `[7]` at offset 0. -/
def exSeg1 : segment :=
  { offset := 0, onDisk := true, fdata := [1, 7], ebuf := [1, 7], epos := [{ pos := 0, endp := 2 }] }

/-- On-disk segment holding the entries `[7]`, `[8]` at offsets 0 and 1. -/
def exSeg2 : segment :=
  { offset := 0, onDisk := true, fdata := [1, 7, 1, 8], ebuf := [1, 7, 1, 8],
    epos := [{ pos := 0, endp := 2 }, { pos := 2, endp := 4 }] }

/-- The fresh log after appending `[7]` at offset 0. -/
def exOne : Log :=
  { opts := DefaultOptions, closed := false, corrupt := false, segments := [exSeg1],
    firstOffset := 0, lastOffset := 0, scache := [] }

/-- The fresh log after appending `[7]`, `[8]` at offsets 0 and 1. -/
def exTwo : Log :=
  { opts := DefaultOptions, closed := false, corrupt := false, segments := [exSeg2],
    firstOffset := 0, lastOffset := 1, scache := [] }

/-- Result of writing a batch with the offset gap 0, 2 on the fresh log:
two entries on disk but `lastOffset = 2`. -/
def exGap : Log :=
  { opts := DefaultOptions, closed := false, corrupt := false, segments := [exSeg2],
    firstOffset := 0, lastOffset := 2, scache := [] }

/-- Result of `Write exFresh (-2) [7]`: the entry lands at slot 0 of the
segment yet `lastOffset = -2 < firstOffset`. -/
def exNeg : Log :=
  { opts := DefaultOptions, closed := false, corrupt := false, segments := [exSeg1],
    firstOffset := 0, lastOffset := -2, scache := [] }

/-- Result of appending at offset 3 over `exOne`: a hole at offsets 1–2. -/
def exJumpSeg : segment :=
  { offset := 3, onDisk := true, fdata := [1, 9], ebuf := [1, 9],
    epos := [{ pos := 0, endp := 2 }] }

/-- Result of appending at offset 3 over `exOne`: a hole at offsets 1-2. -/
def exJump : Log :=
  { opts := DefaultOptions, closed := false, corrupt := false,
    segments := [exSeg1, exJumpSeg],
    firstOffset := 0, lastOffset := 3, scache := [0] }

/-- State `truncateFrontF exTwo 1` leaves behind when the post-commit
reopen of the new start segment fails: the truncation is on disk but the
in-memory offsets were never updated, and `corrupt` is still `false`. -/
def exErr5Seg : segment :=
  { offset := 1, onDisk := true, fdata := [1, 8], ebuf := [1, 7, 1, 8],
    epos := [{ pos := 0, endp := 2 }, { pos := 2, endp := 4 }] }

/-- See `exErr5Seg`: the log carrying it after the failed reopen. -/
def exErr5 : Log :=
  { opts := DefaultOptions, closed := false, corrupt := false, segments := [exErr5Seg],
    firstOffset := 0, lastOffset := 1, scache := [] }

/-- A directory listing holding two START marker files. -/
def exDir2S : List DirEntry :=
  [{ offset := 0, kind := FKind.start, content := [1, 7] },
   { offset := 1, kind := FKind.start, content := [1, 8] }]


/-! ## Codec lemmas -/

theorem putUvarint_ne_nil (x : Nat) : putUvarint x ≠ [] := by
  rw [putUvarint]
  split <;> simp

theorem frames_cons (e : List Nat) (r : List (List Nat)) :
    frames (e :: r) = frameOf e ++ frames r := by
  simp [frames]

theorem uvarint_put (x : Nat) (rest : List Nat) :
    uvarint (putUvarint x ++ rest) = some (x, (putUvarint x).length) := by
  induction x using putUvarint.induct with
  | case1 x hlt =>
    rw [putUvarint, if_pos hlt]
    simp [uvarint, hlt]
  | case2 x hlt ih =>
    rw [putUvarint, if_neg hlt]
    have hb : ¬(x % 128 + 128 < 128) := by omega
    simp only [List.cons_append, uvarint, if_neg hb, List.append_eq]
    rw [ih]
    have hx : x / 128 * 128 + (x % 128 + 128) % 128 = x := by omega
    simp only [hx, List.length_cons]

theorem loadNextEntry_frame (e : List Nat) (rest : List Nat) :
    loadNextEntry (frameOf e ++ rest) = .ok (frameOf e).length := by
  unfold loadNextEntry
  rw [frameOf, List.append_assoc, uvarint_put]
  simp only []
  have h2 : ¬((putUvarint e.length ++ (e ++ rest)).length - (putUvarint e.length).length < e.length) := by
    simp
  rw [if_neg h2]
  simp [frameOf]

theorem posOf_append (a b : List (List Nat)) (p : Nat) :
    posOf (a ++ b) p = posOf a p ++ posOf b (p + (frames a).length) := by
  induction a generalizing p with
  | nil => simp [posOf, frames]
  | cons e r ih =>
    simp only [List.cons_append, posOf, List.append_eq, ih, frames_cons, List.length_append]
    have : p + ((frameOf e).length + (frames r).length) = p + (frameOf e).length + (frames r).length := by omega
    rw [this]
theorem frameOf_ne_nil (e : List Nat) : frameOf e ≠ [] := by
  simp [frameOf, putUvarint_ne_nil]

theorem posOf_length (es : List (List Nat)) (p : Nat) :
    (posOf es p).length = es.length := by
  induction es generalizing p with
  | nil => rfl
  | cons e r ih => simp [posOf, ih]

theorem parseEntries_frames (es : List (List Nat)) (p : Nat) :
    parseEntries (frames es) p = .ok (posOf es p) := by
  induction es generalizing p with
  | nil => rw [parseEntries]; simp [frames, posOf]
  | cons e r ih =>
    rw [parseEntries]
    have hne : frames (e :: r) ≠ [] := by
      rw [frames_cons]
      intro hc
      exact frameOf_ne_nil e (List.append_eq_nil.mp hc).1
    rw [dif_neg hne]
    have hload : loadNextEntry (frames (e :: r)) = .ok (frameOf e).length := by
      rw [frames_cons]; exact loadNextEntry_frame e (frames r)
    have hdrop : (frames (e :: r)).drop (frameOf e).length = frames r := by
      rw [frames_cons, List.drop_append_of_le_length (le_refl _), List.drop_length]
      simp
    split
    · rename_i e1 heq
      rw [hload] at heq
      cases heq
    · rename_i n heq
      rw [hload] at heq
      injection heq with heq
      subst heq
      rw [hdrop, ih]
      simp [posOf]
theorem decEntries_frames (es : List (List Nat)) :
    decEntries (frames es) = some es := by
  induction es with
  | nil => rw [decEntries]; simp [frames]
  | cons e r ih =>
    rw [decEntries]
    have hne : frames (e :: r) ≠ [] := by
      rw [frames_cons]
      intro hc
      exact frameOf_ne_nil e (List.append_eq_nil.mp hc).1
    rw [dif_neg hne]
    have hload : loadNextEntry (frames (e :: r)) = .ok (frameOf e).length := by
      rw [frames_cons]; exact loadNextEntry_frame e (frames r)
    have huv : uvarint (frames (e :: r)) = some (e.length, (putUvarint e.length).length) := by
      rw [frames_cons, frameOf, List.append_assoc]
      exact uvarint_put e.length (e ++ frames r)
    have hdrop : (frames (e :: r)).drop (frameOf e).length = frames r := by
      rw [frames_cons, List.drop_append_of_le_length (le_refl _), List.drop_length]
      simp
    have hdropm : (frames (e :: r)).drop (putUvarint e.length).length = e ++ frames r := by
      rw [frames_cons, frameOf, List.append_assoc,
        List.drop_append_of_le_length (le_refl _), List.drop_length]
      simp
    split
    · rename_i e1 heq
      rw [hload] at heq
      cases heq
    · rename_i n heq
      rw [hload] at heq
      injection heq with heq
      subst heq
      split
      · rename_i heq2
        rw [huv] at heq2
        cases heq2
      · rename_i size m heq2
        rw [huv] at heq2
        injection heq2 with heq2
        obtain ⟨h1, h2⟩ := Prod.mk.injEq .. ▸ heq2
        subst h1
        subst h2
        rw [hdrop, ih, hdropm]
        rw [List.take_append_of_le_length (le_refl _), List.take_length]

theorem posOf_slice (es : List (List Nat)) (pre : List Nat) (i : Nat) (ep : bpos)
    (e : List Nat) (hp : (posOf es pre.length).get? i = some ep)
    (he : es.get? i = some e) :
    ((pre ++ frames es).take ep.endp).drop ep.pos = frameOf e ∧
      ep.pos + (frameOf e).length = ep.endp ∧
      ep.endp ≤ pre.length + (frames es).length ∧
      ep.pos = pre.length + (frames (es.take i)).length := by
  induction es generalizing pre i with
  | nil => simp [posOf] at hp
  | cons e0 r ih =>
    cases i with
    | zero =>
      simp only [posOf, List.get?] at hp
      cases hp
      simp only [List.get?] at he
      cases he
      dsimp only
      refine ⟨?_, rfl, ?_, ?_⟩
      · rw [frames_cons, ← List.append_assoc]
        rw [List.take_append_of_le_length (by simp)]
        have hfull : pre.length + (frameOf e).length = (pre ++ frameOf e).length := by simp
        rw [hfull, List.take_length]
        rw [List.drop_append_of_le_length (le_refl _), List.drop_length]
        simp
      · simp [frames_cons]
      · simp [frames]
    | succ n =>
      simp only [posOf, List.get?] at hp
      simp only [List.get?] at he
      have hlen : pre.length + (frameOf e0).length = (pre ++ frameOf e0).length := by simp
      rw [hlen] at hp
      have := ih (pre ++ frameOf e0) n hp he
      rw [List.append_assoc] at this
      rw [← frames_cons] at this
      refine ⟨this.1, this.2.1, ?_, ?_⟩
      · have h3 := this.2.2.1
        simp only [List.length_append, frames_cons] at h3 ⊢
        simp at h3 ⊢
        omega
      · have h4 := this.2.2.2
        simp only [List.length_append] at h4
        simp only [List.take_succ_cons, frames_cons, List.length_append]
        omega

theorem frame_read (e : List Nat) :
    uvarint (frameOf e) = some (e.length, (putUvarint e.length).length) ∧
      ((frameOf e).drop (putUvarint e.length).length).take e.length = e := by
  constructor
  · have := uvarint_put e.length e
    simpa [frameOf] using this
  · rw [frameOf, List.drop_append_of_le_length (le_refl _), List.drop_length]
    simp

theorem putUvarint_length_pos (x : Nat) : 1 ≤ (putUvarint x).length :=
  List.length_pos.mpr (putUvarint_ne_nil x)

theorem frameOf_length (e : List Nat) :
    (frameOf e).length = (putUvarint e.length).length + e.length := by
  simp [frameOf]

theorem frames_nil : frames [] = [] := rfl

theorem frames_append (a b : List (List Nat)) :
    frames (a ++ b) = frames a ++ frames b := by
  simp [frames]

theorem decEntries_nil : decEntries [] = some [] := by
  rw [decEntries]; simp


/-! ## Binary search and owner lookup -/

/-- Number of segments whose base offset is at most `index` (for a sorted
segment list this is the upper-bound position of `index`). -/
def leCount (segs : List segment) (index : Int) : Nat :=
  (segs.takeWhile fun s => decide (s.offset ≤ index)).length

theorem leCount_le_length (segs : List segment) (index : Int) :
    leCount segs index ≤ segs.length :=
  le_trans (List.length_le_of_sublist (List.takeWhile_prefix _).sublist) (le_refl _)

theorem leCount_iff (segs : List segment) (index : Int)
    (hsorted : segs.Pairwise fun a b => a.offset < b.offset) (k : Nat) (s : segment)
    (hget : segs.get? k = some s) :
    s.offset ≤ index ↔ k < leCount segs index := by
  induction segs generalizing k with
  | nil => simp at hget
  | cons a r ih =>
    have hsr : r.Pairwise fun x y => x.offset < y.offset := (List.pairwise_cons.mp hsorted).2
    have hamem : ∀ b ∈ r, a.offset < b.offset := (List.pairwise_cons.mp hsorted).1
    cases k with
    | zero =>
      simp only [List.get?] at hget
      cases hget
      unfold leCount
      rw [List.takeWhile_cons]
      by_cases hle : s.offset ≤ index
      · simp [hle]
      · simp [hle]
    | succ n =>
      simp only [List.get?] at hget
      have hmem : s ∈ r := List.get?_mem hget
      unfold leCount
      rw [List.takeWhile_cons]
      by_cases hle : a.offset ≤ index
      · rw [if_pos (by simpa using hle)]
        simp only [List.length_cons]
        have := ih hsr n hget
        unfold leCount at this
        rw [this]
        omega
      · rw [if_neg (by simpa using hle)]
        simp only [List.length_nil]
        constructor
        · intro hs
          have := hamem s hmem
          omega
        · omega

theorem bsearchLoop_eq (segs : List segment) (index : Int) (ub : Nat)
    (hub : ub ≤ segs.length)
    (hlt : ∀ k s, k < ub → segs.get? k = some s → s.offset ≤ index)
    (hge : ∀ k s, ub ≤ k → segs.get? k = some s → index < s.offset) :
    ∀ i j, i ≤ ub → ub ≤ j → j ≤ segs.length → bsearchLoop segs index i j = ub := by
  intro i j
  induction i, j using bsearchLoop.induct segs index with
  | case1 i j hij s hgs hle ih =>
    intro hi hj hlen
    rw [bsearchLoop, dif_pos hij, hgs]
    dsimp only
    rw [if_pos hle]
    have hhub : i + (j - i) / 2 < ub := by
      by_contra hc
      exact absurd hle (not_le.mpr (hge _ s (le_of_not_lt hc) hgs))
    exact ih hhub hj hlen
  | case2 i j hij s hgs hle ih =>
    intro hi hj hlen
    rw [bsearchLoop, dif_pos hij, hgs]
    dsimp only
    rw [if_neg hle]
    have hhub : ub ≤ i + (j - i) / 2 := by
      by_contra hc
      exact absurd (hlt _ s (lt_of_not_le hc) hgs) hle
    have hh : i + (j - i) / 2 < j := by omega
    exact ih hi hhub (le_trans (le_of_lt hh) hlen)
  | case3 i j hij hgs =>
    intro hi hj hlen
    exfalso
    have hlt2 : i + (j - i) / 2 < segs.length := by omega
    rw [List.get?_eq_none] at hgs
    omega
  | case4 i j hij =>
    intro hi hj hlen
    rw [bsearchLoop, dif_neg hij]
    omega

theorem findSegment_eq (l : Log) (index : Int)
    (hsorted : l.segments.Pairwise fun a b => a.offset < b.offset) :
    findSegment l index = (leCount l.segments index : Int) - 1 := by
  unfold findSegment
  congr 1
  have hub := leCount_le_length l.segments index
  have h := bsearchLoop_eq l.segments index (leCount l.segments index) hub
    (fun k s hk hget => (leCount_iff l.segments index hsorted k s hget).mpr hk)
    (fun k s hk hget => by
      by_contra hc
      have := (leCount_iff l.segments index hsorted k s hget).mp (le_of_not_lt hc)
      omega)
    0 l.segments.length (Nat.zero_le _) hub (le_refl _)
  rw [h]
theorem takeWhile_getLast_eq (segs : List segment) (index : Int)
    (h : 1 ≤ leCount segs index) :
    (segs.takeWhile fun s => decide (s.offset ≤ index)).getLast? =
      segs.get? (leCount segs index - 1) := by
  obtain ⟨t, ht⟩ := List.takeWhile_prefix (l := segs) (p := fun s => decide (s.offset ≤ index))
  unfold leCount at *
  rw [List.getLast?_eq_get?]
  generalize hg : List.takeWhile (fun s => decide (s.offset ≤ index)) segs = tw at ht h ⊢
  rw [← ht, List.get?_append (by omega)]

theorem entriesAt_none (segs : List segment) (off : Int)
    (h : leCount segs off = 0) : entriesAt segs off = none := by
  unfold entriesAt
  have : (segs.takeWhile fun s => decide (s.offset ≤ off)) = [] :=
    List.eq_nil_of_length_eq_zero h
  rw [this]
  rfl

theorem entriesAt_owner (segs : List segment) (off : Int) (s : segment)
    (h : 1 ≤ leCount segs off) (hget : segs.get? (leCount segs off - 1) = some s) :
    entriesAt segs off = segLookup s off := by
  unfold entriesAt
  rw [takeWhile_getLast_eq segs off h, hget]

theorem leCount_congr (segs1 segs2 : List segment) (off : Int)
    (h : segs1.map segCore = segs2.map segCore) :
    leCount segs1 off = leCount segs2 off := by
  induction segs1 generalizing segs2 with
  | nil =>
    cases segs2 with
    | nil => rfl
    | cons b r2 => simp at h
  | cons a r ih =>
    cases segs2 with
    | nil => simp at h
    | cons b r2 =>
      simp only [List.map_cons, List.cons.injEq] at h
      obtain ⟨hab, hr⟩ := h
      have ho : a.offset = b.offset := congrArg Prod.fst hab
      by_cases hle : b.offset ≤ off
      · have e1 : leCount (a :: r) off = 1 + leCount r off := by
          unfold leCount
          rw [List.takeWhile_cons, if_pos (by simpa [ho] using hle)]
          simp [Nat.add_comm]
        have e2 : leCount (b :: r2) off = 1 + leCount r2 off := by
          unfold leCount
          rw [List.takeWhile_cons, if_pos (by simpa using hle)]
          simp [Nat.add_comm]
        rw [e1, e2, ih r2 hr]
      · have e1 : leCount (a :: r) off = 0 := by
          unfold leCount
          rw [List.takeWhile_cons, if_neg (by simpa [ho] using hle)]
          rfl
        have e2 : leCount (b :: r2) off = 0 := by
          unfold leCount
          rw [List.takeWhile_cons, if_neg (by simpa using hle)]
          rfl
        rw [e1, e2]

theorem get_core_congr (segs1 segs2 : List segment) (k : Nat)
    (h : segs1.map segCore = segs2.map segCore) (s : segment)
    (hget : segs1.get? k = some s) :
    ∃ s2, segs2.get? k = some s2 ∧ segCore s2 = segCore s := by
  have h1 : (segs1.map segCore).get? k = some (segCore s) := by
    rw [List.get?_map, hget]
    rfl
  rw [h, List.get?_map] at h1
  cases hg2 : segs2.get? k with
  | none => rw [hg2] at h1; simp at h1
  | some s2 =>
    rw [hg2] at h1
    simp only [Option.map_some'] at h1
    exact ⟨s2, rfl, Option.some.injEq .. ▸ h1⟩

theorem entriesAt_congr (segs1 segs2 : List segment) (off : Int)
    (h : segs1.map segCore = segs2.map segCore) :
    entriesAt segs1 off = entriesAt segs2 off := by
  have hc := leCount_congr segs1 segs2 off h
  by_cases h0 : leCount segs1 off = 0
  · rw [entriesAt_none _ _ h0, entriesAt_none _ _ (hc ▸ h0)]
  · have h1 : 1 ≤ leCount segs1 off := by omega
    have hlen : leCount segs1 off ≤ segs1.length := leCount_le_length _ _
    have hlt : leCount segs1 off - 1 < segs1.length := by omega
    cases hget : segs1.get? (leCount segs1 off - 1) with
    | none => rw [List.get?_eq_none] at hget; omega
    | some s =>
      obtain ⟨s2, hget2, hcore⟩ := get_core_congr segs1 segs2 _ h s hget
      rw [entriesAt_owner segs1 off s h1 hget,
        entriesAt_owner segs2 off s2 (by omega) (by rw [← hc]; exact hget2)]
      have hf : s2.fdata = s.fdata := congrArg (fun c => c.2.2) hcore
      have ho : s2.offset = s.offset := congrArg Prod.fst hcore
      unfold segLookup
      rw [hf, ho]
/-! ## Snoc lemmas for the owner lookup -/

theorem takeWhile_append_neg {α : Type} (p : α → Bool) (L : List α) (s : α)
    (hs : p s = false) : (L ++ [s]).takeWhile p = L.takeWhile p := by
  induction L with
  | nil => simp [List.takeWhile, hs]
  | cons a r ih =>
    cases hpa : p a <;> simp [List.takeWhile, hpa, ih]

theorem takeWhile_append_pos {α : Type} (p : α → Bool) (L : List α) (s : α)
    (hL : ∀ x ∈ L, p x = true) (hs : p s = true) :
    (L ++ [s]).takeWhile p = L ++ [s] := by
  induction L with
  | nil => simp [List.takeWhile, hs]
  | cons a r ih =>
    have hpa : p a = true := hL a (by simp)
    simp only [List.cons_append, List.takeWhile, hpa, List.append_eq]
    rw [ih fun x hx => hL x (by simp [hx])]

theorem entriesAt_nil (off : Int) : entriesAt [] off = none := rfl

theorem entriesAt_snoc_lt (L : List segment) (s : segment) (off : Int)
    (h : off < s.offset) : entriesAt (L ++ [s]) off = entriesAt L off := by
  unfold entriesAt
  rw [takeWhile_append_neg _ _ _ (by simp; omega)]

theorem entriesAt_snoc_owner (L : List segment) (s : segment) (off : Int)
    (hL : ∀ x ∈ L, x.offset ≤ off) (hs : s.offset ≤ off) :
    entriesAt (L ++ [s]) off = segLookup s off := by
  unfold entriesAt
  rw [takeWhile_append_pos _ _ _ (fun x hx => by simp [hL x hx]) (by simp [hs]),
    List.getLast?_concat]

theorem segLookup_frames {s : segment} {es : List (List Nat)}
    (h : s.fdata = frames es) (off : Int) :
    segLookup s off = es.get? (off - s.offset).toNat := by
  unfold segLookup
  rw [h, decEntries_frames]

theorem completeSegs_snoc (base : List segment) (t : segment) :
    completeSegs (base ++ [t]) = base ++ [{ t with fdata := t.ebuf }] := by
  unfold completeSegs
  rw [List.getLast?_concat, List.dropLast_concat]

/-! ## Well-formedness helpers -/

theorem segEs_frames {s : segment} {es : List (List Nat)} (h : s.fdata = frames es) :
    segEs s = es := by
  unfold segEs
  rw [h, decEntries_frames]
  rfl

theorem segEs_decEntries {s : segment} {es : List (List Nat)} (h : s.fdata = frames es) :
    decEntries s.fdata = some (segEs s) := by
  rw [segEs_frames h, h, decEntries_frames]

theorem staleSeg_segEs : segEs staleSeg = [] := by
  unfold segEs staleSeg
  rw [show (⟨0, false, [], [], []⟩ : segment).fdata = frames [] from rfl, decEntries_frames]
  rfl

theorem WF.sorted_lt {l : Log} (h : WF l) :
    l.segments.Pairwise fun a b => a.offset < b.offset :=
  h.ordered.imp fun hab => hab.1

theorem WF.segments_ne {l : Log} (h : WF l) : l.segments ≠ [] := by
  intro hc
  rcases h.shape with hs | hs
  · exact h.liveNe (hs ▸ hc)
  · rw [hc] at hs
    exact List.cons_ne_nil _ _ hs.symm

/-- Membership transfer: every element of `liveOf l` is in `l.segments`. -/
theorem liveOf_subset {l : Log} : ∀ s ∈ liveOf l, s ∈ l.segments := by
  intro s hs
  exact List.mem_of_mem_filter hs

/-- In a well-formed log, a segment at a positive index is live. -/
theorem WF.get_live {l : Log} (h : WF l) {k : Nat} {s : segment}
    (hget : l.segments.get? k = some s) (hk : l.segments = staleSeg :: liveOf l → 1 ≤ k) :
    s ∈ liveOf l := by
  rcases h.shape with hs | hs
  · rw [hs] at hget
    exact List.get?_mem hget
  · have h1 := hk hs
    rw [hs] at hget
    cases k with
    | zero => omega
    | succ n =>
      simp only [List.get?] at hget
      exact List.get?_mem hget

/-- The last segment of a well-formed log is live. -/
theorem WF.tail_live {l : Log} (h : WF l) {t : segment}
    (hget : l.segments.getLast? = some t) : t ∈ liveOf l := by
  rcases h.shape with hs | hs
  · rw [hs] at hget
    exact List.mem_of_mem_getLast? hget
  · rw [hs] at hget
    rcases hlive : liveOf l with _ | ⟨a, r⟩
    · exact absurd hlive h.liveNe
    · rw [hlive, List.getLast?_cons_cons] at hget
      exact List.mem_of_mem_getLast? hget
theorem liveOf_head {l : Log} (h : WF l) :
    ∃ h0 r, liveOf l = h0 :: r := by
  rcases hlive : liveOf l with _ | ⟨a, r⟩
  · exact absurd hlive h.liveNe
  · exact ⟨a, r, rfl⟩

theorem WF.first_nonneg {l : Log} (h : WF l) : 0 ≤ l.firstOffset := by
  obtain ⟨h0, r, hlive⟩ := liveOf_head h
  have := h.firstEq h0 (by rw [hlive]; rfl)
  rw [this]
  exact h.liveNonneg h0 (by rw [hlive]; exact List.mem_cons_self _ _)

theorem WF.get0_head {l : Log} (h : WF l) :
    ∃ s0, l.segments.get? 0 = some s0 ∧ s0.offset ≤ l.firstOffset := by
  obtain ⟨h0, r, hlive⟩ := liveOf_head h
  have hfo := h.firstEq h0 (by rw [hlive]; rfl)
  rcases h.shape with hs | hs
  · refine ⟨h0, ?_, le_of_eq hfo.symm⟩
    rw [hs, hlive]
    rfl
  · refine ⟨staleSeg, ?_, ?_⟩
    · rw [hs]
      rfl
    · show (0 : Int) ≤ l.firstOffset
      exact h.first_nonneg

theorem WF.ub_pos {l : Log} (h : WF l) {off : Int} (hoff : l.firstOffset ≤ off) :
    1 ≤ leCount l.segments off := by
  obtain ⟨s0, hget, hle⟩ := h.get0_head
  exact (leCount_iff l.segments off h.sorted_lt 0 s0 hget).mp (le_trans hle hoff)

theorem WF.ub_ge2_of_stale {l : Log} (h : WF l) {off : Int} (hoff : l.firstOffset ≤ off)
    (hs : l.segments = staleSeg :: liveOf l) : 2 ≤ leCount l.segments off := by
  obtain ⟨h0, r, hlive⟩ := liveOf_head h
  have hfo := h.firstEq h0 (by rw [hlive]; rfl)
  have hget1 : l.segments.get? 1 = some h0 := by
    rw [hs, hlive]
    rfl
  have := (leCount_iff l.segments off h.sorted_lt 1 h0 hget1).mp (le_trans (le_of_eq hfo.symm) hoff)
  omega

/-- The owner of an in-range offset: the segment `findSegment` designates.
It is live, starts at or before `off`, and `entriesAt` looks up its
entry list. -/
theorem WF.owner_spec {l : Log} (h : WF l) {off : Int} (hoff : l.firstOffset ≤ off) :
    ∃ o, l.segments.get? (leCount l.segments off - 1) = some o ∧ o ∈ liveOf l ∧
      o.offset ≤ off ∧
      entriesAt l.segments off = (segEs o).get? (off - o.offset).toNat := by
  have hub := h.ub_pos hoff
  have hlen := leCount_le_length l.segments off
  have hlt : leCount l.segments off - 1 < l.segments.length := by omega
  cases hget : l.segments.get? (leCount l.segments off - 1) with
  | none => rw [List.get?_eq_none] at hget; omega
  | some o =>
    have holive : o ∈ liveOf l := by
      refine h.get_live hget fun hs => ?_
      have := h.ub_ge2_of_stale hoff hs
      omega
    have hole : o.offset ≤ off :=
      (leCount_iff l.segments off h.sorted_lt _ o hget).mpr (by omega)
    obtain ⟨hdisk, ⟨es, hes⟩, hcache⟩ := h.liveAll o holive
    refine ⟨o, rfl, holive, hole, ?_⟩
    rw [entriesAt_owner l.segments off o hub hget]
    unfold segLookup
    rw [segEs_decEntries hes]
  
theorem WF.covered_unique {l : Log} (h : WF l) {off : Int} {ci : Nat} {c : segment}
    (hget : l.segments.get? ci = some c) (h1 : c.offset ≤ off)
    (h2 : off < c.offset + ((segEs c).length : Int)) :
    ci = leCount l.segments off - 1 := by
  have hcilt : ci < leCount l.segments off :=
    (leCount_iff l.segments off h.sorted_lt ci c hget).mp h1
  by_contra hne
  have hci1 : ci + 1 < leCount l.segments off := by omega
  have hlen := leCount_le_length l.segments off
  have hlt1 : ci + 1 < l.segments.length := by omega
  cases hget1 : l.segments.get? (ci + 1) with
  | none => rw [List.get?_eq_none] at hget1; omega
  | some d =>
    have hd : d.offset ≤ off :=
      (leCount_iff l.segments off h.sorted_lt _ d hget1).mpr hci1
    have hord : segOrder c d := by
      have hpw := List.pairwise_iff_get.mp h.ordered
      have hci : ci < l.segments.length := by omega
      have hc : c = l.segments.get ⟨ci, hci⟩ := by
        have := List.get?_eq_get hci
        rw [this] at hget
        exact (Option.some.injEq .. ▸ hget).symm
      have hdg : d = l.segments.get ⟨ci + 1, hlt1⟩ := by
        have := List.get?_eq_get hlt1
        rw [this] at hget1
        exact (Option.some.injEq .. ▸ hget1).symm
      rw [hc, hdg]
      exact hpw ⟨ci, hci⟩ ⟨ci + 1, hlt1⟩ (by simp)
    have := hord.2
    omega

theorem WF.owner_tail {l : Log} (h : WF l) {t : segment} {off : Int}
    (hget : l.segments.getLast? = some t) (hoff : t.offset ≤ off) :
    leCount l.segments off = l.segments.length := by
  have hne := h.segments_ne
  have hlen : 0 < l.segments.length := List.length_pos.mpr hne
  have hub := leCount_le_length l.segments off
  by_contra hc
  have hlt : leCount l.segments off < l.segments.length := by omega
  cases hgu : l.segments.get? (leCount l.segments off) with
  | none => rw [List.get?_eq_none] at hgu; omega
  | some u =>
    have hule : ¬u.offset ≤ off := by
      intro hle
      have := (leCount_iff l.segments off h.sorted_lt _ u hgu).mp hle
      omega
    have htle : u.offset ≤ t.offset := by
      by_cases hidx : leCount l.segments off = l.segments.length - 1
      · have : u = t := by
          rw [List.getLast?_eq_get?, ← hidx, hgu] at hget
          exact (Option.some.injEq .. ▸ hget)
        rw [this]
      · have hlt2 : leCount l.segments off < l.segments.length - 1 := by omega
        have hpw := List.pairwise_iff_get.mp h.sorted_lt
        have hbound : l.segments.length - 1 < l.segments.length := by omega
        have hu : u = l.segments.get ⟨leCount l.segments off, by omega⟩ := by
          have := List.get?_eq_get (show leCount l.segments off < l.segments.length by omega)
          rw [this] at hgu
          exact (Option.some.injEq .. ▸ hgu).symm
        have ht : t = l.segments.get ⟨l.segments.length - 1, hbound⟩ := by
          rw [List.getLast?_eq_get?, List.get?_eq_get hbound] at hget
          exact (Option.some.injEq .. ▸ hget).symm
        rw [hu, ht]
        exact le_of_lt (hpw _ _ (by simpa using hlt2))
    exact hule (le_trans htle hoff)

theorem WF.owner_not_tail {l : Log} (h : WF l) {t : segment} {off : Int}
    (hget : l.segments.getLast? = some t) (hoff : off < t.offset) :
    leCount l.segments off ≤ l.segments.length - 1 := by
  have hne := h.segments_ne
  have hlen : 0 < l.segments.length := List.length_pos.mpr hne
  have hub := leCount_le_length l.segments off
  by_contra hc
  have hu : leCount l.segments off = l.segments.length := by omega
  have hbound : l.segments.length - 1 < l.segments.length := by omega
  have hgt : l.segments.get? (l.segments.length - 1) = some t := by
    rw [← List.getLast?_eq_get?]
    exact hget
  have := (leCount_iff l.segments off h.sorted_lt _ t hgt).mpr (by omega)
  omega
/-! ## Cache mutations preserve the invariant -/

/-- One segment's possible evolution under cache traffic: the observable
core never changes; a file-less segment (the stale initial record) is
untouched; a live segment may additionally be dematerialized or
(re)materialized. -/
def cacheStep (s s1 : segment) : Prop :=
  segCore s1 = segCore s ∧
    (s1 = s ∨ (s.onDisk = true ∧
      ((s1.ebuf = [] ∧ s1.epos = []) ∨
        (s1.ebuf = s1.fdata ∧ s1.epos = posOf (segEs s1) 0))))

theorem cacheStep_refl (s : segment) : cacheStep s s := ⟨rfl, Or.inl rfl⟩

theorem cacheStep_trans {a b c : segment} (h1 : cacheStep a b) (h2 : cacheStep b c) :
    cacheStep a c := by
  obtain ⟨hc1, hb1⟩ := h1
  obtain ⟨hc2, hb2⟩ := h2
  refine ⟨hc1 ▸ hc2, ?_⟩
  rcases hb2 with rfl | ⟨hd2, hbr2⟩
  · exact hb1
  · right
    constructor
    · rcases hb1 with rfl | ⟨hd1, _⟩
      · exact hd2
      · exact hd1
    · exact hbr2

theorem forall₂_cacheStep_trans {L1 L2 L3 : List segment}
    (h1 : List.Forall₂ cacheStep L1 L2) (h2 : List.Forall₂ cacheStep L2 L3) :
    List.Forall₂ cacheStep L1 L3 := by
  induction h1 generalizing L3 with
  | nil => cases h2; exact List.Forall₂.nil
  | cons hab hrest ih =>
    cases h2 with
    | cons hbc hrest2 => exact List.Forall₂.cons (cacheStep_trans hab hbc) (ih hrest2)

theorem forall₂_cacheStep_refl (L : List segment) : List.Forall₂ cacheStep L L :=
  List.forall₂_same.mpr fun s _ => cacheStep_refl s

theorem cacheStep_core {s s1 : segment} (h : cacheStep s s1) : segCore s1 = segCore s := h.1

theorem cacheStep_offset {s s1 : segment} (h : cacheStep s s1) : s1.offset = s.offset :=
  congrArg Prod.fst h.1

theorem cacheStep_onDisk {s s1 : segment} (h : cacheStep s s1) : s1.onDisk = s.onDisk :=
  congrArg (fun c => c.2.1) h.1

theorem cacheStep_fdata {s s1 : segment} (h : cacheStep s s1) : s1.fdata = s.fdata :=
  congrArg (fun c => c.2.2) h.1

theorem cacheStep_segEs {s s1 : segment} (h : cacheStep s s1) : segEs s1 = segEs s := by
  unfold segEs
  rw [cacheStep_fdata h]

theorem forall₂_cacheStep_core {L L1 : List segment}
    (h : List.Forall₂ cacheStep L L1) : L1.map segCore = L.map segCore := by
  induction h with
  | nil => rfl
  | cons hab hrest ih => simp [cacheStep_core hab, ih]

theorem forall₂_mem_right {R : segment → segment → Prop} {L L1 : List segment}
    (h : List.Forall₂ R L L1) {s1 : segment} (hm : s1 ∈ L1) : ∃ s ∈ L, R s s1 := by
  induction h with
  | nil => simp at hm
  | cons hab hrest ih =>
    rcases List.mem_cons.mp hm with rfl | hm2
    · exact ⟨_, List.mem_cons_self _ _, hab⟩
    · obtain ⟨s, hsm, hr⟩ := ih hm2
      exact ⟨s, List.mem_cons_of_mem _ hsm, hr⟩

theorem pairwise_transfer {R : segment → segment → Prop} {L L1 : List segment}
    (h : List.Forall₂ cacheStep L L1)
    (hR : ∀ a b a1 b1, cacheStep a a1 → cacheStep b b1 → R a b → R a1 b1)
    (hp : L.Pairwise R) : L1.Pairwise R := by
  induction h with
  | nil => exact List.Pairwise.nil
  | cons hab hrest ih =>
    rw [List.pairwise_cons] at hp ⊢
    refine ⟨?_, ih hp.2⟩
    intro b1 hb1
    obtain ⟨b, hbm, hbr⟩ := forall₂_mem_right hrest hb1
    exact hR _ _ _ _ hab hbr (hp.1 b hbm)

theorem chain'_transfer {R : segment → segment → Prop} {L L1 : List segment}
    (h : List.Forall₂ cacheStep L L1)
    (hR : ∀ a b a1 b1, cacheStep a a1 → cacheStep b b1 → R a b → R a1 b1)
    (hp : L.Chain' R) : L1.Chain' R := by
  induction h with
  | nil => exact List.chain'_nil
  | cons hab hrest ih =>
    rename_i a a1 la la1
    cases hrest with
    | nil => exact List.chain'_singleton _
    | cons hbc hrest2 =>
      rename_i b b1 lb lb1
      rw [List.chain'_cons] at hp ⊢
      exact ⟨hR _ _ _ _ hab hbc hp.1, ih hp.2⟩

theorem forall₂_getLast? {L L1 : List segment}
    (h : List.Forall₂ cacheStep L L1) {t : segment} (ht : L.getLast? = some t) :
    ∃ t1, L1.getLast? = some t1 ∧ cacheStep t t1 := by
  induction h with
  | nil => simp at ht
  | cons hab hrest ih =>
    rename_i a a1 la la1
    cases hrest with
    | nil =>
      simp only [List.getLast?_singleton] at ht ⊢
      cases ht
      exact ⟨a1, rfl, hab⟩
    | cons hbc hrest2 =>
      rename_i b b1 lb lb1
      rw [List.getLast?_cons_cons] at ht ⊢
      exact ih ht
theorem cacheStep_stale {s1 : segment} (h : cacheStep staleSeg s1) : s1 = staleSeg := by
  rcases h.2 with rfl | ⟨hd, _⟩
  · rfl
  · exact absurd hd (by simp [staleSeg])

theorem cacheStep_segLive {s s1 : segment} (h : cacheStep s s1) (hl : segLive s) :
    segLive s1 := by
  obtain ⟨hdisk, hframes, hcache⟩ := hl
  obtain ⟨es, hes⟩ := hframes
  refine ⟨by rw [cacheStep_onDisk h, hdisk], ⟨es, by rw [cacheStep_fdata h, hes]⟩, ?_⟩
  rcases h.2 with rfl | ⟨_, hbr⟩
  · exact hcache
  · rcases hbr with hd | hm
    · exact Or.inl hd
    · exact Or.inr hm

/-- Well-formedness transfers across pure cache traffic: same observables,
pointwise `cacheStep` segments, a still-materialized tail, and a cache index
list that is in bounds and duplicate-free. -/
theorem WF_transfer {l l1 : Log} (hWF : WF l)
    (hopts : l1.opts = l.opts) (hcl : l1.closed = l.closed) (hco : l1.corrupt = l.corrupt)
    (hfo : l1.firstOffset = l.firstOffset) (hlo : l1.lastOffset = l.lastOffset)
    (hsegs : List.Forall₂ cacheStep l.segments l1.segments)
    (htail : ∀ t1, l1.segments.getLast? = some t1 → segMat t1)
    (hcb : ∀ i ∈ l1.scache, i + 1 < l1.segments.length)
    (hnd : l1.scache.Nodup) : WF l1 := by
  have hkey : List.Forall₂ cacheStep (liveOf l) (liveOf l1) ∧
      (l1.segments = liveOf l1 ∨ l1.segments = staleSeg :: liveOf l1) := by
    rcases hWF.shape with hs | hs
    · have hall : ∀ s ∈ l.segments, s.onDisk = true := by
        intro s hsm
        rw [hs] at hsm
        exact List.of_mem_filter hsm
      have hall1 : ∀ s1 ∈ l1.segments, s1.onDisk = true := by
        intro s1 hm
        obtain ⟨s, hsm, hr⟩ := forall₂_mem_right hsegs hm
        rw [cacheStep_onDisk hr]
        exact hall s hsm
      have hfe : liveOf l1 = l1.segments :=
        List.filter_eq_self.mpr (by intro s1 hm; simpa using hall1 s1 hm)
      refine ⟨?_, Or.inl hfe.symm⟩
      rw [hfe, ← hs]
      exact hsegs
    · rcases hl1 : l1.segments with _ | ⟨s1, rest1⟩
      · rw [hs, hl1] at hsegs
        cases hsegs
      · rw [hs, hl1] at hsegs
        rw [List.forall₂_cons] at hsegs
        obtain ⟨h0, hrest⟩ := hsegs
        have hs1 : s1 = staleSeg := cacheStep_stale h0
        subst hs1
        have hall : ∀ s ∈ liveOf l, s.onDisk = true := fun s hsm => List.of_mem_filter hsm
        have hall1 : ∀ s1 ∈ rest1, s1.onDisk = true := by
          intro s1 hm
          obtain ⟨s, hsm, hr⟩ := forall₂_mem_right hrest hm
          rw [cacheStep_onDisk hr]
          exact hall s hsm
        have hfl1 : liveOf l1 = rest1 := by
          unfold liveOf
          rw [hl1]
          rw [List.filter_cons]
          have : (staleSeg.onDisk = true) = False := by simp [staleSeg]
          simp only [staleSeg, Bool.false_eq_true, if_false]
          exact List.filter_eq_self.mpr (by intro s1 hm; simpa using hall1 s1 hm)
        refine ⟨?_, Or.inr ?_⟩
        · rw [hfl1]
          exact hrest
        · rw [hfl1]
  obtain ⟨hliveF, hshape1⟩ := hkey
  have hlivelen : (liveOf l).length = (liveOf l1).length := List.Forall₂.length_eq hliveF
  obtain ⟨h0, r0, hlive0⟩ := liveOf_head hWF
  have hheads : ∃ h1 r1, liveOf l1 = h1 :: r1 ∧ cacheStep h0 h1 := by
    rw [hlive0] at hliveF
    rcases hl1v : liveOf l1 with _ | ⟨h1, r1⟩
    · rw [hl1v] at hliveF
      cases hliveF
    · rw [hl1v] at hliveF
      rw [List.forall₂_cons] at hliveF
      exact ⟨h1, r1, rfl, hliveF.1⟩
  obtain ⟨h1, r1, hlive1, hstep0⟩ := hheads
  refine ⟨?_, ?_, ?_, hshape1, ?_, ?_, ?_, ?_, ?_, ?_, ?_, ?_, hcb, hnd⟩
  · rw [hcl]; exact hWF.notClosed
  · rw [hco]; exact hWF.notCorrupt
  · rw [hopts]; exact hWF.capPos
  · rw [hlive1]; exact List.cons_ne_nil _ _
  · intro s1 hm
    obtain ⟨s, hsm, hr⟩ := forall₂_mem_right hliveF hm
    exact cacheStep_segLive hr (hWF.liveAll s hsm)
  · intro s1 hm
    obtain ⟨s, hsm, hr⟩ := forall₂_mem_right hliveF hm
    rw [cacheStep_offset hr]
    exact hWF.liveNonneg s hsm
  · refine pairwise_transfer hsegs ?_ hWF.ordered
    intro a b a1 b1 ha hb hab
    unfold segOrder at hab ⊢
    rw [cacheStep_offset ha, cacheStep_offset hb, cacheStep_segEs ha]
    exact hab
  · refine chain'_transfer hliveF ?_ hWF.adjEmpty
    intro a b a1 b1 ha hb hab
    rw [cacheStep_offset ha, cacheStep_offset hb, cacheStep_segEs ha, cacheStep_segEs hb]
    exact hab
  · intro h hh
    rw [hlive1] at hh
    cases hh
    rw [hfo, cacheStep_offset hstep0]
    exact hWF.firstEq h0 (by rw [hlive0]; rfl)
  · intro t1 ht1
    refine ⟨htail t1 ht1, ?_⟩
    have hne := hWF.segments_ne
    rcases hgt : l.segments.getLast? with _ | t
    · rw [List.getLast?_eq_none_iff] at hgt
      exact absurd hgt hne
    · obtain ⟨t1b, ht1b, hstept⟩ := forall₂_getLast? hsegs hgt
      rw [ht1] at ht1b
      cases ht1b
      rw [hlo, cacheStep_offset hstept, cacheStep_segEs hstept]
      exact (hWF.tailMat t hgt).2
  · intro hle h hh
    rw [hlive1] at hh
    cases hh
    rw [cacheStep_segEs hstep0]
    rw [hfo, hlo] at hle
    exact hWF.headNonempty hle h0 (by rw [hlive0]; rfl)
theorem WF.offDisk_mem {l : Log} (h : WF l) {s : segment} (hm : s ∈ l.segments)
    (hd : s.onDisk = false) : s = staleSeg := by
  rcases h.shape with hs | hs
  · rw [hs] at hm
    have := List.of_mem_filter hm
    rw [hd] at this
    cases this
  · rw [hs] at hm
    rcases List.mem_cons.mp hm with rfl | hm2
    · rfl
    · have := List.of_mem_filter hm2
      rw [hd] at this
      cases this

theorem WF.offDisk_clean {l : Log} (h : WF l) :
    ∀ s ∈ l.segments, s.onDisk = false → s.ebuf = [] ∧ s.epos = [] := by
  intro s hm hd
  rw [h.offDisk_mem hm hd]
  exact ⟨rfl, rfl⟩

theorem forall₂_set {R : segment → segment → Prop} (L : List segment)
    (hrefl : ∀ x ∈ L, R x x) (i : Nat) (s s' : segment)
    (hg : L.get? i = some s) (hR : R s s') : List.Forall₂ R L (L.set i s') := by
  induction L generalizing i with
  | nil => simp at hg
  | cons a t ih =>
    cases i with
    | zero =>
      simp only [List.get?] at hg
      cases hg
      rw [List.set_cons_zero]
      exact List.Forall₂.cons hR (List.forall₂_same.mpr
        fun x hx => hrefl x (List.mem_cons_of_mem _ hx))
    | succ n =>
      simp only [List.get?] at hg
      rw [List.set_cons_succ]
      exact List.Forall₂.cons (hrefl a (List.mem_cons_self _ _))
        (ih (fun x hx => hrefl x (List.mem_cons_of_mem _ hx)) n hg)

/-- `dropSegCache` only dematerializes one segment. -/
theorem dropSegCache_spec (l : Log) (i : Nat)
    (hstale : ∀ s ∈ l.segments, s.onDisk = false → s.ebuf = [] ∧ s.epos = []) :
    List.Forall₂ cacheStep l.segments (dropSegCache l i).segments ∧
      (dropSegCache l i).opts = l.opts ∧ (dropSegCache l i).closed = l.closed ∧
      (dropSegCache l i).corrupt = l.corrupt ∧
      (dropSegCache l i).firstOffset = l.firstOffset ∧
      (dropSegCache l i).lastOffset = l.lastOffset ∧
      (dropSegCache l i).scache = l.scache ∧
      ∀ k, k ≠ i → (dropSegCache l i).segments.get? k = l.segments.get? k := by
  unfold dropSegCache
  cases hg : l.segments.get? i with
  | none =>
    exact ⟨forall₂_cacheStep_refl _, rfl, rfl, rfl, rfl, rfl, rfl, fun _ _ => rfl⟩
  | some s =>
    refine ⟨?_, rfl, rfl, rfl, rfl, rfl, rfl, ?_⟩
    · refine forall₂_set l.segments (fun x _ => cacheStep_refl x) i s _ hg ?_
      by_cases hdisk : s.onDisk = true
      · exact ⟨rfl, Or.inr ⟨hdisk, Or.inl ⟨rfl, rfl⟩⟩⟩
      · have hcl := hstale s (List.get?_mem hg) (by revert hdisk; cases s.onDisk <;> simp)
        refine ⟨rfl, Or.inl ?_⟩
        cases s
        simp only [segment.mk.injEq] at hcl ⊢
        simp_all
    · intro k hk
      unfold setSeg
      exact List.get?_set_ne _ _ (fun hc => hk hc.symm)
/-- `pushCache`: the cache gains `segIdx` (possibly evicting and
dematerializing the least recently used index, which is in the old cache and
differs from `segIdx`). -/
theorem pushCache_spec (l : Log) (i : Nat) (hcap : 1 ≤ l.opts.SegmentCacheSize)
    (hnd : l.scache.Nodup)
    (hstale : ∀ s ∈ l.segments, s.onDisk = false → s.ebuf = [] ∧ s.epos = []) :
    List.Forall₂ cacheStep l.segments (pushCache l i).segments ∧
      (pushCache l i).opts = l.opts ∧ (pushCache l i).closed = l.closed ∧
      (pushCache l i).corrupt = l.corrupt ∧
      (pushCache l i).firstOffset = l.firstOffset ∧
      (pushCache l i).lastOffset = l.lastOffset ∧
      (∀ j ∈ (pushCache l i).scache, j = i ∨ j ∈ l.scache) ∧
      (pushCache l i).scache.Nodup ∧
      (∀ k, k ≠ i → (∀ j ∈ l.scache, j ≠ k) →
        (pushCache l i).segments.get? k = l.segments.get? k) ∧
      (pushCache l i).segments.get? i = l.segments.get? i := by
  unfold pushCache
  by_cases hc : l.scache.contains i
  · rw [if_pos hc]
    refine ⟨forall₂_cacheStep_refl _, rfl, rfl, rfl, rfl, rfl, ?_, ?_, fun _ _ _ => rfl, rfl⟩
    · intro j hj
      rcases List.mem_cons.mp hj with rfl | hj2
      · exact Or.inl rfl
      · exact Or.inr (List.mem_of_mem_erase hj2)
    · refine List.Nodup.cons ?_ (hnd.erase i)
      intro hmem
      exact absurd rfl ((List.Nodup.mem_erase_iff hnd).mp hmem).1
  · rw [if_neg hc]
    have hinotin : i ∉ l.scache := by
      simpa using hc
    by_cases hover : l.opts.SegmentCacheSize < (i :: l.scache).length
    · rw [if_pos hover]
      cases hsc : l.scache with
      | nil =>
        exfalso
        rw [hsc] at hover
        simp at hover
        omega
      | cons c0 cr =>
        cases hev : (c0 :: cr).getLast? with
        | none => simp at hev
        | some ev =>
          have hlast2 : (i :: c0 :: cr).getLast? = some ev := by
            rw [List.getLast?_cons_cons]
            exact hev
          rw [hlast2]
          have hevmem : ev ∈ l.scache := by
            rw [hsc]
            exact List.mem_of_mem_getLast? hev
          have hevne : ev ≠ i := fun hc2 => hinotin (hc2 ▸ hevmem)
          obtain ⟨hf2, ho2, hcl2, hco2, hfo2, hlo2, hsc2, hget2⟩ := dropSegCache_spec l ev hstale
          refine ⟨hf2, ho2, hcl2, hco2, hfo2, hlo2, ?_, ?_, ?_, ?_⟩
          · intro j hj
            have hj2 : j ∈ i :: c0 :: cr := List.dropLast_subset _ hj
            rcases List.mem_cons.mp hj2 with rfl | hj3
            · exact Or.inl rfl
            · exact Or.inr hj3
          · refine List.Nodup.sublist (List.dropLast_sublist _) ?_
            exact List.Nodup.cons (hsc ▸ hinotin) (hsc ▸ hnd)
          · intro k hk hnotin
            exact hget2 k (fun hkc => (hnotin ev (hsc ▸ hevmem)) hkc.symm)
          · exact hget2 i (fun hc2 => hevne hc2.symm)
    · rw [if_neg hover]
      refine ⟨forall₂_cacheStep_refl _, rfl, rfl, rfl, rfl, rfl, ?_, ?_, fun _ _ _ => rfl, rfl⟩
      · intro j hj
        rcases List.mem_cons.mp hj with rfl | hj2
        · exact Or.inl rfl
        · exact Or.inr hj2
      · exact List.Nodup.cons hinotin hnd

/-- The `clearCache` fold: every touched position is dematerialized, the rest
is untouched. -/
theorem foldl_dropSegCache_spec (idxs : List Nat) (l : Log)
    (hstale : ∀ s ∈ l.segments, s.onDisk = false → s.ebuf = [] ∧ s.epos = []) :
    List.Forall₂ cacheStep l.segments ((idxs.foldl (fun acc i => dropSegCache acc i) l).segments) ∧
      (idxs.foldl (fun acc i => dropSegCache acc i) l).opts = l.opts ∧
      (idxs.foldl (fun acc i => dropSegCache acc i) l).closed = l.closed ∧
      (idxs.foldl (fun acc i => dropSegCache acc i) l).corrupt = l.corrupt ∧
      (idxs.foldl (fun acc i => dropSegCache acc i) l).firstOffset = l.firstOffset ∧
      (idxs.foldl (fun acc i => dropSegCache acc i) l).lastOffset = l.lastOffset ∧
      (idxs.foldl (fun acc i => dropSegCache acc i) l).scache = l.scache ∧
      ∀ k, (∀ j ∈ idxs, j ≠ k) →
        (idxs.foldl (fun acc i => dropSegCache acc i) l).segments.get? k = l.segments.get? k := by
  induction idxs generalizing l with
  | nil =>
    exact ⟨forall₂_cacheStep_refl _, rfl, rfl, rfl, rfl, rfl, rfl, fun _ _ => rfl⟩
  | cons j0 jr ih =>
    obtain ⟨hf1, ho1, hc1, hr1, hfo1, hlo1, hsc1, hg1⟩ := dropSegCache_spec l j0 hstale
    have hstale1 : ∀ s ∈ (dropSegCache l j0).segments, s.onDisk = false →
        s.ebuf = [] ∧ s.epos = [] := by
      intro s1 hm hd
      obtain ⟨s, hsm, hr⟩ := forall₂_mem_right hf1 hm
      have hd0 : s.onDisk = false := by rw [← cacheStep_onDisk hr]; exact hd
      rcases hr.2 with heq | ⟨hdisk, _⟩
      · rw [heq]
        exact hstale _ hsm hd0
      · rw [hd0] at hdisk; cases hdisk
    obtain ⟨hf2, ho2, hc2, hr2, hfo2, hlo2, hsc2, hg2⟩ := ih (dropSegCache l j0) hstale1
    rw [List.foldl_cons]
    refine ⟨forall₂_cacheStep_trans hf1 hf2, by rw [ho2, ho1], by rw [hc2, hc1],
      by rw [hr2, hr1], by rw [hfo2, hfo1], by rw [hlo2, hlo1], by rw [hsc2, hsc1], ?_⟩
    intro k hk
    rw [hg2 k (fun j hj => hk j (List.mem_cons_of_mem _ hj)),
      hg1 k (hk j0 (List.mem_cons_self _ _)).symm]

/-- `clearCache` dematerializes the cached segments and empties the cache. -/
theorem clearCache_spec (l : Log)
    (hstale : ∀ s ∈ l.segments, s.onDisk = false → s.ebuf = [] ∧ s.epos = []) :
    List.Forall₂ cacheStep l.segments (clearCache l).segments ∧
      (clearCache l).opts = l.opts ∧ (clearCache l).closed = l.closed ∧
      (clearCache l).corrupt = l.corrupt ∧
      (clearCache l).firstOffset = l.firstOffset ∧
      (clearCache l).lastOffset = l.lastOffset ∧
      (clearCache l).scache = [] ∧
      ∀ k, (∀ j ∈ l.scache, j ≠ k) →
        (clearCache l).segments.get? k = l.segments.get? k := by
  obtain ⟨hf, ho, hc, hr, hfo, hlo, hsc, hg⟩ := foldl_dropSegCache_spec l.scache l hstale
  unfold clearCache
  exact ⟨hf, ho, hc, hr, hfo, hlo, rfl, hg⟩
/-- A cache hit yields the owner of `index`, materialized. -/
theorem cacheHit_some {l : Log} {off : Int} {ci : Nat} (hWF : WF l)
    (h : cacheHitIdx l off = some ci) :
    ∃ cs, l.segments.get? ci = some cs ∧ cs.onDisk = true ∧ segMat cs ∧
      (∃ es, cs.fdata = frames es) ∧ cs.offset ≤ off ∧
      off < cs.offset + ((segEs cs).length : Int) ∧
      ci = leCount l.segments off - 1 := by
  unfold cacheHitIdx at h
  split at h
  · cases h
  · split at h
    · cases h
    · split at h
      · rename_i ci0 hh cs hg hcov
        injection h with h
        subst h
        have hmem : cs ∈ l.segments := List.get?_mem hg
        have heposne : cs.epos ≠ [] := by
          intro hc
          rw [hc] at hcov
          simp at hcov
          omega
        have hdisk : cs.onDisk = true := by
          by_cases hd : cs.onDisk = true
          · exact hd
          · exfalso
            have := hWF.offDisk_mem hmem (by revert hd; cases cs.onDisk <;> simp)
            rw [this] at heposne
            exact heposne rfl
        have hlive : cs ∈ liveOf l := List.mem_filter.mpr ⟨hmem, by simpa using hdisk⟩
        obtain ⟨_, ⟨es, hes⟩, hcache⟩ := hWF.liveAll cs hlive
        have hmat : segMat cs := by
          rcases hcache with ⟨_, hep⟩ | hm
          · exact absurd hep heposne
          · exact hm
        have hlenep : cs.epos.length = (segEs cs).length := by
          rw [hmat.2, posOf_length]
        refine ⟨cs, hg, hdisk, hmat, ⟨es, hes⟩, hcov.1, ?_, ?_⟩
        · rw [← hlenep]
          exact hcov.2
        · refine hWF.covered_unique hg hcov.1 ?_
          rw [← hlenep]
          exact hcov.2
      · cases h
/-- `loadSegment` on an in-range offset: it succeeds, returns the owner's
index, leaves the observables intact, preserves well-formedness, and the
returned segment is the materialized owner. -/
theorem loadSegment_char {l : Log} {off : Int} (hWF : WF l)
    (h1 : l.firstOffset ≤ off) (h2 : off ≤ l.lastOffset) :
    ∃ l1 o, loadSegment l off = .ok (l1, leCount l.segments off - 1) ∧
      WF l1 ∧
      l1.opts = l.opts ∧ l1.closed = l.closed ∧ l1.corrupt = l.corrupt ∧
      l1.firstOffset = l.firstOffset ∧ l1.lastOffset = l.lastOffset ∧
      List.Forall₂ cacheStep l.segments l1.segments ∧
      (∀ j ∈ l1.scache, j ∈ l.scache ∨ j = leCount l.segments off - 1) ∧
      l1.segments.get? (leCount l.segments off - 1) = some o ∧
      o.onDisk = true ∧ segMat o ∧ (∃ es, o.fdata = frames es) ∧
      o.offset ≤ off ∧
      entriesAt l.segments off = (segEs o).get? (off - o.offset).toNat := by
  obtain ⟨o0, hgo, holive, hoff, hentry⟩ := hWF.owner_spec h1
  have hsort := hWF.sorted_lt
  have hub1 : 1 ≤ leCount l.segments off := hWF.ub_pos h1
  have hublen : leCount l.segments off ≤ l.segments.length := leCount_le_length _ _
  have hne := hWF.segments_ne
  cases hgt : l.segments.getLast? with
  | none =>
    rw [List.getLast?_eq_none_iff] at hgt
    exact absurd hgt hne
  | some t =>
    have htlive := hWF.tail_live hgt
    have ⟨htmat, htlo⟩ := hWF.tailMat t hgt
    obtain ⟨htdisk, ⟨tes, htes⟩, _⟩ := hWF.liveAll t htlive
    rw [loadSegment, hgt]
    dsimp only
    by_cases htail : t.offset ≤ off
    · rw [if_pos htail]
      have hubfull : leCount l.segments off = l.segments.length := hWF.owner_tail hgt htail
      have hoeq : o0 = t := by
        rw [hubfull, ← List.getLast?_eq_get?, hgt] at hgo
        exact (Option.some.injEq .. ▸ hgo).symm
      refine ⟨l, t, ?_, hWF, rfl, rfl, rfl, rfl, rfl, forall₂_cacheStep_refl _,
        fun j hj => Or.inl hj, ?_, htdisk, htmat, ⟨tes, htes⟩, htail, ?_⟩
      · rw [hubfull]
      · rw [hubfull, ← List.getLast?_eq_get?]
        exact hgt
      · rw [← hoeq]
        exact hentry
    · rw [if_neg htail]
      have hnotfull : leCount l.segments off ≤ l.segments.length - 1 :=
        hWF.owner_not_tail hgt (by omega)
      have hlenpos : 1 ≤ l.segments.length := List.length_pos.mpr hne
      cases hch : cacheHitIdx l off with
      | some ci =>
        obtain ⟨cs, hg, hdisk, hmat, hfr, hle2, hcov, hci⟩ := cacheHit_some hWF hch
        subst hci
        have hcso : cs = o0 := by
          rw [hg] at hgo
          exact Option.some.injEq .. ▸ hgo
        refine ⟨l, cs, rfl, hWF, rfl, rfl, rfl, rfl, rfl, forall₂_cacheStep_refl _,
          fun j hj => Or.inl hj, hg, hdisk, hmat, hfr, hle2, ?_⟩
        rw [hcso]
        exact hentry
      | none =>
        have hfind : findSegment l off = (leCount l.segments off : Int) - 1 :=
          findSegment_eq l off hsort
        rw [hfind]
        have hnn : ¬((leCount l.segments off : Int) - 1 < 0) := by omega
        rw [if_neg hnn]
        have htonat : ((leCount l.segments off : Int) - 1).toNat =
            leCount l.segments off - 1 := by omega
        rw [htonat, hgo]
        dsimp only
        obtain ⟨hodisk, ⟨oes, hoes⟩, hocache⟩ := hWF.liveAll o0 holive
        have hclean := hWF.offDisk_clean
        have hidxlt : leCount l.segments off - 1 + 1 < l.segments.length := by omega
        by_cases hoep : o0.epos.length = 0
        · rw [if_pos (by simpa using hoep)]
          rw [loadSegmentEntries, hgo]
          dsimp only
          rw [if_neg (by simp [hodisk])]
          have hparse : parseEntries o0.fdata 0 = .ok (posOf oes 0) := by
            rw [hoes]
            exact parseEntries_frames oes 0
          rw [hparse]
          dsimp only
          have hooes : segEs o0 = oes := segEs_frames hoes
          have hsetstep : cacheStep o0
              { o0 with ebuf := o0.fdata, epos := posOf oes 0 } := by
            refine ⟨rfl, Or.inr ⟨hodisk, Or.inr ⟨rfl, ?_⟩⟩⟩
            show posOf oes 0 = posOf (segEs { o0 with ebuf := o0.fdata, epos := posOf oes 0 }) 0
            have : segEs { o0 with ebuf := o0.fdata, epos := posOf oes 0 } = segEs o0 := rfl
            rw [this, hooes]
          have hf1 : List.Forall₂ cacheStep l.segments
              (setSeg l (leCount l.segments off - 1)
                { o0 with ebuf := o0.fdata, epos := posOf oes 0 }).segments :=
            forall₂_set l.segments (fun x _ => cacheStep_refl x) _ o0 _ hgo hsetstep
          have hstale1 : ∀ s ∈ (setSeg l (leCount l.segments off - 1)
              { o0 with ebuf := o0.fdata, epos := posOf oes 0 }).segments,
              s.onDisk = false → s.ebuf = [] ∧ s.epos = [] := by
            intro s1 hm hd
            obtain ⟨s, hsm, hr⟩ := forall₂_mem_right hf1 hm
            have hd0 : s.onDisk = false := by rw [← cacheStep_onDisk hr]; exact hd
            rcases hr.2 with heq | ⟨hdisk2, _⟩
            · rw [heq]; exact hclean _ hsm hd0
            · rw [hd0] at hdisk2; cases hdisk2
          obtain ⟨hpf, hpo, hpc, hpr, hpfo, hplo, hpsub, hpnd, hpget, hpgeti⟩ :=
            pushCache_spec (setSeg l (leCount l.segments off - 1)
              { o0 with ebuf := o0.fdata, epos := posOf oes 0 })
              (leCount l.segments off - 1) hWF.capPos hWF.cacheNodup hstale1
          have hftot := forall₂_cacheStep_trans hf1 hpf
          have hlen1 : (setSeg l (leCount l.segments off - 1)
              { o0 with ebuf := o0.fdata, epos := posOf oes 0 }).segments.length =
              l.segments.length := by
            unfold setSeg
            simp
          refine ⟨_, { o0 with ebuf := o0.fdata, epos := posOf oes 0 }, rfl, ?_, hpo, hpc,
            hpr, hpfo, hplo, hftot, ?_, ?_, hodisk, ⟨rfl, by rw [show segEs { o0 with ebuf := o0.fdata, epos := posOf oes 0 } = segEs o0 from rfl, hooes]⟩,
            ⟨oes, hoes⟩, hoff, by rw [hentry]; rfl⟩
          · refine WF_transfer hWF hpo hpc hpr hpfo hplo hftot ?_ ?_ hpnd
            · intro t1 ht1
              obtain ⟨t1b, ht1b, hstept⟩ := forall₂_getLast? hftot hgt
              rw [ht1] at ht1b
              cases ht1b
              have htunch : t1 = t := by
                have hgl1 : (pushCache (setSeg l (leCount l.segments off - 1)
                    { o0 with ebuf := o0.fdata, epos := posOf oes 0 })
                    (leCount l.segments off - 1)).segments.get?
                    (l.segments.length - 1) = l.segments.get? (l.segments.length - 1) := by
                  rw [hpget _ (by omega) ?_]
                  · unfold setSeg
                    rw [List.get?_set_ne]
                    omega
                  · intro j hj
                    have := hWF.cacheBound j hj
                    omega
                have hl1len : (pushCache (setSeg l (leCount l.segments off - 1)
                    { o0 with ebuf := o0.fdata, epos := posOf oes 0 })
                    (leCount l.segments off - 1)).segments.length = l.segments.length := by
                  have := List.Forall₂.length_eq hftot
                  omega
                rw [List.getLast?_eq_get?, hl1len, hgl1, ← List.getLast?_eq_get?, hgt] at ht1
                exact (Option.some.injEq .. ▸ ht1).symm
              rw [htunch]
              exact htmat
            · intro i hi
              rcases hpsub i hi with rfl | hmem
              · have := List.Forall₂.length_eq hftot
                omega
              · have := hWF.cacheBound i hmem
                have := List.Forall₂.length_eq hftot
                omega
          · intro j hj
            rcases hpsub j hj with rfl | hmem
            · exact Or.inr rfl
            · exact Or.inl hmem
          · rw [hpgeti]
            unfold setSeg
            rw [List.get?_set_eq_of_lt]
            omega
        · rw [if_neg (by simpa using hoep)]
          have hmat : segMat o0 := by
            rcases hocache with ⟨_, hep⟩ | hm
            · exfalso
              rw [hep] at hoep
              simp at hoep
            · exact hm
          obtain ⟨hpf, hpo, hpc, hpr, hpfo, hplo, hpsub, hpnd, hpget, hpgeti⟩ :=
            pushCache_spec l (leCount l.segments off - 1) hWF.capPos hWF.cacheNodup hclean
          refine ⟨_, o0, rfl, ?_, hpo, hpc, hpr, hpfo, hplo, hpf, ?_, ?_, hodisk, hmat,
            ⟨oes, hoes⟩, hoff, hentry⟩
          · refine WF_transfer hWF hpo hpc hpr hpfo hplo hpf ?_ ?_ hpnd
            · intro t1 ht1
              obtain ⟨t1b, ht1b, hstept⟩ := forall₂_getLast? hpf hgt
              rw [ht1] at ht1b
              cases ht1b
              have htunch : t1 = t := by
                have hgl1 : (pushCache l (leCount l.segments off - 1)).segments.get?
                    (l.segments.length - 1) = l.segments.get? (l.segments.length - 1) := by
                  refine hpget _ (by omega) ?_
                  intro j hj
                  have := hWF.cacheBound j hj
                  omega
                have hl1len : (pushCache l (leCount l.segments off - 1)).segments.length =
                    l.segments.length := by
                  have := List.Forall₂.length_eq hpf
                  omega
                rw [List.getLast?_eq_get?, hl1len, hgl1, ← List.getLast?_eq_get?, hgt] at ht1
                exact (Option.some.injEq .. ▸ ht1).symm
              rw [htunch]
              exact htmat
            · intro i hi
              rcases hpsub i hi with rfl | hmem
              · have := List.Forall₂.length_eq hpf
                omega
              · have := hWF.cacheBound i hmem
                have := List.Forall₂.length_eq hpf
                omega
          · intro j hj
            rcases hpsub j hj with rfl | hmem
            · exact Or.inr rfl
            · exact Or.inl hmem
          · rw [hpgeti]
            exact hgo
/-- `Read` on an in-range offset of a well-formed log returns exactly the
entry `entriesAt` designates, and performs the Go equivalent of an
out-of-range `epos` index — a panic — exactly at the unwritten offsets a
batch jump skipped. -/
theorem Read_spec {l : Log} {off : Int} (hWF : WF l)
    (h1 : l.firstOffset ≤ off) (h2 : off ≤ l.lastOffset) :
    readVal (Read l off) =
      match entriesAt l.segments off with
      | some e => .ok e
      | none => .error .oob := by
  obtain ⟨l1, o, hload, hWF1, _, _, _, _, _, _, _, hgo, hdisk, hmat, ⟨es, hes⟩, hoff, hentry⟩ :=
    loadSegment_char hWF h1 h2
  rw [Read, if_neg (by rw [hWF.notCorrupt]; simp), if_neg (by rw [hWF.notClosed]; simp),
    if_neg (by omega), hload]
  dsimp only
  rw [hgo]
  dsimp only
  rw [if_neg (by omega)]
  have hooes : segEs o = es := segEs_frames hes
  have hebuf : o.ebuf = frames es := by rw [hmat.1, hes]
  have hepos : o.epos = posOf es 0 := by rw [hmat.2, hooes]
  have hk : (off - o.offset).toNat = (off - o.offset).toNat := rfl
  rw [hentry, hooes]
  cases hge : es.get? (off - o.offset).toNat with
  | none =>
    have hlen : es.length ≤ (off - o.offset).toNat := by
      by_contra hc
      rw [List.get?_eq_get (by omega)] at hge
      cases hge
    have hpnone : o.epos.get? (off - o.offset).toNat = none := by
      rw [hepos, List.get?_eq_none, posOf_length]
      exact hlen
    rw [hpnone]
    rfl
  | some e =>
    have hlt : (off - o.offset).toNat < es.length := by
      by_contra hc
      rw [List.get?_eq_none.mpr (by omega)] at hge
      cases hge
    have hplt : (off - o.offset).toNat < (posOf es 0).length := by
      rw [posOf_length]
      exact hlt
    cases hpe : (posOf es 0).get? (off - o.offset).toNat with
    | none =>
      rw [List.get?_eq_none] at hpe
      omega
    | some ep =>
      have hpget : o.epos.get? (off - o.offset).toNat = some ep := by
        rw [hepos]
        exact hpe
      rw [hpget]
      dsimp only
      have hslice := posOf_slice es [] (off - o.offset).toNat ep e (by simpa using hpe) hge
      simp only [List.nil_append, List.length_nil] at hslice
      obtain ⟨hsl, hlenf, hend, hpos⟩ := hslice
      have hnoguard : ¬(o.ebuf.length < ep.endp ∨ ep.endp < ep.pos) := by
        rw [hebuf]
        push_neg
        constructor
        · simpa using hend
        · omega
      rw [if_neg hnoguard]
      have hedata : (o.ebuf.take ep.endp).drop ep.pos = frameOf e := by
        rw [hebuf]
        exact hsl
      rw [hedata]
      obtain ⟨huv, hext⟩ := frame_read e
      rw [huv]
      dsimp only
      have hnosz : ¬((frameOf e).length - (putUvarint e.length).length < e.length) := by
        rw [frameOf_length]
        omega
      rw [if_neg hnosz]
      rw [hext]
      rfl
/-- A successful `Read` leaves a well-formed log with the same observables
(the only mutation is segment materialization and cache traffic). -/
theorem Read_ok_state {l : Log} {off : Int} {d : List Nat} {l1 : Log} (hWF : WF l)
    (h : Read l off = .ok d l1) :
    WF l1 ∧ l1.opts = l.opts ∧ l1.closed = l.closed ∧ l1.corrupt = l.corrupt ∧
      l1.firstOffset = l.firstOffset ∧ l1.lastOffset = l.lastOffset ∧
      List.Forall₂ cacheStep l.segments l1.segments := by
  rw [Read] at h
  by_cases hc : l.corrupt
  · rw [if_pos hc] at h; cases h
  · rw [if_neg hc] at h
    by_cases hcl : l.closed
    · rw [if_pos hcl] at h; cases h
    · rw [if_neg hcl] at h
      by_cases hb : off < l.firstOffset ∨ l.lastOffset < off
      · rw [if_pos hb] at h; cases h
      · rw [if_neg hb] at h
        push_neg at hb
        obtain ⟨l2, o, hload, hWF2, ho2, hc2, hr2, hfo2, hlo2, hf2, _, hgo, _, _, _, _, _⟩ :=
          loadSegment_char hWF hb.1 hb.2
        rw [hload] at h
        dsimp only at h
        rw [hgo] at h
        dsimp only at h
        split at h
        · cases h
        · split at h
          · cases h
          · split at h
            · cases h
            · split at h
              · cases h
              · split at h
                · cases h
                · injection h with hd hl
                  subst hl
                  exact ⟨hWF2, ho2, hc2, hr2, hfo2, hlo2, hf2⟩

/-! ## Helpers for the write path -/

theorem frames_snoc (es : List (List Nat)) (d : List Nat) :
    frames (es ++ [d]) = frames es ++ frameOf d := by
  rw [frames_append]
  simp [frames]

theorem posOf_snoc (es : List (List Nat)) (d : List Nat) (p : Nat) :
    posOf (es ++ [d]) p =
      posOf es p ++ [⟨p + (frames es).length, p + (frames es).length + (frameOf d).length⟩] := by
  rw [posOf_append]
  rfl

theorem forall₂_append_seg {R : segment → segment → Prop} {L1 L2 L3 L4 : List segment}
    (h1 : List.Forall₂ R L1 L2) (h2 : List.Forall₂ R L3 L4) :
    List.Forall₂ R (L1 ++ L3) (L2 ++ L4) := by
  induction h1 with
  | nil => exact h2
  | cons hr _ ih => exact List.Forall₂.cons hr ih

theorem forall₂_snoc_decomp {R : segment → segment → Prop} {X : List segment} {a : segment}
    {Y : List segment} (h : List.Forall₂ R (X ++ [a]) Y) :
    ∃ Y1 b, Y = Y1 ++ [b] ∧ List.Forall₂ R X Y1 ∧ R a b := by
  induction X generalizing Y with
  | nil =>
    cases h with
    | cons hr htail =>
      cases htail
      exact ⟨[], _, rfl, List.Forall₂.nil, hr⟩
  | cons x xs ih =>
    cases h with
    | cons hr htail =>
      obtain ⟨Y1, b, rfl, hf, hb⟩ := ih htail
      exact ⟨_ :: Y1, b, rfl, List.Forall₂.cons hr hf, hb⟩

theorem forall₂_filter_onDisk {L L1 : List segment}
    (h : List.Forall₂ cacheStep L L1) :
    List.Forall₂ cacheStep (L.filter (·.onDisk)) (L1.filter (·.onDisk)) := by
  induction h with
  | nil => exact List.Forall₂.nil
  | cons hr ht ih =>
    rename_i a b as bs
    rw [List.filter_cons, List.filter_cons]
    have hd : b.onDisk = a.onDisk := cacheStep_onDisk hr
    cases ha : a.onDisk with
    | false => simpa [ha, hd] using ih
    | true => simpa [ha, hd] using List.Forall₂.cons hr ih

theorem seg_eta_mat {s : segment} (h : s.ebuf = s.fdata) :
    { s with fdata := s.ebuf } = s := by
  cases s
  simp_all

theorem entriesAt_forall₂ {L L1 : List segment} (h : List.Forall₂ cacheStep L L1)
    (off : Int) : entriesAt L1 off = entriesAt L off :=
  entriesAt_congr L1 L off (forall₂_cacheStep_core h)

/-- `cycle` on a tail that is not the initial empty segment: the tail is
pushed into the segment cache (possibly dematerializing an evicted segment)
and a fresh empty segment is appended. -/
theorem cycle_push_char (l : Log) (no : Int) (B : List segment) (t : segment)
    (hsegs : l.segments = B ++ [t])
    (hcond : (t.offset == 0 && t.ebuf.isEmpty) = false)
    (hcap : 1 ≤ l.opts.SegmentCacheSize) (hnd : l.scache.Nodup)
    (hclean : ∀ s ∈ l.segments, s.onDisk = false → s.ebuf = [] ∧ s.epos = []) :
    ∃ l1 B1, cycle l no = .ok l1 ∧
      l1.segments = (B1 ++ [t]) ++ [⟨no, true, [], [], []⟩] ∧
      List.Forall₂ cacheStep B B1 ∧
      l1.opts = l.opts ∧ l1.closed = l.closed ∧ l1.corrupt = l.corrupt ∧
      l1.firstOffset = l.firstOffset ∧ l1.lastOffset = l.lastOffset ∧
      (∀ j ∈ l1.scache, j = B.length ∨ j ∈ l.scache) ∧
      l1.scache.Nodup := by
  obtain ⟨hf, hopts, hcl, hco, hfo, hlo, hsub, hnd1, _, hgeti⟩ :=
    pushCache_spec l (l.segments.length - 1) hcap hnd hclean
  have hlen : l.segments.length = B.length + 1 := by rw [hsegs]; simp
  have hBlen : l.segments.length - 1 = B.length := by omega
  rw [hBlen] at hf hopts hcl hco hfo hlo hsub hnd1 hgeti
  rw [hsegs] at hf
  obtain ⟨B1, b, hps, hF, hstep⟩ := forall₂_snoc_decomp hf
  have hB1len : B1.length = B.length := (List.Forall₂.length_eq hF).symm
  have hbt : b = t := by
    have h1 : (pushCache l B.length).segments.get? B.length = some b := by
      rw [hps, List.get?_append_right (by omega)]
      rw [hB1len]
      simp
    have h2 : l.segments.get? B.length = some t := by
      rw [hsegs, List.get?_append_right (by omega)]
      simp
    rw [h1, h2] at hgeti
    exact (Option.some.injEq _ _ ▸ hgeti)
  rw [hbt] at hps
  refine ⟨{ pushCache l B.length with
      segments := (pushCache l B.length).segments ++ [⟨no, true, [], [], []⟩] },
    B1, ?_, ?_, hF, hopts, hcl, hco, hfo, hlo, ?_, hnd1⟩
  · rw [cycle, hsegs, List.getLast?_concat]
    dsimp only
    rw [hcond]
    simp only [Bool.false_eq_true, if_false]
    rw [show (B ++ [t]).length - 1 = B.length by simp]
  · dsimp only
    rw [hps]
  · intro j hj
    rcases hsub j hj with h | h
    · left; omega
    · right; exact h

/-- `cycle` on the initial empty segment at offset `0`: its file is deleted
(the record stays, dead), `firstOffset` moves to `no`, and a fresh segment at
`no` is appended. -/
theorem cycle_stale_char (l : Log) (no : Int)
    (hsegs : l.segments = [⟨0, true, [], [], []⟩]) :
    cycle l no = .ok { l with
      firstOffset := no
      segments := [staleSeg, ⟨no, true, [], [], []⟩] } := by
  rw [cycle, hsegs]
  rfl

theorem cacheStep_clean {s s1 : segment} (h : cacheStep s s1)
    (hc : s.onDisk = false → s.ebuf = [] ∧ s.epos = []) :
    s1.onDisk = false → s1.ebuf = [] ∧ s1.epos = [] := by
  intro hd
  rcases h.2 with rfl | ⟨hdisk, _⟩
  · exact hc hd
  · rw [cacheStep_onDisk h, hdisk] at hd
    cases hd

theorem MidInv.lookup {l : Log} {base : List segment} {t : segment}
    {tes : List (List Nat)} {mark : Nat} (h : MidInv l base t tes mark)
    (off : Int) (hge : t.offset ≤ off) :
    entriesAt (completeSegs l.segments) off = tes.get? (off - t.offset).toNat := by
  rw [h.segsEq, completeSegs_snoc]
  rw [entriesAt_snoc_owner base ({ t with fdata := t.ebuf }) off
    (fun x hx => le_of_lt (lt_of_lt_of_le (h.crossOrd x hx).1 hge)) hge]
  exact segLookup_frames (by dsimp only; exact h.tEbuf) off

theorem MidInv.beyond {l : Log} {base : List segment} {t : segment}
    {tes : List (List Nat)} {mark : Nat} (h : MidInv l base t tes mark)
    (off : Int) (hge : t.offset + (tes.length : Int) ≤ off) :
    entriesAt (completeSegs l.segments) off = none := by
  rw [h.lookup off (by omega)]
  exact List.get?_eq_none.mpr (by omega)

theorem MidInv.below {l : Log} {base : List segment} {t : segment}
    {tes : List (List Nat)} {mark : Nat} (h : MidInv l base t tes mark)
    (off : Int) (hlt : off < t.offset) :
    entriesAt (completeSegs l.segments) off = entriesAt base off := by
  rw [h.segsEq, completeSegs_snoc]
  exact entriesAt_snoc_lt _ _ _ hlt

theorem writeLoop_strong (ds : List (List Nat)) :
    ∀ (l : Log) (mark : Nat) (base : List segment) (t : segment) (tes : List (List Nat)),
    MidInv l base t tes mark →
    (ds = [] → tes = [] → ∀ p, (base.filter (fun s => s.onDisk)).getLast? = some p →
      p.offset + ((segEs p).length : Int) = t.offset) →
    ∃ l2 mark2 base2 news t2 tes2,
      writeLoop l mark (mkEntries (t.offset + (tes.length : Int)) ds) ds.flatten =
        .ok l2 mark2 ∧
      MidInv l2 (base2 ++ news) t2 tes2 mark2 ∧
      l2.segments = (base2 ++ news) ++ [t2] ∧
      List.Forall₂ cacheStep base base2 ∧
      (∀ s ∈ news, s.onDisk = true ∧ segLive s) ∧
      l2.opts = l.opts ∧ l2.closed = l.closed ∧ l2.corrupt = l.corrupt ∧
      l2.firstOffset = l.firstOffset ∧
      t2.offset + (tes2.length : Int) = t.offset + (tes.length : Int) + ds.length ∧
      (ds ≠ [] → mark2 = (frames tes2).length →
        l2.lastOffset = t.offset + (tes.length : Int) + ds.length - 1) ∧
      (ds = [] → l2 = l ∧ mark2 = mark ∧ t2 = t ∧ tes2 = tes ∧ news = []) ∧
      (tes2 = [] → ∀ p, ((base2 ++ news).filter (fun s => s.onDisk)).getLast? = some p →
        p.offset + ((segEs p).length : Int) = t2.offset) ∧
      (∀ i : Nat, i < ds.length →
        entriesAt (completeSegs l2.segments) (t.offset + (tes.length : Int) + i) =
          ds.get? i) ∧
      (∀ off : Int, off < t.offset + (tes.length : Int) →
        entriesAt (completeSegs l2.segments) off = entriesAt (completeSegs l.segments) off) := by
  induction ds with
  | nil =>
    intro l mark base t tes hInv hedge
    refine ⟨l, mark, base, [], t, tes, rfl, ?_, by simpa using hInv.segsEq,
      forall₂_cacheStep_refl base,
      ?_, rfl, rfl, rfl, rfl, by simp, ?_, fun _ => ⟨rfl, rfl, rfl, rfl, rfl⟩,
      ?_, ?_, fun _ _ => rfl⟩
    · simpa using hInv
    · intro s hs
      cases hs
    · intro h
      exact absurd rfl h
    · intro hte p hp
      rw [List.append_nil] at hp
      exact hedge rfl hte p hp
    · intro i hi
      simp at hi
  | cons d rest ih =>
    intro l mark base t tes hInv hedge
    have hglast : l.segments.getLast? = some t := by
      rw [hInv.segsEq, List.getLast?_concat]
    have hdl : l.segments.dropLast = base := by
      rw [hInv.segsEq, List.dropLast_concat]
    have htake : (d ++ rest.flatten).take d.length = d := List.take_left d rest.flatten
    have hdrop : (d ++ rest.flatten).drop d.length = rest.flatten := List.drop_left d rest.flatten
    have hlen : ¬ ((d ++ rest.flatten).length < d.length) := by simp
    have hs1e : (segAppendEntry t d).ebuf = frames (tes ++ [d]) := by
      show t.ebuf ++ frameOf d = _
      rw [hInv.tEbuf, frames_snoc]
    have hs1p : (segAppendEntry t d).epos = posOf (tes ++ [d]) 0 := by
      show t.epos ++ [⟨t.ebuf.length, t.ebuf.length + (frameOf d).length⟩] = _
      rw [hInv.tEpos, hInv.tEbuf, posOf_snoc]
      simp
    have hs1f : (segAppendEntry t d).fdata = (frames (tes ++ [d])).take mark := by
      show t.fdata = _
      rw [hInv.tFdata, frames_snoc, List.take_append_of_le_length hInv.tMark]
    have hs1d : (segAppendEntry t d).onDisk = true := hInv.tDisk
    have hfln : frames (tes ++ [d]) ≠ [] := by
      rw [frames_snoc]
      intro hc
      exact frameOf_ne_nil d (List.append_eq_nil.mp hc).2
    have hflenlt : (frames tes).length < (frames (tes ++ [d])).length := by
      rw [frames_snoc, List.length_append]
      have := putUvarint_length_pos d.length
      rw [frameOf_length]
      omega
    rw [show mkEntries (t.offset + (tes.length : Int)) (d :: rest) =
        ⟨t.offset + (tes.length : Int), d.length⟩ ::
          mkEntries (t.offset + (tes.length : Int) + 1) rest from rfl]
    rw [show (d :: rest).flatten = d ++ rest.flatten from by simp]
    rw [writeLoop, hglast]
    dsimp only
    rw [if_neg hlen, htake, hdrop, hdl]
    by_cases hcap : l.opts.SegmentSize ≤ (segAppendEntry t d).ebuf.length
    · rw [if_pos hcap]
      rw [show (base ++ [segAppendEntry t d]).dropLast = base from List.dropLast_concat]
      -- the flushed tail
      have hs2f : ({ segAppendEntry t d with
          fdata := (segAppendEntry t d).fdata ++ (segAppendEntry t d).ebuf.drop mark } :
            segment).fdata = frames (tes ++ [d]) := by
        show (segAppendEntry t d).fdata ++ (segAppendEntry t d).ebuf.drop mark = _
        rw [hs1f, hs1e, List.take_append_drop]
      have hs2e : ({ segAppendEntry t d with
          fdata := (segAppendEntry t d).fdata ++ (segAppendEntry t d).ebuf.drop mark } :
            segment).ebuf = frames (tes ++ [d]) := hs1e
      have hs2p : ({ segAppendEntry t d with
          fdata := (segAppendEntry t d).fdata ++ (segAppendEntry t d).ebuf.drop mark } :
            segment).epos = posOf (tes ++ [d]) 0 := hs1p
      have hs2d : ({ segAppendEntry t d with
          fdata := (segAppendEntry t d).fdata ++ (segAppendEntry t d).ebuf.drop mark } :
            segment).onDisk = true := hInv.tDisk
      have hs2es : segEs ({ segAppendEntry t d with
          fdata := (segAppendEntry t d).fdata ++ (segAppendEntry t d).ebuf.drop mark } :
            segment) = tes ++ [d] := segEs_frames hs2f
      have hs2live : segLive ({ segAppendEntry t d with
          fdata := (segAppendEntry t d).fdata ++ (segAppendEntry t d).ebuf.drop mark } :
            segment) := by
        refine ⟨hs2d, ⟨tes ++ [d], hs2f⟩, Or.inr ⟨hs2e.trans hs2f.symm, ?_⟩⟩
        rw [hs2p, hs2es]
      have hcond : (({ segAppendEntry t d with
          fdata := (segAppendEntry t d).fdata ++ (segAppendEntry t d).ebuf.drop mark } :
            segment).offset == 0 &&
          ({ segAppendEntry t d with
          fdata := (segAppendEntry t d).fdata ++ (segAppendEntry t d).ebuf.drop mark } :
            segment).ebuf.isEmpty) = false := by
        have hne : ({ segAppendEntry t d with
            fdata := (segAppendEntry t d).fdata ++ (segAppendEntry t d).ebuf.drop mark } :
              segment).ebuf ≠ [] := hs2e ▸ hfln
        cases hq : ({ segAppendEntry t d with
            fdata := (segAppendEntry t d).fdata ++ (segAppendEntry t d).ebuf.drop mark } :
              segment).ebuf.isEmpty with
        | false => rw [Bool.and_false]
        | true => exact absurd (List.isEmpty_iff.mp hq) hne
      obtain ⟨l3, B1, hcyc, hl3segs, hFB1, hopts3, hcl3, hco3, hfo3, hlo3, hsub3, hnd3⟩ :=
        cycle_push_char
          { l with
            segments := base ++ [{ segAppendEntry t d with
              fdata := (segAppendEntry t d).fdata ++ (segAppendEntry t d).ebuf.drop mark }]
            lastOffset := t.offset + (tes.length : Int) }
          (t.offset + (tes.length : Int) + 1) base _ rfl hcond hInv.capPos hInv.cacheNodup
          (by
            intro s hs hd
            rcases List.mem_append.mp hs with hsm | hsm
            · exact hInv.baseClean s hsm hd
            · rw [List.mem_singleton] at hsm
              subst hsm
              rw [hs2d] at hd
              cases hd)
      rw [hcyc]
      have hB1len : B1.length = base.length := (List.Forall₂.length_eq hFB1).symm
      have hFfilt : List.Forall₂ cacheStep (base.filter (fun s => s.onDisk))
          (B1.filter (fun s => s.onDisk)) := forall₂_filter_onDisk hFB1
      have hInv3 : MidInv l3
          (B1 ++ [{ segAppendEntry t d with
            fdata := (segAppendEntry t d).fdata ++ (segAppendEntry t d).ebuf.drop mark }])
          ⟨t.offset + (tes.length : Int) + 1, true, [], [], []⟩ [] 0 := by
        have hl0 : liveOf l = base.filter (fun s => s.onDisk) ++ [t] := by
          unfold liveOf
          rw [hInv.segsEq, List.filter_append]
          simp [hInv.tDisk]
        have htnn := hInv.tNonneg
        refine ⟨hl3segs, hcl3.trans hInv.notClosed, hco3.trans hInv.notCorrupt, ?_, ?_, ?_,
          ?_, ?_, ?_, ?_, rfl, rfl, rfl, rfl, ?_, ?_, ?_, ?_, ?_, ?_, hnd3⟩
        · rw [hopts3]
          exact hInv.capPos
        · intro s hs hd
          rcases List.mem_append.mp hs with hsm | hsm
          · obtain ⟨s0, hs0, hstep⟩ := forall₂_mem_right hFB1 hsm
            exact cacheStep_segLive hstep
              (hInv.baseLive s0 hs0 (by rw [← cacheStep_onDisk hstep]; exact hd))
          · rw [List.mem_singleton] at hsm
            subst hsm
            exact hs2live
        · intro s hs hd
          rcases List.mem_append.mp hs with hsm | hsm
          · obtain ⟨s0, hs0, hstep⟩ := forall₂_mem_right hFB1 hsm
            exact cacheStep_clean hstep (hInv.baseClean s0 hs0) hd
          · rw [List.mem_singleton] at hsm
            subst hsm
            rw [hs2d] at hd
            cases hd
        · intro s hs
          rcases List.mem_append.mp hs with hsm | hsm
          · obtain ⟨s0, hs0, hstep⟩ := forall₂_mem_right hFB1 hsm
            rw [cacheStep_offset hstep]
            exact hInv.baseNonneg s0 hs0
          · rw [List.mem_singleton] at hsm
            subst hsm
            exact htnn
        · refine pairwise_transfer (forall₂_append_seg hFB1 (forall₂_cacheStep_refl _)) ?_ ?_
          · intro a b a1 b1 ha hb hab
            unfold segOrder at hab ⊢
            rw [cacheStep_offset ha, cacheStep_offset hb, cacheStep_segEs ha]
            exact hab
          · rw [List.pairwise_append]
            refine ⟨hInv.baseOrd, List.pairwise_singleton _ _, ?_⟩
            intro x hx y hy
            rw [List.mem_singleton] at hy
            subst hy
            exact ⟨(hInv.crossOrd x hx).1, (hInv.crossOrd x hx).2⟩
        · rw [List.filter_append]
          rw [show List.filter (fun s => s.onDisk) [({ segAppendEntry t d with
              fdata := (segAppendEntry t d).fdata ++ (segAppendEntry t d).ebuf.drop mark } :
                segment)] = [({ segAppendEntry t d with
              fdata := (segAppendEntry t d).fdata ++ (segAppendEntry t d).ebuf.drop mark } :
                segment)] from by simp [hs1d]]
          refine chain'_transfer (forall₂_append_seg hFfilt (forall₂_cacheStep_refl _)) ?_ ?_
          · intro a b a1 b1 ha hb hab
            rw [cacheStep_offset ha, cacheStep_offset hb, cacheStep_segEs ha,
              cacheStep_segEs hb]
            exact hab
          · rw [List.chain'_append]
            refine ⟨hInv.baseChain, List.chain'_singleton _, ?_⟩
            intro x hx y hy hemp
            simp only [List.head?] at hy
            injection hy with hy
            subst hy
            rw [hs2es] at hemp
            exact absurd hemp (by simp)
        · rcases hInv.shape with hfb | ⟨b2, hb, hfb2⟩
          · left
            rw [List.filter_append]
            have hallB1 : ∀ s ∈ B1, s.onDisk = true := by
              intro s hsm
              obtain ⟨s0, hs0, hstep⟩ := forall₂_mem_right hFB1 hsm
              rw [cacheStep_onDisk hstep]
              have := List.filter_eq_self.mp hfb s0 hs0
              simpa using this
            rw [List.filter_eq_self.mpr (by intro a ha; simpa using hallB1 a ha)]
            simp [hs1d]
          · subst hb
            cases hFB1 with
            | cons h0 hrest =>
              rename_i s1h B1t
              have hs1h : s1h = staleSeg := cacheStep_stale h0
              subst hs1h
              right
              refine ⟨B1t ++ [({ segAppendEntry t d with
                fdata := (segAppendEntry t d).fdata ++ (segAppendEntry t d).ebuf.drop mark } :
                  segment)], by rw [List.cons_append], ?_⟩
              rw [List.filter_append]
              have hallB1t : ∀ s ∈ B1t, s.onDisk = true := by
                intro s hsm
                obtain ⟨s0, hs0, hstep⟩ := forall₂_mem_right hrest hsm
                rw [cacheStep_onDisk hstep]
                have := List.filter_eq_self.mp hfb2 s0 hs0
                simpa using this
              rw [List.filter_eq_self.mpr (by intro a ha; simpa using hallB1t a ha)]
              simp [hs1d]
        · exact le_refl 0
        · show (0 : Int) ≤ t.offset + (tes.length : Int) + 1
          omega
        · intro s hs
          rcases List.mem_append.mp hs with hsm | hsm
          · obtain ⟨s0, hs0, hstep⟩ := forall₂_mem_right hFB1 hsm
            have h1 := (hInv.crossOrd s0 hs0).1
            have h2 := (hInv.crossOrd s0 hs0).2
            rw [cacheStep_offset hstep, cacheStep_segEs hstep]
            constructor
            · show s0.offset < t.offset + (tes.length : Int) + 1
              omega
            · show s0.offset + ((segEs s0).length : Int) ≤ t.offset + (tes.length : Int) + 1
              omega
          · rw [List.mem_singleton] at hsm
            subst hsm
            constructor
            · show t.offset < t.offset + (tes.length : Int) + 1
              omega
            · rw [hs2es]
              show t.offset + (((tes ++ [d]).length : Nat) : Int) ≤
                t.offset + (tes.length : Int) + 1
              push_cast
              simp only [List.length_append, List.length_singleton]
              push_cast
              omega
        · intro h hh
          have hlive3 : liveOf l3 = B1.filter (fun s => s.onDisk) ++
              ([({ segAppendEntry t d with
                fdata := (segAppendEntry t d).fdata ++ (segAppendEntry t d).ebuf.drop mark } :
                  segment)] ++ [⟨t.offset + (tes.length : Int) + 1, true, [], [], []⟩]) := by
            unfold liveOf
            rw [hl3segs, List.filter_append, List.filter_append]
            simp [hs1d]
          rw [hlive3] at hh
          have hfo : l3.firstOffset = l.firstOffset := hfo3
          cases hfb1 : B1.filter (fun s => s.onDisk) with
          | nil =>
            rw [hfb1] at hh
            simp only [List.nil_append, List.head?] at hh
            injection hh with hh
            subst hh
            have hfbase : base.filter (fun s => s.onDisk) = [] := by
              rw [hfb1] at hFfilt
              have hlen0 := List.Forall₂.length_eq hFfilt
              rw [List.length_nil] at hlen0
              exact List.length_eq_zero.mp hlen0
            refine hfo.trans (hInv.firstEq t ?_)
            rw [hl0, hfbase]
            rfl
          | cons p1 ps1 =>
            rw [hfb1] at hh
            simp only [List.cons_append, List.head?] at hh
            injection hh with hh
            subst hh
            rw [hfb1] at hFfilt
            rcases hfbc : base.filter (fun s => s.onDisk) with _ | ⟨p, ps⟩
            · rw [hfbc] at hFfilt
              cases hFfilt
            · rw [hfbc] at hFfilt
              cases hFfilt with
              | cons hstep0 _ =>
                rw [cacheStep_offset hstep0]
                refine hfo.trans (hInv.firstEq p ?_)
                rw [hl0, hfbc]
                rfl
        · intro hle h hh
          rw [List.filter_append] at hh
          rw [show List.filter (fun s => s.onDisk) [({ segAppendEntry t d with
              fdata := (segAppendEntry t d).fdata ++ (segAppendEntry t d).ebuf.drop mark } :
                segment)] = [({ segAppendEntry t d with
              fdata := (segAppendEntry t d).fdata ++ (segAppendEntry t d).ebuf.drop mark } :
                segment)] from by simp [hs1d]] at hh
          cases hfb1 : B1.filter (fun s => s.onDisk) with
          | nil =>
            rw [hfb1] at hh
            simp only [List.nil_append, List.cons_append, List.head?] at hh
            injection hh with hh
            subst hh
            rw [hs2es]
            simp
          | cons p1 ps1 =>
            rw [hfb1] at hh
            simp only [List.cons_append, List.head?] at hh
            injection hh with hh
            subst hh
            rw [hfb1] at hFfilt
            rcases hfbc : base.filter (fun s => s.onDisk) with _ | ⟨p, ps⟩
            · rw [hfbc] at hFfilt
              cases hFfilt
            · rw [hfbc] at hFfilt
              cases hFfilt with
              | cons hstep0 _ =>
                have hpmem : p ∈ base := by
                  have hpf : p ∈ base.filter (fun s => s.onDisk) := by
                    rw [hfbc]
                    exact List.mem_cons_self _ _
                  exact List.mem_of_mem_filter hpf
                have hplt : p.offset < t.offset := (hInv.crossOrd p hpmem).1
                have hfirst : l.firstOffset = p.offset := by
                  refine hInv.firstEq p ?_
                  rw [hl0, hfbc]
                  rfl
                rw [cacheStep_segEs hstep0]
                refine hInv.headNe ?_ p ?_
                · have hnn : (0 : Int) ≤ (tes.length : Int) := by positivity
                  omega
                · rw [hfbc]
                  rfl
        · intro i hi
          rcases hsub3 i hi with rfl | him
          · rw [hl3segs]
            simp only [List.length_append, List.length_singleton]
            omega
          · have := hInv.cacheBound i him
            rw [hInv.segsEq] at this
            rw [hl3segs]
            simp only [List.length_append, List.length_singleton] at this ⊢
            omega
      have hfoff : (⟨t.offset + (tes.length : Int) + 1, true, [], [], []⟩ : segment).offset +
          ((([] : List (List Nat)).length : Nat) : Int) = t.offset + (tes.length : Int) + 1 := by
        show t.offset + (tes.length : Int) + 1 + (((0 : Nat) : Nat) : Int) = _
        simp
      have hedge3 : ∀ p, ((B1 ++ [({ segAppendEntry t d with
          fdata := (segAppendEntry t d).fdata ++ (segAppendEntry t d).ebuf.drop mark } :
            segment)]).filter (fun s => s.onDisk)).getLast? = some p →
          p.offset + ((segEs p).length : Int) =
            (⟨t.offset + (tes.length : Int) + 1, true, [], [], []⟩ : segment).offset := by
        intro p hp
        rw [List.filter_append] at hp
        rw [show List.filter (fun s => s.onDisk) [({ segAppendEntry t d with
          fdata := (segAppendEntry t d).fdata ++ (segAppendEntry t d).ebuf.drop mark } :
            segment)] = [({ segAppendEntry t d with
          fdata := (segAppendEntry t d).fdata ++ (segAppendEntry t d).ebuf.drop mark } :
            segment)] from by simp [hs1d]] at hp
        rw [List.getLast?_concat] at hp
        injection hp with hp
        subst hp
        rw [hs2es]
        show t.offset + (((tes ++ [d]).length : Nat) : Int) =
          t.offset + (tes.length : Int) + 1
        push_cast
        simp only [List.length_append, List.length_singleton]
        push_cast
        omega
      obtain ⟨l2, mark2, base2, news, t2, tes2, heq, hmid2, hsegs2, hF2, hnews, hopts2, hcl2,
        hco2, hfo2, hoff2, hlast2, hempty2, hedgeO2, hbatch2, hunch2⟩ :=
        ih l3 0 (B1 ++ [({ segAppendEntry t d with
          fdata := (segAppendEntry t d).fdata ++ (segAppendEntry t d).ebuf.drop mark } :
            segment)]) ⟨t.offset + (tes.length : Int) + 1, true, [], [], []⟩ [] hInv3
          (fun _ _ => hedge3)
      rw [hfoff] at heq hoff2 hlast2 hbatch2 hunch2
      obtain ⟨B2, s2P, rfl, hFB2, hstepS2⟩ := forall₂_snoc_decomp hF2
      have hliseq : (B2 ++ [s2P]) ++ news = B2 ++ (s2P :: news) := by simp
      rw [hliseq] at hmid2 hsegs2 hedgeO2
      refine ⟨l2, mark2, B2, s2P :: news, t2, tes2, heq, hmid2, hsegs2,
        forall₂_cacheStep_trans hFB1 hFB2, ?_, hopts2.trans hopts3, hcl2.trans hcl3,
        hco2.trans hco3, hfo2.trans hfo3, ?_, ?_,
        fun hc => absurd hc (List.cons_ne_nil d rest), hedgeO2, ?_, ?_⟩
      · intro s hs
        rcases List.mem_cons.mp hs with rfl | hsm
        · refine ⟨?_, cacheStep_segLive hstepS2 hs2live⟩
          rw [cacheStep_onDisk hstepS2]
          exact hs2d
        · exact hnews s hsm
      · simp only [List.length_cons] at hoff2 ⊢
        push_cast at hoff2 ⊢
        omega
      · intro _ hmk
        rcases hrest : rest with _ | ⟨r0, rs⟩
        · obtain ⟨hl2, hm2, _, _, _⟩ := hempty2 hrest
          rw [hl2, hlo3]
          show t.offset + (tes.length : Int) = _
          simp only [List.length_cons, List.length_nil]
          push_cast
          omega
        · rw [← hrest]
          have hL := hlast2 (by rw [hrest]; exact List.cons_ne_nil r0 rs) hmk
          simp only [List.length_cons, List.length_append] at hL ⊢
          push_cast at hL ⊢
          omega
      · intro i hi
        cases i with
        | zero =>
          rw [show t.offset + (tes.length : Int) + ((0 : Nat) : Int) =
            t.offset + (tes.length : Int) from by simp]
          rw [hunch2 _ (by omega)]
          rw [hInv3.below _ (by
            show t.offset + (tes.length : Int) < t.offset + (tes.length : Int) + 1
            omega)]
          rw [entriesAt_snoc_owner B1 ({ segAppendEntry t d with
          fdata := (segAppendEntry t d).fdata ++ (segAppendEntry t d).ebuf.drop mark } :
            segment) (t.offset + (tes.length : Int))
            (fun x hx => by
              obtain ⟨x0, hx0, hxs⟩ := forall₂_mem_right hFB1 hx
              rw [cacheStep_offset hxs]
              have h1 := (hInv.crossOrd x0 hx0).1
              have hnn : (0 : Int) ≤ (tes.length : Int) := by positivity
              omega)
            (by
              show t.offset ≤ t.offset + (tes.length : Int)
              have hnn : (0 : Int) ≤ (tes.length : Int) := by positivity
              omega)]
          rw [segLookup_frames hs2f]
          rw [show ((t.offset + (tes.length : Int) - (({ segAppendEntry t d with
          fdata := (segAppendEntry t d).fdata ++ (segAppendEntry t d).ebuf.drop mark } :
            segment)).offset).toNat) =
            tes.length from by
              show (t.offset + (tes.length : Int) - t.offset).toNat = tes.length
              omega]
          rw [List.get?_concat_length]
          rfl
        | succ j =>
          have hj : j < rest.length := by simpa using hi
          have hB := hbatch2 j hj
          rw [show t.offset + (tes.length : Int) + ((j + 1 : Nat) : Int) =
            t.offset + (tes.length : Int) + 1 + (j : Int) from by push_cast; ring]
          rw [hB]
          rfl
      · intro off hoff
        rw [hunch2 off (by omega)]
        rw [hInv3.below off (by
          show off < t.offset + (tes.length : Int) + 1
          omega)]
        by_cases hofft : off < t.offset
        · rw [entriesAt_snoc_lt B1 ({ segAppendEntry t d with
          fdata := (segAppendEntry t d).fdata ++ (segAppendEntry t d).ebuf.drop mark } :
            segment) off (by show off < t.offset; exact hofft)]
          rw [entriesAt_forall₂ hFB1 off]
          exact (hInv.below off hofft).symm
        · push_neg at hofft
          rw [entriesAt_snoc_owner B1 ({ segAppendEntry t d with
          fdata := (segAppendEntry t d).fdata ++ (segAppendEntry t d).ebuf.drop mark } :
            segment) off
            (fun x hx => by
              obtain ⟨x0, hx0, hxs⟩ := forall₂_mem_right hFB1 hx
              rw [cacheStep_offset hxs]
              have h1 := (hInv.crossOrd x0 hx0).1
              omega)
            (by show t.offset ≤ off; exact hofft)]
          rw [segLookup_frames hs2f]
          rw [hInv.lookup off hofft]
          rw [show ((off - (({ segAppendEntry t d with
          fdata := (segAppendEntry t d).fdata ++ (segAppendEntry t d).ebuf.drop mark } :
            segment)).offset).toNat) = (off - t.offset).toNat from rfl]
          exact List.get?_append (by omega)
    · rw [if_neg hcap]
      -- the appended tail without a flush: recurse with the invariant updated
      have hInv1 : MidInv { l with segments := base ++ [segAppendEntry t d] } base
          (segAppendEntry t d) (tes ++ [d]) mark := by
        refine ⟨rfl, hInv.notClosed, hInv.notCorrupt, hInv.capPos, hInv.baseLive,
          hInv.baseClean, hInv.baseNonneg, hInv.baseOrd, hInv.baseChain, hInv.shape,
          hInv.tDisk, hs1e, hs1p, hs1f, ?_, hInv.tNonneg, hInv.crossOrd, ?_, ?_, ?_,
          hInv.cacheNodup⟩
        · exact le_of_lt (lt_of_le_of_lt hInv.tMark hflenlt)
        · intro h hh
          show l.firstOffset = h.offset
          have hl1 : liveOf { l with segments := base ++ [segAppendEntry t d] } =
              base.filter (fun s => s.onDisk) ++ [segAppendEntry t d] := by
            unfold liveOf
            rw [show ({ l with segments := base ++ [segAppendEntry t d] } : Log).segments
                = base ++ [segAppendEntry t d] from rfl]
            rw [List.filter_append]
            have hT : (segAppendEntry t d).onDisk = true := hInv.tDisk
            simp [hT]
          have hl0 : liveOf l = base.filter (fun s => s.onDisk) ++ [t] := by
            unfold liveOf
            rw [hInv.segsEq, List.filter_append]
            simp [hInv.tDisk]
          rw [hl1] at hh
          cases hfb : base.filter (fun s => s.onDisk) with
          | nil =>
            rw [hfb] at hh
            simp only [List.nil_append, List.head?] at hh
            injection hh with hh
            subst hh
            exact hInv.firstEq t (by rw [hl0, hfb]; rfl)
          | cons p ps =>
            rw [hfb] at hh
            simp only [List.cons_append, List.head?] at hh
            injection hh with hh
            subst hh
            exact hInv.firstEq p (by rw [hl0, hfb]; rfl)
        · intro hle h hh
          cases hfb : base.filter (fun s => s.onDisk) with
          | nil =>
            rw [hfb] at hh
            simp only [List.nil_append, List.head?] at hh
            injection hh with hh
            subst hh
            rw [segEs_frames (show ({ segAppendEntry t d with
              fdata := (segAppendEntry t d).ebuf } : segment).fdata =
              frames (tes ++ [d]) from hs1e)]
            simp
          | cons p ps =>
            rw [hfb] at hh
            simp only [List.cons_append, List.head?] at hh
            injection hh with hh
            subst hh
            have hpmem : p ∈ base := by
              have hpf : p ∈ base.filter (fun s => s.onDisk) := by
                rw [hfb]
                exact List.mem_cons_self _ _
              exact List.mem_of_mem_filter hpf
            have hplt : p.offset < t.offset := (hInv.crossOrd p hpmem).1
            have hfirst : l.firstOffset = p.offset := by
              refine hInv.firstEq p ?_
              unfold liveOf
              rw [hInv.segsEq, List.filter_append, hfb]
              rfl
            refine hInv.headNe ?_ p ?_
            · have hnn : (0 : Int) ≤ (tes.length : Int) := by positivity
              omega
            · rw [hfb]
              rfl
        · intro i hi
          have := hInv.cacheBound i hi
          rw [hInv.segsEq] at this
          simpa using this
      obtain ⟨l2, mark2, base2, news, t2, tes2, heq, hmid2, hsegs2, hF2, hnews, hopts2, hcl2,
        hco2, hfo2, hoff2, hlast2, hempty2, hedgeO2, hbatch2, hunch2⟩ :=
        ih { l with segments := base ++ [segAppendEntry t d] } mark base (segAppendEntry t d)
          (tes ++ [d]) hInv1 (fun _ hte => absurd hte (by simp))
      have hoffeq : (segAppendEntry t d).offset + (((tes ++ [d]).length : Nat) : Int) =
          t.offset + (tes.length : Int) + 1 := by
        show t.offset + (((tes ++ [d]).length : Nat) : Int) = _
        push_cast
        simp
        ring
      rw [hoffeq] at heq hoff2 hlast2 hbatch2 hunch2
      refine ⟨l2, mark2, base2, news, t2, tes2, heq, hmid2, hsegs2, hF2, hnews,
        hopts2, hcl2, hco2, hfo2, ?_, ?_, fun hc => absurd hc (List.cons_ne_nil d rest),
        hedgeO2, ?_, ?_⟩
      · simp only [List.length_cons, List.length_append] at hoff2 ⊢
        push_cast at hoff2 ⊢
        omega
      · intro _ hmk
        rcases hrest : rest with _ | ⟨r0, rs⟩
        · obtain ⟨hl2, hm2, ht2, hte2, hnw⟩ := hempty2 hrest
          subst hte2
          rw [hm2] at hmk
          have := hInv.tMark
          omega
        · rw [← hrest]
          have hL := hlast2 (by rw [hrest]; exact List.cons_ne_nil r0 rs) hmk
          simp only [List.length_cons, List.length_append] at hL ⊢
          push_cast at hL ⊢
          omega
      · intro i hi
        cases i with
        | zero =>
          have h0 : t.offset + (tes.length : Int) + ((0 : Nat) : Int) =
              t.offset + (tes.length : Int) := by simp
          rw [h0]
          rw [hunch2 _ (by omega)]
          rw [hInv1.lookup _ (show (segAppendEntry t d).offset ≤
            t.offset + (tes.length : Int) from by
              show t.offset ≤ _
              have hnn : (0 : Int) ≤ (tes.length : Int) := by positivity
              omega)]
          rw [show ((t.offset + (tes.length : Int) - (segAppendEntry t d).offset).toNat) =
            tes.length from by
              show (t.offset + (tes.length : Int) - t.offset).toNat = tes.length
              omega]
          rw [List.get?_concat_length]
          rfl
        | succ j =>
          have hj : j < rest.length := by simpa using hi
          have hB := hbatch2 j hj
          rw [show t.offset + (tes.length : Int) + ((j + 1 : Nat) : Int) =
            t.offset + (tes.length : Int) + 1 + (j : Int) from by push_cast; ring]
          rw [hB]
          rfl
      · intro off hoff
        rw [hunch2 off (by omega)]
        by_cases hofft : off < t.offset
        · exact (hInv1.below off hofft).trans (hInv.below off hofft).symm
        · push_neg at hofft
          rw [hInv1.lookup off hofft, hInv.lookup off hofft]
          rw [show ((off - (segAppendEntry t d).offset).toNat) = (off - t.offset).toNat from rfl]
          exact List.get?_append (show (off - t.offset).toNat < tes.length from by omega)

theorem segments_split {L : List segment} {t : segment} (h : L.getLast? = some t) :
    L = L.dropLast ++ [t] := by
  induction L with
  | nil => cases h
  | cons a r ih =>
    cases r with
    | nil =>
      rw [List.getLast?_singleton] at h
      injection h with h
      subst h
      rfl
    | cons b r2 =>
      rw [List.getLast?_cons_cons] at h
      have hr := ih h
      calc a :: b :: r2 = a :: ((b :: r2).dropLast ++ [t]) := by rw [← hr]
        _ = (a :: b :: r2).dropLast ++ [t] := by rfl

theorem snoc_cancel {a b : List segment} {t : segment} (h : a ++ [t] = b ++ [t]) :
    a = b := by
  have h2 := congrArg List.dropLast h
  rwa [List.dropLast_concat, List.dropLast_concat] at h2

/-- Decompose a well-formed log into the entry state of the `writeBatch`
loop: its tail is materialized and fully flushed. -/
theorem WF.toMid {l : Log} (hWF : WF l) :
    ∃ base t, l.segments = base ++ [t] ∧
      t.fdata = frames (segEs t) ∧
      l.lastOffset = t.offset + ((segEs t).length : Int) - 1 ∧
      MidInv l base t (segEs t) (frames (segEs t)).length ∧
      (segEs t = [] → ∀ p, (base.filter (fun s => s.onDisk)).getLast? = some p →
        p.offset + ((segEs p).length : Int) = t.offset) := by
  rcases hl : l.segments.getLast? with _ | t
  · rw [List.getLast?_eq_none_iff] at hl
    exact absurd hl hWF.segments_ne
  have hsegs : l.segments = l.segments.dropLast ++ [t] := segments_split hl
  have htlive : t ∈ liveOf l := hWF.tail_live hl
  obtain ⟨htdisk, ⟨es, hfd⟩, _⟩ := hWF.liveAll t htlive
  obtain ⟨⟨hbe, hbp⟩, hlast⟩ := hWF.tailMat t hl
  have hfdc : t.fdata = frames (segEs t) := by rw [segEs_frames hfd]; exact hfd
  have hl0 : liveOf l = l.segments.dropLast.filter (fun s => s.onDisk) ++ [t] := by
    unfold liveOf
    conv_lhs => rw [hsegs]
    rw [List.filter_append]
    simp [htdisk]
  refine ⟨l.segments.dropLast, t, hsegs, hfdc, hlast, ?_, ?_⟩
  · refine ⟨hsegs, hWF.notClosed, hWF.notCorrupt, hWF.capPos, ?_, ?_, ?_, ?_, ?_, ?_,
      htdisk, hbe.trans hfdc, hbp, by rw [List.take_length]; exact hfdc, le_refl _,
      hWF.liveNonneg t htlive, ?_, hWF.firstEq, ?_, ?_, hWF.cacheNodup⟩
    · intro s hs hd
      refine hWF.liveAll s ?_
      refine List.mem_filter.mpr ⟨?_, by simp [hd]⟩
      rw [hsegs]
      exact List.mem_append_left _ hs
    · intro s hs hd
      refine hWF.offDisk_clean s ?_ hd
      rw [hsegs]
      exact List.mem_append_left _ hs
    · intro s hs
      by_cases hd : s.onDisk = true
      · refine hWF.liveNonneg s ?_
        refine List.mem_filter.mpr ⟨?_, by simp [hd]⟩
        rw [hsegs]
        exact List.mem_append_left _ hs
      · rw [Bool.not_eq_true] at hd
        rw [hWF.offDisk_mem (by rw [hsegs]; exact List.mem_append_left _ hs) hd]
        exact le_refl 0
    · have := hWF.ordered
      rw [hsegs] at this
      exact (List.pairwise_append.mp this).1
    · have := hWF.adjEmpty
      rw [hl0] at this
      exact (List.chain'_append.mp this).1
    · rcases hWF.shape with hs | hs
      · left
        rw [hl0] at hs
        exact (snoc_cancel (hsegs.symm.trans hs)).symm
      · rcases hb : l.segments.dropLast with _ | ⟨hb0, b2⟩
        · rw [hl0, hb] at hs
          rw [hsegs, hb] at hs
          simp at hs
        · right
          rw [hl0, hb] at hs
          rw [hsegs, hb] at hs
          rw [List.cons_append] at hs
          injection hs with hs1 hs2
          refine ⟨b2, by rw [hs1], ?_⟩
          rw [hs1] at hs2
          rw [show List.filter (fun s => s.onDisk) (staleSeg :: b2) =
            List.filter (fun s => s.onDisk) b2 from by simp [staleSeg]] at hs2
          exact (snoc_cancel hs2).symm
    · intro s hs
      have := hWF.ordered
      rw [hsegs] at this
      have h2 := (List.pairwise_append.mp this).2.2 s hs t (List.mem_singleton_self t)
      exact ⟨h2.1, h2.2⟩
    · intro hle h hh
      have hfl : l.firstOffset ≤ l.lastOffset := by omega
      refine hWF.headNonempty hfl h ?_
      rw [hl0]
      rw [show ({ t with fdata := t.ebuf } : segment) = t from seg_eta_mat hbe] at hh
      exact hh
    · exact hWF.cacheBound
  · intro hte p hp
    have := hWF.adjEmpty
    rw [hl0] at this
    have hedge := (List.chain'_append.mp this).2.2 p (by rw [hp]; rfl) t (by rfl)
    exact hedge hte

/-- A loop state whose tail is fully flushed, with the right `lastOffset`,
is well formed. -/
theorem MidInv.toWF {l : Log} {base : List segment} {t : segment} {tes : List (List Nat)}
    (hInv : MidInv l base t tes (frames tes).length)
    (hlast : l.lastOffset = t.offset + (tes.length : Int) - 1)
    (hedge : tes = [] → ∀ p, (base.filter (fun s => s.onDisk)).getLast? = some p →
      p.offset + ((segEs p).length : Int) = t.offset) :
    WF l := by
  have hfd : t.fdata = frames tes := by
    rw [hInv.tFdata, List.take_length]
  have hes : segEs t = tes := segEs_frames hfd
  have hbe : t.ebuf = t.fdata := hInv.tEbuf.trans hfd.symm
  have hl0 : liveOf l = base.filter (fun s => s.onDisk) ++ [t] := by
    unfold liveOf
    rw [hInv.segsEq, List.filter_append]
    simp [hInv.tDisk]
  refine ⟨hInv.notClosed, hInv.notCorrupt, hInv.capPos, ?_, ?_, ?_, ?_, ?_, ?_,
    hInv.firstEq, ?_, ?_, hInv.cacheBound, hInv.cacheNodup⟩
  · rcases hInv.shape with hs | ⟨b2, hb, hs⟩
    · left
      rw [hl0, hs, ← hInv.segsEq]
    · right
      rw [hl0, hInv.segsEq, hb]
      rw [show List.filter (fun s => s.onDisk) (staleSeg :: b2) =
        List.filter (fun s => s.onDisk) b2 from by simp [staleSeg]]
      rw [hs, List.cons_append]
  · rw [hl0]
    simp
  · intro s hs
    rw [hl0] at hs
    rcases List.mem_append.mp hs with hsm | hsm
    · exact hInv.baseLive s (List.mem_of_mem_filter hsm) (by simpa using List.of_mem_filter hsm)
    · rw [List.mem_singleton] at hsm
      subst hsm
      exact ⟨hInv.tDisk, ⟨tes, hfd⟩, Or.inr ⟨hbe, by rw [hInv.tEpos, hes]⟩⟩
  · intro s hs
    rw [hl0] at hs
    rcases List.mem_append.mp hs with hsm | hsm
    · exact hInv.baseNonneg s (List.mem_of_mem_filter hsm)
    · rw [List.mem_singleton] at hsm
      subst hsm
      exact hInv.tNonneg
  · rw [hInv.segsEq, List.pairwise_append]
    refine ⟨hInv.baseOrd, List.pairwise_singleton _ _, ?_⟩
    intro x hx y hy
    rw [List.mem_singleton] at hy
    subst hy
    exact ⟨(hInv.crossOrd x hx).1, (hInv.crossOrd x hx).2⟩
  · rw [hl0, List.chain'_append]
    refine ⟨hInv.baseChain, List.chain'_singleton _, ?_⟩
    intro x hx y hy hemp
    simp only [List.head?] at hy
    injection hy with hy
    subst hy
    rw [hes] at hemp
    exact hedge hemp x hx
  · intro t1 ht1
    rw [hInv.segsEq, List.getLast?_concat] at ht1
    injection ht1 with ht1
    subst ht1
    refine ⟨⟨hbe, by rw [hInv.tEpos, hes]⟩, ?_⟩
    rw [hlast, hes]
  · intro hle h hh
    refine hInv.headNe (by omega) h ?_
    rw [hl0] at hh
    rw [show ({ t with fdata := t.ebuf } : segment) = t from seg_eta_mat hbe]
    exact hh

/-- Flushing the tail buffer to its file preserves the loop invariant and
completes the mark. -/
theorem MidInv.flush {l : Log} {base : List segment} {t : segment} {tes : List (List Nat)}
    {mark : Nat} (h : MidInv l base t tes mark) (x : Int) :
    MidInv ({ l with
        segments := base ++ [{ t with fdata := t.ebuf }]
        lastOffset := x } : Log)
      base ({ t with fdata := t.ebuf }) tes (frames tes).length := by
  refine ⟨rfl, h.notClosed, h.notCorrupt, h.capPos, h.baseLive, h.baseClean, h.baseNonneg,
    h.baseOrd, h.baseChain, h.shape, h.tDisk, h.tEbuf, h.tEpos, ?_, le_refl _, h.tNonneg,
    h.crossOrd, ?_, ?_, ?_, h.cacheNodup⟩
  · show t.ebuf = (frames tes).take (frames tes).length
    rw [List.take_length]
    exact h.tEbuf
  · intro h1 hh
    show l.firstOffset = h1.offset
    have hl1 : liveOf ({ l with
        segments := base ++ [({ t with fdata := t.ebuf } : segment)]
        lastOffset := x } : Log) = base.filter (fun s => s.onDisk) ++
          [({ t with fdata := t.ebuf } : segment)] := by
      unfold liveOf
      rw [show ({ l with
        segments := base ++ [({ t with fdata := t.ebuf } : segment)]
        lastOffset := x } : Log).segments =
          base ++ [({ t with fdata := t.ebuf } : segment)] from rfl]
      rw [List.filter_append]
      have hd : ({ t with fdata := t.ebuf } : segment).onDisk = true := h.tDisk
      simp [hd, h.tDisk]
    have hl0 : liveOf l = base.filter (fun s => s.onDisk) ++ [t] := by
      unfold liveOf
      rw [h.segsEq, List.filter_append]
      simp [h.tDisk]
    rw [hl1] at hh
    cases hfb : base.filter (fun s => s.onDisk) with
    | nil =>
      rw [hfb] at hh
      simp only [List.nil_append, List.head?] at hh
      injection hh with hh
      subst hh
      exact h.firstEq t (by rw [hl0, hfb]; rfl)
    | cons p ps =>
      rw [hfb] at hh
      simp only [List.cons_append, List.head?] at hh
      injection hh with hh
      subst hh
      exact h.firstEq p (by rw [hl0, hfb]; rfl)
  · intro hle h1 hh
    exact h.headNe hle h1 hh
  · intro i hi
    have := h.cacheBound i hi
    rw [h.segsEq] at this
    simpa using this

theorem mkEntries_getLast (ds : List (List Nat)) :
    ∀ o0 : Int, ds ≠ [] → ∃ e, (mkEntries o0 ds).getLast? = some e ∧
      e.offset = o0 + ds.length - 1 := by
  induction ds with
  | nil => intro o0 h; exact absurd rfl h
  | cons d rest ih =>
    intro o0 _
    cases rest with
    | nil =>
      refine ⟨⟨o0, d.length⟩, rfl, by simp⟩
    | cons r0 rs =>
      obtain ⟨e, he, hoff⟩ := ih (o0 + 1) (List.cons_ne_nil r0 rs)
      refine ⟨e, ?_, ?_⟩
      · rw [show mkEntries o0 (d :: r0 :: rs) =
          ⟨o0, d.length⟩ :: mkEntries (o0 + 1) (r0 :: rs) from rfl]
        rw [show mkEntries (o0 + 1) (r0 :: rs) =
          ⟨o0 + 1, r0.length⟩ :: mkEntries (o0 + 1 + 1) rs from rfl] at he ⊢
        rw [List.getLast?_cons_cons]
        exact he
      · rw [hoff]
        simp only [List.length_cons]
        push_cast
        ring

/-- The loop-and-flush phase of `writeBatch` from any loop-entry state. -/
theorem writeBatchFinish_char {l1 : Log} {base : List segment} {t : segment}
    {tes : List (List Nat)} (hmid : MidInv l1 base t tes t.ebuf.length)
    (ds : List (List Nat)) (hds : ds ≠ []) :
    ∃ l2, writeBatchFinish l1 (mkBatch (t.offset + (tes.length : Int)) ds) = .ok l2 ∧
      WF l2 ∧
      l2.opts = l1.opts ∧ l2.closed = l1.closed ∧ l2.corrupt = l1.corrupt ∧
      l2.firstOffset = l1.firstOffset ∧
      l2.lastOffset = t.offset + (tes.length : Int) + ds.length - 1 ∧
      (∀ b0, base.head? = some b0 →
        ∃ b1, l2.segments.head? = some b1 ∧ cacheStep b0 b1) ∧
      (∀ i : Nat, i < ds.length →
        entriesAt l2.segments (t.offset + (tes.length : Int) + i) = ds.get? i) ∧
      (∀ off : Int, off < t.offset + (tes.length : Int) →
        entriesAt l2.segments off = entriesAt (completeSegs l1.segments) off) ∧
      (∀ off : Int, t.offset + (tes.length : Int) + ds.length ≤ off →
        entriesAt l2.segments off = none) := by
  obtain ⟨l2, mark2, base2, news, t2, tes2, heq, hmid2, hsegs2, hF2, hnews, hopts2, hcl2,
    hco2, hfo2, hoff2, hlast2, _, hedgeO2, hbatch2, hunch2⟩ :=
    writeLoop_strong ds l1 t.ebuf.length base t tes hmid
      (fun hdsnil => absurd hdsnil hds)
  rw [writeBatchFinish]
  rw [hmid.segsEq, List.getLast?_concat]
  dsimp only
  rw [show (mkBatch (t.offset + (tes.length : Int)) ds).entries =
    mkEntries (t.offset + (tes.length : Int)) ds from rfl]
  rw [show (mkBatch (t.offset + (tes.length : Int)) ds).datas = ds.flatten from rfl]
  rw [← hmid.segsEq, heq]
  dsimp only
  rw [hsegs2, List.getLast?_concat]
  obtain ⟨eL, heL, hoffL⟩ := mkEntries_getLast ds (t.offset + (tes.length : Int)) hds
  rw [heL]
  dsimp only
  have hheadcon : ∀ (tl : segment) (b0 : segment), base.head? = some b0 →
      ∃ b1, ((base2 ++ news) ++ [tl]).head? = some b1 ∧ cacheStep b0 b1 := by
    intro tl b0 hb0
    rcases base with _ | ⟨x, xs⟩
    · cases hb0
    · cases hF2 with
      | cons hstep hrest =>
        rename_i b1 bs1
        injection hb0 with hb0
        subst hb0
        exact ⟨b1, rfl, hstep⟩
  by_cases hfull : mark2 = (frames tes2).length
  · have hcond : ¬ (0 < t2.ebuf.length - mark2) := by
      rw [hmid2.tEbuf]
      omega
    rw [if_neg hcond]
    have hebfd : t2.ebuf = t2.fdata := by
      rw [hmid2.tEbuf, hmid2.tFdata, hfull, List.take_length]
    have htC : ({ t2 with fdata := t2.ebuf } : segment) = t2 := seg_eta_mat hebfd
    have hCS : completeSegs l2.segments = l2.segments := by
      rw [hsegs2, completeSegs_snoc, htC, ← hsegs2]
    have hL := hlast2 hds hfull
    rw [hfull] at hmid2
    refine ⟨l2, rfl, ?_, hopts2, hcl2, hco2, hfo2, hL, ?_, ?_, ?_, ?_⟩
    · refine hmid2.toWF ?_ hedgeO2
      rw [hL]
      omega
    · intro b0 hb0
      rw [hsegs2]
      exact hheadcon t2 b0 hb0
    · intro i hi
      rw [← hCS]
      exact hbatch2 i hi
    · intro off hoff
      rw [← hCS]
      exact hunch2 off hoff
    · intro off hoff
      rw [← hCS]
      refine hmid2.beyond off ?_
      omega
  · have hlt : mark2 < (frames tes2).length := lt_of_le_of_ne hmid2.tMark hfull
    have hcond : 0 < t2.ebuf.length - mark2 := by
      rw [hmid2.tEbuf]
      omega
    rw [if_pos hcond]
    rw [List.dropLast_concat]
    have hs3 : ({ t2 with fdata := t2.fdata ++ t2.ebuf.drop mark2 } : segment) =
        { t2 with fdata := t2.ebuf } := by
      have hval : t2.fdata ++ t2.ebuf.drop mark2 = t2.ebuf := by
        rw [hmid2.tFdata, hmid2.tEbuf, List.take_append_drop]
      exact congrArg (fun z => { t2 with fdata := z }) hval
    rw [hs3]
    have hCS : completeSegs l2.segments = (base2 ++ news) ++
        [({ t2 with fdata := t2.ebuf } : segment)] := by
      rw [hsegs2, completeSegs_snoc]
    have hmidF := hmid2.flush eL.offset
    refine ⟨_, rfl, ?_, hopts2, hcl2, hco2, hfo2, ?_, ?_, ?_, ?_, ?_⟩
    · refine hmidF.toWF ?_ ?_
      · show eL.offset = t2.offset + (tes2.length : Int) - 1
        rw [hoffL]
        omega
      · intro hte p hp
        exact hedgeO2 hte p hp
    · show eL.offset = _
      rw [hoffL]
    · intro b0 hb0
      exact hheadcon ({ t2 with fdata := t2.ebuf } : segment) b0 hb0
    · intro i hi
      show entriesAt ((base2 ++ news) ++ [({ t2 with fdata := t2.ebuf } : segment)]) _ = _
      rw [← hCS]
      exact hbatch2 i hi
    · intro off hoff
      show entriesAt ((base2 ++ news) ++ [({ t2 with fdata := t2.ebuf } : segment)]) _ = _
      rw [← hCS]
      exact hunch2 off hoff
    · intro off hoff
      show entriesAt ((base2 ++ news) ++ [({ t2 with fdata := t2.ebuf } : segment)]) _ = none
      rw [← hCS]
      refine hmid2.beyond off ?_
      omega

theorem frames_eq_nil {es : List (List Nat)} (h : frames es = []) : es = [] := by
  cases es with
  | nil => rfl
  | cons e r =>
    rw [frames_cons] at h
    exact absurd (List.append_eq_nil.mp h).1 (frameOf_ne_nil e)

theorem entriesAt_single_nil (s : segment) (h : s.fdata = []) (off : Int) :
    entriesAt [s] off = none := by
  unfold entriesAt
  by_cases hso : s.offset ≤ off
  · rw [show List.takeWhile (fun x => decide (x.offset ≤ off)) [s] = [s] from by
      simp [List.takeWhile, hso]]
    show segLookup s off = none
    unfold segLookup
    rw [h, decEntries_nil]
    simp
  · rw [show List.takeWhile (fun x => decide (x.offset ≤ off)) [s] = [] from by
      simp [List.takeWhile, hso]]
    rfl

/-- `writeBatch` on a well-formed log, for a batch of consecutive offsets
starting at or past `lastOffset + 1`: it succeeds, preserves well-formedness,
extends the log by exactly the batch, and leaves all earlier entries
unchanged. -/
theorem writeBatch_char {l : Log} (hWF : WF l)
    (hz : l.lastOffset < l.firstOffset → l.firstOffset = 0)
    (o0 : Int) (ds : List (List Nat)) (hds : ds ≠ [])
    (ho0 : l.lastOffset + 1 ≤ o0) (hpos : 0 ≤ o0) :
    ∃ l2, writeBatch l (mkBatch o0 ds) = .ok l2 ∧ WF l2 ∧
      l2.opts = l.opts ∧ l2.closed = false ∧ l2.corrupt = false ∧
      l2.lastOffset = o0 + ds.length - 1 ∧
      (l.firstOffset ≤ l.lastOffset → l2.firstOffset = l.firstOffset) ∧
      (l.lastOffset < l.firstOffset → l2.firstOffset = o0) ∧
      (l.lastOffset < l.firstOffset → 0 < o0 → l2.segments.head? = some staleSeg) ∧
      (∀ i : Nat, i < ds.length → entriesAt l2.segments (o0 + i) = ds.get? i) ∧
      (∀ off : Int, off < o0 → entriesAt l2.segments off = entriesAt l.segments off) ∧
      (∀ off : Int, o0 + ds.length ≤ off → entriesAt l2.segments off = none) := by
  obtain ⟨base, t, hsegs, hfd, hlastEq, hmid0, hedge0⟩ := hWF.toMid
  have hbe : t.ebuf = t.fdata := hmid0.tEbuf.trans hfd.symm
  have hCSl : completeSegs l.segments = l.segments := by
    rw [hsegs, completeSegs_snoc, seg_eta_mat hbe, ← hsegs]
  have hlive0 : liveOf l = base.filter (fun s => s.onDisk) ++ [t] := by
    unfold liveOf
    rw [hsegs, List.filter_append]
    simp [hmid0.tDisk]
  rcases ds with _ | ⟨d0, drest⟩
  · exact absurd rfl hds
  rw [writeBatch]
  rw [show (mkBatch o0 (d0 :: drest)).entries.head? = some ⟨o0, d0.length⟩ from rfl]
  dsimp only
  rw [hsegs, List.getLast?_concat]
  dsimp only
  by_cases hjump : l.lastOffset + 1 < o0 ∨ l.opts.SegmentSize < t.ebuf.length
  · have hbc : (l.lastOffset + 1 < o0 || l.opts.SegmentSize < t.ebuf.length) = true := by
      simp only [Bool.or_eq_true, decide_eq_true_eq]
      exact hjump
    rw [if_pos hbc]
    by_cases hstale : (t.offset == 0 && t.ebuf.isEmpty) = true
    · -- the tail is the initial empty segment: its file is deleted
      have hstale2 := hstale
      simp only [Bool.and_eq_true] at hstale2
      have hto : t.offset = 0 := eq_of_beq hstale2.1
      have hteb : t.ebuf = [] := List.isEmpty_iff.mp hstale2.2
      have htes : segEs t = [] := frames_eq_nil (hmid0.tEbuf.symm.trans hteb)
      have hfdnil : t.fdata = [] := by
        rw [hfd, htes]
        rfl
      have hepnil : t.epos = [] := by
        rw [hmid0.tEpos, htes]
        rfl
      have hl1 : l.lastOffset = -1 := by
        rw [hlastEq, htes, hto]
        simp
      have hbase : base = [] := by
        rcases base with _ | ⟨b0, bs⟩
        · rfl
        · exfalso
          have h1 := (hmid0.crossOrd b0 (List.mem_cons_self _ _)).1
          have h2 := hmid0.baseNonneg b0 (List.mem_cons_self _ _)
          rw [hto] at h1
          omega
      have ht : t = ⟨0, true, [], [], []⟩ := by
        rcases t with ⟨a1, a2, a3, a4, a5⟩
        have ha1 : a1 = 0 := hto
        have ha2 : a2 = true := hmid0.tDisk
        have ha3 : a3 = [] := hfdnil
        have ha4 : a4 = [] := hteb
        have ha5 : a5 = [] := hepnil
        subst ha1
        subst ha2
        subst ha3
        subst ha4
        subst ha5
        rfl
      have hsegs1 : l.segments = [(⟨0, true, [], [], []⟩ : segment)] := by
        rw [hsegs, hbase, ht]
        rfl
      rw [cycle_stale_char l o0 hsegs1]
      dsimp only
      have ho0pos : 0 < o0 := by
        rcases hjump with hj | hov
        · omega
        · rw [hteb] at hov
          simp at hov
      have hmidS : MidInv ({ l with
          firstOffset := o0
          segments := [staleSeg, ⟨o0, true, [], [], []⟩] } : Log)
          [staleSeg] (⟨o0, true, [], [], []⟩ : segment) []
          ((⟨o0, true, [], [], []⟩ : segment).ebuf.length) := by
        refine ⟨rfl, hWF.notClosed, hWF.notCorrupt, hWF.capPos, ?_, ?_, ?_,
          List.pairwise_singleton _ _, ?_, Or.inr ⟨[], rfl, rfl⟩, rfl, rfl, rfl, rfl,
          le_refl _, hpos, ?_, ?_, ?_, ?_, hWF.cacheNodup⟩
        · intro s hs hd
          rw [List.mem_singleton] at hs
          subst hs
          simp [staleSeg] at hd
        · intro s hs _
          rw [List.mem_singleton] at hs
          subst hs
          exact ⟨rfl, rfl⟩
        · intro s hs
          rw [List.mem_singleton] at hs
          subst hs
          exact le_refl 0
        · rw [show List.filter (fun s => s.onDisk) [staleSeg] = [] from by simp [staleSeg]]
          exact List.chain'_nil
        · intro s hs
          rw [List.mem_singleton] at hs
          subst hs
          constructor
          · show (0 : Int) < o0
            omega
          · rw [show segEs staleSeg = [] from segEs_frames rfl]
            show (0 : Int) + ((0 : Nat) : Int) ≤ o0
            simp
            omega
        · intro h hh
          rw [show liveOf ({ l with
              firstOffset := o0
              segments := [staleSeg, ⟨o0, true, [], [], []⟩] } : Log) =
            [(⟨o0, true, [], [], []⟩ : segment)] from by
              unfold liveOf
              simp [staleSeg]] at hh
          simp only [List.head?] at hh
          injection hh with hh
          subst hh
          rfl
        · intro hle h hh
          exfalso
          show False
          have : o0 + 1 ≤ o0 + ((0 : Nat) : Int) := hle
          simp at this
        · intro i hi
          have := hWF.cacheBound i hi
          rw [hsegs1] at this
          simp only [List.length_singleton] at this
          simp only [List.length_cons, List.length_singleton]
          omega
      obtain ⟨l2, heq2, hWF2, hopts2, hcl2, hco2, hfo2, hlast2, hhead2, hbatch2, hunch2,
        hbeyond2⟩ := writeBatchFinish_char hmidS (d0 :: drest) (List.cons_ne_nil d0 drest)
      have hooff : (⟨o0, true, [], [], []⟩ : segment).offset +
          ((([] : List (List Nat)).length : Nat) : Int) = o0 := by
        show o0 + ((0 : Nat) : Int) = o0
        simp
      rw [hooff] at heq2 hlast2 hbatch2 hunch2 hbeyond2
      have hfirst0 : l.firstOffset = 0 := by
        rw [← hto]
        refine hWF.firstEq t ?_
        rw [hlive0, hbase]
        rw [show List.filter (fun s => s.onDisk) [] = ([] : List segment) from rfl]
        rw [ht]
        rfl
      refine ⟨l2, heq2, hWF2, hopts2, hcl2.trans hWF.notClosed, hco2.trans hWF.notCorrupt,
        hlast2, ?_, ?_, ?_, hbatch2, ?_, hbeyond2⟩
      · intro hle
        exfalso
        rw [hfirst0, hl1] at hle
        omega
      · intro _
        exact hfo2
      · intro _ _
        obtain ⟨b1, hb1, hstep⟩ := hhead2 staleSeg rfl
        rw [cacheStep_stale hstep] at hb1
        exact hb1
      · intro off hoff
        rw [hunch2 off hoff]
        rw [show completeSegs ({ l with
            firstOffset := o0
            segments := [staleSeg, ⟨o0, true, [], [], []⟩] } : Log).segments =
          [staleSeg] ++ [(⟨o0, true, [], [], []⟩ : segment)] from by
            rw [show ({ l with
              firstOffset := o0
              segments := [staleSeg, ⟨o0, true, [], [], []⟩] } : Log).segments =
                [staleSeg] ++ [(⟨o0, true, [], [], []⟩ : segment)] from rfl]
            rw [completeSegs_snoc]]
        rw [entriesAt_snoc_lt _ _ _ (show off < o0 from hoff)]
        rw [entriesAt_single_nil staleSeg rfl off]
        rw [hbase]
        rw [show ([] : List segment) ++ [t] = [t] from rfl]
        rw [entriesAt_single_nil t hfdnil off]
    · have hcond : (t.offset == 0 && t.ebuf.isEmpty) = false :=
        Bool.eq_false_iff.mpr hstale
      obtain ⟨l3, B1, hcyc, hl3segs, hFB1, hopts3, hcl3, hco3, hfo3, hlo3, hsub3, hnd3⟩ :=
        cycle_push_char l o0 base t hsegs hcond hWF.capPos hWF.cacheNodup hWF.offDisk_clean
      rw [hcyc]
      dsimp only
      have hFfilt : List.Forall₂ cacheStep (base.filter (fun s => s.onDisk))
          (B1.filter (fun s => s.onDisk)) := forall₂_filter_onDisk hFB1
      have hB1len : B1.length = base.length := (List.Forall₂.length_eq hFB1).symm
      have hto_le : t.offset + ((segEs t).length : Int) ≤ o0 := by omega
      have hto_lt : t.offset < o0 := by
        rcases hes : segEs t with _ | ⟨e1, er⟩
        · have hteb : t.ebuf = [] := by
            rw [hmid0.tEbuf, hes]
            rfl
          rcases hjump with hj | hov
          · rw [hlastEq, hes] at hj
            simpa using hj
          · rw [hteb] at hov
            simp at hov
        · have : 1 ≤ ((segEs t).length : Int) := by
            rw [hes]
            simp
          omega
      have hnotempty : ¬ (l.lastOffset < l.firstOffset) := by
        intro hemp
        cases hfb : base.filter (fun s => s.onDisk) with
        | nil =>
          have hfirst : l.firstOffset = t.offset := by
            refine hWF.firstEq t ?_
            rw [hlive0, hfb]
            rfl
          have hz0 := hz hemp
          rw [hfirst] at hz0
          have htes : segEs t = [] := by
            rcases hes : segEs t with _ | ⟨e1, er⟩
            · rfl
            · exfalso
              have : 1 ≤ ((segEs t).length : Int) := by
                rw [hes]
                simp
              rw [hfirst] at hemp
              omega
          have hteb : t.ebuf = [] := by
            rw [hmid0.tEbuf, htes]
            rfl
          have : (t.offset == 0 && t.ebuf.isEmpty) = true := by
            rw [hz0, hteb]
            rfl
          exact hstale this
        | cons p ps =>
          have hpmem : p ∈ base := by
            have hpf : p ∈ base.filter (fun s => s.onDisk) := by
              rw [hfb]
              exact List.mem_cons_self _ _
            exact List.mem_of_mem_filter hpf
          have hfirst : l.firstOffset = p.offset := by
            refine hWF.firstEq p ?_
            rw [hlive0, hfb]
            rfl
          have hplt := (hmid0.crossOrd p hpmem).1
          omega
      have hmidP : MidInv l3 (B1 ++ [t]) (⟨o0, true, [], [], []⟩ : segment) []
          ((⟨o0, true, [], [], []⟩ : segment).ebuf.length) := by
        refine ⟨hl3segs, hcl3.trans hWF.notClosed, hco3.trans hWF.notCorrupt, ?_, ?_, ?_,
          ?_, ?_, ?_, ?_, rfl, rfl, rfl, rfl, le_refl _, hpos, ?_, ?_, ?_, ?_, hnd3⟩
        · rw [hopts3]
          exact hWF.capPos
        · intro s hs hd
          rcases List.mem_append.mp hs with hsm | hsm
          · obtain ⟨s0, hs0, hstep⟩ := forall₂_mem_right hFB1 hsm
            exact cacheStep_segLive hstep
              (hmid0.baseLive s0 hs0 (by rw [← cacheStep_onDisk hstep]; exact hd))
          · rw [List.mem_singleton] at hsm
            rw [hsm]
            exact ⟨hmid0.tDisk, ⟨segEs t, hfd⟩, Or.inr ⟨hbe, by rw [hmid0.tEpos]⟩⟩
        · intro s hs hd
          rcases List.mem_append.mp hs with hsm | hsm
          · obtain ⟨s0, hs0, hstep⟩ := forall₂_mem_right hFB1 hsm
            exact cacheStep_clean hstep (hmid0.baseClean s0 hs0) hd
          · rw [List.mem_singleton] at hsm
            rw [hsm, hmid0.tDisk] at hd
            cases hd
        · intro s hs
          rcases List.mem_append.mp hs with hsm | hsm
          · obtain ⟨s0, hs0, hstep⟩ := forall₂_mem_right hFB1 hsm
            rw [cacheStep_offset hstep]
            exact hmid0.baseNonneg s0 hs0
          · rw [List.mem_singleton] at hsm
            rw [hsm]
            exact hmid0.tNonneg
        · refine pairwise_transfer (forall₂_append_seg hFB1 (forall₂_cacheStep_refl _)) ?_ ?_
          · intro a b a1 b1 ha hb hab
            unfold segOrder at hab ⊢
            rw [cacheStep_offset ha, cacheStep_offset hb, cacheStep_segEs ha]
            exact hab
          · rw [← hsegs]
            exact hWF.ordered
        · refine chain'_transfer
            (forall₂_filter_onDisk (forall₂_append_seg hFB1 (forall₂_cacheStep_refl [t]))) ?_ ?_
          · intro a b a1 b1 ha hb hab
            rw [cacheStep_offset ha, cacheStep_offset hb, cacheStep_segEs ha,
              cacheStep_segEs hb]
            exact hab
          · have := hWF.adjEmpty
            unfold liveOf at this
            rw [hsegs] at this
            exact this
        · rcases hmid0.shape with hfb | ⟨b2, hb, hfb2⟩
          · left
            rw [List.filter_append]
            have hallB1 : ∀ s ∈ B1, s.onDisk = true := by
              intro s hsm
              obtain ⟨s0, hs0, hstep⟩ := forall₂_mem_right hFB1 hsm
              rw [cacheStep_onDisk hstep]
              have := List.filter_eq_self.mp hfb s0 hs0
              simpa using this
            rw [List.filter_eq_self.mpr (by intro a ha; simpa using hallB1 a ha)]
            simp [hmid0.tDisk]
          · subst hb
            cases hFB1 with
            | cons h0 hrest =>
              rename_i s1h B1t
              have hs1h : s1h = staleSeg := cacheStep_stale h0
              subst hs1h
              right
              refine ⟨B1t ++ [t], by rw [List.cons_append], ?_⟩
              rw [List.filter_append]
              have hallB1t : ∀ s ∈ B1t, s.onDisk = true := by
                intro s hsm
                obtain ⟨s0, hs0, hstep⟩ := forall₂_mem_right hrest hsm
                rw [cacheStep_onDisk hstep]
                have := List.filter_eq_self.mp hfb2 s0 hs0
                simpa using this
              rw [List.filter_eq_self.mpr (by intro a ha; simpa using hallB1t a ha)]
              simp [hmid0.tDisk]
        · intro s hs
          rcases List.mem_append.mp hs with hsm | hsm
          · obtain ⟨s0, hs0, hstep⟩ := forall₂_mem_right hFB1 hsm
            have h1 := (hmid0.crossOrd s0 hs0).1
            have h2 := (hmid0.crossOrd s0 hs0).2
            rw [cacheStep_offset hstep, cacheStep_segEs hstep]
            constructor
            · show s0.offset < o0
              omega
            · show s0.offset + ((segEs s0).length : Int) ≤ o0
              omega
          · rw [List.mem_singleton] at hsm
            rw [hsm]
            exact ⟨hto_lt, hto_le⟩
        · intro h hh
          have hlive3 : liveOf l3 = B1.filter (fun s => s.onDisk) ++
              ([t] ++ [(⟨o0, true, [], [], []⟩ : segment)]) := by
            unfold liveOf
            rw [hl3segs, List.filter_append, List.filter_append]
            simp [hmid0.tDisk]
          rw [hlive3] at hh
          have hfo : l3.firstOffset = l.firstOffset := hfo3
          cases hfb1 : B1.filter (fun s => s.onDisk) with
          | nil =>
            rw [hfb1] at hh
            simp only [List.nil_append, List.cons_append, List.head?] at hh
            injection hh with hh
            subst hh
            have hfbase : base.filter (fun s => s.onDisk) = [] := by
              rw [hfb1] at hFfilt
              have hlen0 := List.Forall₂.length_eq hFfilt
              rw [List.length_nil] at hlen0
              exact List.length_eq_zero.mp hlen0
            refine hfo.trans (hWF.firstEq t ?_)
            rw [hlive0, hfbase]
            rfl
          | cons p1 ps1 =>
            rw [hfb1] at hh
            simp only [List.cons_append, List.head?] at hh
            injection hh with hh
            subst hh
            rw [hfb1] at hFfilt
            rcases hfbc : base.filter (fun s => s.onDisk) with _ | ⟨p, ps⟩
            · rw [hfbc] at hFfilt
              cases hFfilt
            · rw [hfbc] at hFfilt
              cases hFfilt with
              | cons hstep0 _ =>
                rw [cacheStep_offset hstep0]
                refine hfo.trans (hWF.firstEq p ?_)
                rw [hlive0, hfbc]
                rfl
        · intro hle h hh
          rw [List.filter_append] at hh
          rw [show List.filter (fun s => s.onDisk) [t] = [t] from by simp [hmid0.tDisk]] at hh
          cases hfb1 : B1.filter (fun s => s.onDisk) with
          | nil =>
            rw [hfb1] at hh
            simp only [List.nil_append, List.cons_append, List.head?] at hh
            injection hh with hh
            subst hh
            have hfbase : base.filter (fun s => s.onDisk) = [] := by
              rw [hfb1] at hFfilt
              have hlen0 := List.Forall₂.length_eq hFfilt
              rw [List.length_nil] at hlen0
              exact List.length_eq_zero.mp hlen0
            have hfirst : l.firstOffset = t.offset := by
              refine hWF.firstEq t ?_
              rw [hlive0, hfbase]
              rfl
            intro htes
            have hteb : t.ebuf = [] := by
              rw [hmid0.tEbuf, htes]
              rfl
            have hlaste : l.lastOffset = t.offset - 1 := by
              rw [hlastEq, htes]
              simp
            have hemp : l.lastOffset < l.firstOffset := by
              rw [hfirst, hlaste]
              omega
            exact hnotempty hemp
          | cons p1 ps1 =>
            rw [hfb1] at hh
            simp only [List.cons_append, List.head?] at hh
            injection hh with hh
            subst hh
            rw [hfb1] at hFfilt
            rcases hfbc : base.filter (fun s => s.onDisk) with _ | ⟨p, ps⟩
            · rw [hfbc] at hFfilt
              cases hFfilt
            · rw [hfbc] at hFfilt
              cases hFfilt with
              | cons hstep0 _ =>
                have hpmem : p ∈ base := by
                  have hpf : p ∈ base.filter (fun s => s.onDisk) := by
                    rw [hfbc]
                    exact List.mem_cons_self _ _
                  exact List.mem_of_mem_filter hpf
                have hplt := (hmid0.crossOrd p hpmem).1
                have hfirst : l.firstOffset = p.offset := by
                  refine hWF.firstEq p ?_
                  rw [hlive0, hfbc]
                  rfl
                have hfl : l.firstOffset ≤ l.lastOffset := by omega
                rw [cacheStep_segEs hstep0]
                refine hWF.headNonempty hfl p ?_
                rw [hlive0, hfbc]
                rfl
        · intro i hi
          rcases hsub3 i hi with rfl | him
          · rw [hl3segs]
            simp only [List.length_append, List.length_singleton]
            omega
          · have := hWF.cacheBound i him
            rw [hsegs] at this
            rw [hl3segs]
            simp only [List.length_append, List.length_singleton] at this ⊢
            omega
      obtain ⟨l2, heq2, hWF2, hopts2, hcl2, hco2, hfo2, hlast2, hhead2, hbatch2, hunch2,
        hbeyond2⟩ := writeBatchFinish_char hmidP (d0 :: drest) (List.cons_ne_nil d0 drest)
      have hooff : (⟨o0, true, [], [], []⟩ : segment).offset +
          ((([] : List (List Nat)).length : Nat) : Int) = o0 := by
        show o0 + ((0 : Nat) : Int) = o0
        simp
      rw [hooff] at heq2 hlast2 hbatch2 hunch2 hbeyond2
      refine ⟨l2, heq2, hWF2, hopts2.trans hopts3, hcl2.trans (hcl3.trans hWF.notClosed),
        hco2.trans (hco3.trans hWF.notCorrupt), hlast2, ?_, ?_, ?_, hbatch2, ?_, hbeyond2⟩
      · intro _
        exact hfo2.trans hfo3
      · intro hemp
        exact absurd hemp hnotempty
      · intro hemp _
        exact absurd hemp hnotempty
      · intro off hoff
        rw [hunch2 off hoff]
        have hCS3 : completeSegs l3.segments = (B1 ++ [t]) ++
            [(⟨o0, true, [], [], []⟩ : segment)] := by
          rw [hl3segs, completeSegs_snoc]
        rw [hCS3]
        rw [entriesAt_snoc_lt _ _ _ (show off < o0 from hoff)]
        exact entriesAt_forall₂ (forall₂_append_seg hFB1 (forall₂_cacheStep_refl [t])) off
  · have hbc : ¬ ((l.lastOffset + 1 < o0 || l.opts.SegmentSize < t.ebuf.length) = true) := by
      simp only [Bool.or_eq_true, decide_eq_true_eq]
      exact hjump
    rw [if_neg hbc]
    push_neg at hjump
    have ho0e : o0 = t.offset + ((segEs t).length : Int) := by omega
    have hmid0' : MidInv l base t (segEs t) t.ebuf.length := by
      rw [show t.ebuf.length = (frames (segEs t)).length from by rw [hmid0.tEbuf]]
      exact hmid0
    obtain ⟨l2, heq2, hWF2, hopts2, hcl2, hco2, hfo2, hlast2, hhead2, hbatch2, hunch2,
      hbeyond2⟩ := writeBatchFinish_char hmid0' (d0 :: drest) (List.cons_ne_nil d0 drest)
    rw [← ho0e] at heq2 hlast2 hbatch2 hunch2 hbeyond2
    refine ⟨l2, heq2, hWF2, hopts2, hcl2.trans hWF.notClosed, hco2.trans hWF.notCorrupt,
      hlast2, fun _ => hfo2, ?_, ?_, hbatch2, ?_, hbeyond2⟩
    · intro hemp
      rw [hfo2, hz hemp]
      have := hz hemp
      omega
    · intro hemp hopos
      have := hz hemp
      omega
    · intro off hoff
      rw [hunch2 off hoff, hCSl, hsegs]

/-! ## Pointwise list facts for the truncation paths -/

theorem forall₂_get? {R : segment → segment → Prop} {A B : List segment}
    (h : List.Forall₂ R A B) {i : Nat} {a b : segment}
    (ha : A.get? i = some a) (hb : B.get? i = some b) : R a b := by
  rw [List.forall₂_iff_get] at h
  have hi : i < A.length := by
    by_contra hc
    rw [List.get?_eq_none.mpr (by omega)] at ha
    cases ha
  have hi2 : i < B.length := by omega
  have := h.2 i hi hi2
  rw [List.get?_eq_get hi] at ha
  rw [List.get?_eq_get hi2] at hb
  injection ha with ha
  injection hb with hb
  rw [← ha, ← hb]
  exact this

theorem forall₂_of_get? {R : segment → segment → Prop} {A B : List segment}
    (hlen : A.length = B.length)
    (h : ∀ i a b, A.get? i = some a → B.get? i = some b → R a b) :
    List.Forall₂ R A B := by
  rw [List.forall₂_iff_get]
  refine ⟨hlen, fun i h1 h2 => ?_⟩
  exact h i _ _ (List.get?_eq_get h1) (List.get?_eq_get h2)

theorem pairwise_rel_get? {R : segment → segment → Prop} {L : List segment}
    (h : L.Pairwise R) {i j : Nat} (hij : i < j) {a b : segment}
    (ha : L.get? i = some a) (hb : L.get? j = some b) : R a b := by
  rw [List.pairwise_iff_get] at h
  have hj : j < L.length := by
    by_contra hc
    rw [List.get?_eq_none.mpr (by omega)] at hb
    cases hb
  have hi : i < L.length := by omega
  have := h ⟨i, hi⟩ ⟨j, hj⟩ hij
  rw [List.get?_eq_get hi] at ha
  rw [List.get?_eq_get hj] at hb
  injection ha with ha
  injection hb with hb
  rw [← ha, ← hb]
  exact this

theorem chain'_rel_get? {R : segment → segment → Prop} {L : List segment}
    (h : L.Chain' R) {i : Nat} {a b : segment}
    (ha : L.get? i = some a) (hb : L.get? (i + 1) = some b) : R a b := by
  rw [List.chain'_iff_get] at h
  have hj : i + 1 < L.length := by
    by_contra hc
    rw [List.get?_eq_none.mpr (by omega)] at hb
    cases hb
  have := h i (by omega)
  rw [List.get?_eq_get (by omega : i < L.length)] at ha
  rw [List.get?_eq_get hj] at hb
  injection ha with ha
  injection hb with hb
  rw [← ha, ← hb]
  exact this

theorem pushCache_mem (l : Log) (i : Nat) (hcap : 1 ≤ l.opts.SegmentCacheSize) :
    i ∈ (pushCache l i).scache := by
  unfold pushCache
  by_cases hc : l.scache.contains i
  · rw [if_pos hc]
    exact List.mem_cons_self _ _
  · rw [if_neg hc]
    by_cases hover : l.opts.SegmentCacheSize < (i :: l.scache).length
    · rw [if_pos hover]
      have hlen2 : 2 ≤ (i :: l.scache).length := by
        simp only [List.length_cons] at hover ⊢
        omega
      cases hgl : (i :: l.scache).getLast? with
      | none => simp at hgl
      | some ev =>
        dsimp only
        have hdl : (i :: l.scache).dropLast = i :: l.scache.dropLast := by
          cases hsc : l.scache with
          | nil => exact absurd hlen2 (by rw [hsc]; simp)
          | cons c0 cr => rfl
        rw [hdl]
        exact List.mem_cons_self _ _
    · rw [if_neg hover]
      exact List.mem_cons_self _ _

theorem demat_demat (s : segment) :
    ({ ({ s with ebuf := [], epos := [] } : segment) with ebuf := [], epos := [] } : segment) =
      { s with ebuf := [], epos := [] } := rfl

theorem foldl_dropSegCache_notmem (idxs : List Nat) :
    ∀ (l : Log) (k : Nat), (∀ j ∈ idxs, j ≠ k) →
      ((idxs.foldl (fun acc i => dropSegCache acc i) l).segments.get? k =
        l.segments.get? k) := by
  induction idxs with
  | nil => intro l k _; rfl
  | cons i rest ih =>
    intro l k hk
    rw [List.foldl_cons]
    rw [ih (dropSegCache l i) k fun j hj => hk j (List.mem_cons_of_mem _ hj)]
    unfold dropSegCache
    cases hg : l.segments.get? i with
    | none => rfl
    | some s =>
      dsimp only
      unfold setSeg
      dsimp only
      exact List.get?_set_ne _ _ (hk i (List.mem_cons_self _ _))

theorem foldl_dropSegCache_mem (idxs : List Nat) :
    ∀ (l : Log) (k : Nat), k ∈ idxs →
      ((idxs.foldl (fun acc i => dropSegCache acc i) l).segments.get? k =
        (l.segments.get? k).map fun s => { s with ebuf := [], epos := [] }) := by
  induction idxs with
  | nil => intro l k hk; cases hk
  | cons i rest ih =>
    intro l k hk
    rw [List.foldl_cons]
    by_cases hkr : k ∈ rest
    · rw [ih (dropSegCache l i) k hkr]
      by_cases hki : k = i
      · subst hki
        unfold dropSegCache
        cases hg : l.segments.get? k with
        | none => rw [hg]
        | some s =>
          dsimp only
          unfold setSeg
          dsimp only
          rw [List.get?_set_eq]
          have hlt : k < l.segments.length := by
            by_contra hc
            rw [List.get?_eq_none.mpr (by omega)] at hg
            cases hg
          rw [List.get?_eq_get hlt]
          rw [List.get?_eq_get hlt] at hg
          injection hg with hg
          rw [hg]
          rfl
      · unfold dropSegCache
        cases hg : l.segments.get? i with
        | none => rfl
        | some s =>
          dsimp only
          unfold setSeg
          dsimp only
          rw [List.get?_set_ne _ _ fun hc => hki hc.symm]
    · rcases List.mem_cons.mp hk with rfl | hc
      · rw [foldl_dropSegCache_notmem rest (dropSegCache l k) k fun j hj hjk => hkr (hjk ▸ hj)]
        unfold dropSegCache
        cases hg : l.segments.get? k with
        | none => rw [hg]; rfl
        | some s =>
          dsimp only
          unfold setSeg
          dsimp only
          rw [List.get?_set_eq]
          have hlt : k < l.segments.length := by
            by_contra hc2
            rw [List.get?_eq_none.mpr (by omega)] at hg
            cases hg
          rw [List.get?_eq_get hlt]
          rw [List.get?_eq_get hlt] at hg
          injection hg with hg
          rw [hg]
          rfl
      · exact absurd hc hkr

theorem removeSegs_ok (cnt : Nat) : ∀ (l : Log) (lo : Nat),
    (∀ j, lo ≤ j → j < lo + cnt → ∃ s, l.segments.get? j = some s ∧ s.onDisk = true) →
    ∃ l2, removeSegs l noFail lo cnt = .ok l2 ∧
      l2.segments.length = l.segments.length ∧
      (∀ j s, l.segments.get? j = some s → lo ≤ j → j < lo + cnt →
        l2.segments.get? j = some { s with onDisk := false }) ∧
      (∀ j, (j < lo ∨ lo + cnt ≤ j) → l2.segments.get? j = l.segments.get? j) ∧
      l2.opts = l.opts ∧ l2.closed = l.closed ∧ l2.corrupt = l.corrupt ∧
      l2.firstOffset = l.firstOffset ∧ l2.lastOffset = l.lastOffset ∧
      l2.scache = l.scache := by
  induction cnt with
  | zero =>
    intro l lo _
    exact ⟨l, rfl, rfl, fun j s _ _ h => by omega, fun _ _ => rfl, rfl, rfl, rfl, rfl,
      rfl, rfl⟩
  | succ n ih =>
    intro l lo hall
    obtain ⟨s0, hg0, hd0⟩ := hall lo (le_refl _) (by omega)
    have hlt : lo < l.segments.length := by
      by_contra hc
      rw [List.get?_eq_none.mpr (by omega)] at hg0
      cases hg0
    obtain ⟨l2, heq, hlen, hmark, hkeep, ho, hc, hr, hf, hlo2, hsc⟩ :=
      ih (setSeg l lo { s0 with onDisk := false }) (lo + 1) (by
        intro j hj1 hj2
        obtain ⟨s, hs, hds⟩ := hall j (by omega) (by omega)
        refine ⟨s, ?_, hds⟩
        unfold setSeg
        dsimp only
        rw [List.get?_set_ne _ _ (by omega)]
        exact hs)
    refine ⟨l2, ?_, ?_, ?_, ?_, ho, hc, hr, hf, hlo2, hsc⟩
    · rw [removeSegs]
      rw [show noFail.removeAt lo = none from rfl]
      dsimp only
      rw [hg0]
      dsimp only
      rw [hd0]
      rw [if_neg (by simp)]
      exact heq
    · rw [hlen]
      unfold setSeg
      dsimp only
      exact List.length_set _ _ _
    · intro j s hjs hj1 hj2
      by_cases hje : j = lo
      · subst hje
        rw [hjs] at hg0
        injection hg0 with hg0
        subst hg0
        have := hkeep j (Or.inl (by omega))
        rw [this]
        unfold setSeg
        dsimp only
        rw [List.get?_set_eq]
        rw [List.get?_eq_get hlt]
        rfl
      · have := hmark j s ?_ (by omega) (by omega)
        · exact this
        · unfold setSeg
          dsimp only
          rw [List.get?_set_ne _ _ (by omega)]
          exact hjs
    · intro j hj
      rw [hkeep j (by omega)]
      unfold setSeg
      dsimp only
      rw [List.get?_set_ne _ _ (by omega)]

theorem removeSegs_stale (l : Log) (cnt : Nat) (hcnt : 1 ≤ cnt)
    (h0 : l.segments.get? 0 = some staleSeg) :
    removeSegs l noFail 0 cnt = .err .fsNotFound l := by
  cases cnt with
  | zero => omega
  | succ n =>
    rw [removeSegs]
    rw [show noFail.removeAt 0 = none from rfl]
    dsimp only
    rw [h0]
    dsimp only
    rfl

/-- `loadSegment` returns either the tail (unchanged log) or an index that
sits in the resulting cache. -/
theorem loadSegment_scache {l : Log} {off : Int} {l1 : Log} {si : Nat}
    (hcap : 1 ≤ l.opts.SegmentCacheSize)
    (h : loadSegment l off = .ok (l1, si)) :
    (si = l.segments.length - 1 ∧ l1 = l) ∨ si ∈ l1.scache := by
  rw [loadSegment] at h
  cases hgt : l.segments.getLast? with
  | none =>
    rw [hgt] at h
    cases h
  | some t =>
    rw [hgt] at h
    dsimp only at h
    by_cases htail : t.offset ≤ off
    · rw [if_pos htail] at h
      injection h with h
      injection h with h1 h2
      exact Or.inl ⟨h2.symm, h1.symm⟩
    · rw [if_neg htail] at h
      cases hch : cacheHitIdx l off with
      | some ci =>
        rw [hch] at h
        dsimp only at h
        injection h with h
        injection h with h1 h2
        unfold cacheHitIdx at hch
        cases hsh : l.scache.head? with
        | none =>
          rw [hsh] at hch
          cases hch
        | some c0 =>
          rw [hsh] at hch
          dsimp only at hch
          cases hgc : l.segments.get? c0 with
          | none =>
            rw [hgc] at hch
            cases hch
          | some cs =>
            rw [hgc] at hch
            dsimp only at hch
            by_cases hin : cs.offset ≤ off ∧ off < cs.offset + (cs.epos.length : Int)
            · rw [if_pos hin] at hch
              injection hch with hch
              right
              rw [← h1, ← h2, ← hch]
              exact List.mem_of_mem_head? hsh
            · rw [if_neg hin] at hch
              cases hch
      | none =>
        rw [hch] at h
        dsimp only at h
        by_cases hneg : findSegment l off < 0
        · rw [if_pos hneg] at h
          cases h
        · rw [if_neg hneg] at h
          cases hgs : l.segments.get? (findSegment l off).toNat with
          | none =>
            rw [hgs] at h
            cases h
          | some s =>
            rw [hgs] at h
            dsimp only at h
            by_cases hez : s.epos.length == 0
            · rw [if_pos hez] at h
              cases hle : loadSegmentEntries l (findSegment l off).toNat with
              | error e =>
                rw [hle] at h
                cases h
              | ok lE =>
                rw [hle] at h
                dsimp only at h
                injection h with h
                injection h with h1 h2
                right
                rw [← h1, ← h2]
                have hopts : lE.opts = l.opts := by
                  unfold loadSegmentEntries at hle
                  cases hgs2 : l.segments.get? (findSegment l off).toNat with
                  | none =>
                    rw [hgs2] at hle
                    cases hle
                  | some s2 =>
                    rw [hgs2] at hle
                    dsimp only at hle
                    by_cases hds : !s2.onDisk
                    · rw [if_pos hds] at hle
                      cases hle
                    · rw [if_neg hds] at hle
                      cases hpe : parseEntries s2.fdata 0 with
                      | error e =>
                        rw [hpe] at hle
                        cases hle
                      | ok ep =>
                        rw [hpe] at hle
                        dsimp only at hle
                        injection hle with hle
                        rw [← hle]
                        rfl
                exact pushCache_mem lE _ (by rw [hopts]; exact hcap)
            · rw [if_neg hez] at h
              injection h with h
              injection h with h1 h2
              right
              rw [← h1, ← h2]
              exact pushCache_mem l _ hcap

theorem foldl_dropSegCache_fields (idxs : List Nat) : ∀ (l : Log),
    ((idxs.foldl (fun acc i => dropSegCache acc i) l).opts = l.opts ∧
      (idxs.foldl (fun acc i => dropSegCache acc i) l).closed = l.closed ∧
      (idxs.foldl (fun acc i => dropSegCache acc i) l).corrupt = l.corrupt ∧
      (idxs.foldl (fun acc i => dropSegCache acc i) l).firstOffset = l.firstOffset ∧
      (idxs.foldl (fun acc i => dropSegCache acc i) l).lastOffset = l.lastOffset ∧
      (idxs.foldl (fun acc i => dropSegCache acc i) l).scache = l.scache ∧
      (idxs.foldl (fun acc i => dropSegCache acc i) l).segments.length =
        l.segments.length) := by
  induction idxs with
  | nil => intro l; exact ⟨rfl, rfl, rfl, rfl, rfl, rfl, rfl⟩
  | cons i rest ih =>
    intro l
    rw [List.foldl_cons]
    obtain ⟨h1, h2, h3, h4, h5, h6, h7⟩ := ih (dropSegCache l i)
    have hd : (dropSegCache l i).opts = l.opts ∧ (dropSegCache l i).closed = l.closed ∧
        (dropSegCache l i).corrupt = l.corrupt ∧
        (dropSegCache l i).firstOffset = l.firstOffset ∧
        (dropSegCache l i).lastOffset = l.lastOffset ∧
        (dropSegCache l i).scache = l.scache ∧
        (dropSegCache l i).segments.length = l.segments.length := by
      unfold dropSegCache
      cases hg : l.segments.get? i with
      | none => exact ⟨rfl, rfl, rfl, rfl, rfl, rfl, rfl⟩
      | some s =>
        dsimp only
        unfold setSeg
        exact ⟨rfl, rfl, rfl, rfl, rfl, rfl, List.length_set _ _ _⟩
    exact ⟨h1.trans hd.1, h2.trans hd.2.1, h3.trans hd.2.2.1, h4.trans hd.2.2.2.1,
      h5.trans hd.2.2.2.2.1, h6.trans hd.2.2.2.2.2.1, h7.trans hd.2.2.2.2.2.2⟩

theorem segEs_mk (off : Int) (d : Bool) (es : List (List Nat)) (eb : List Nat) (ep : List bpos) :
    segEs ⟨off, d, frames es, eb, ep⟩ = es := segEs_frames rfl

theorem setSeg_get?_eq (l : Log) (i : Nat) (s : segment) (hi : i < l.segments.length) :
    (setSeg l i s).segments.get? i = some s := by
  unfold setSeg
  dsimp only
  rw [List.get?_set_eq, List.get?_eq_get hi]
  rfl

theorem setSeg_get?_ne (l : Log) (i : Nat) (s : segment) (j : Nat) (hij : i ≠ j) :
    (setSeg l i s).segments.get? j = l.segments.get? j := by
  unfold setSeg
  dsimp only
  exact List.get?_set_ne _ _ hij

theorem setSeg_seg_length (l : Log) (i : Nat) (s : segment) :
    (setSeg l i s).segments.length = l.segments.length := by
  unfold setSeg
  dsimp only
  exact List.length_set _ _ _

theorem setSeg_opts (l : Log) (i : Nat) (s : segment) : (setSeg l i s).opts = l.opts := rfl

theorem setSeg_closed (l : Log) (i : Nat) (s : segment) : (setSeg l i s).closed = l.closed := rfl

theorem setSeg_corrupt (l : Log) (i : Nat) (s : segment) : (setSeg l i s).corrupt = l.corrupt := rfl

theorem setSeg_firstOffset (l : Log) (i : Nat) (s : segment) :
    (setSeg l i s).firstOffset = l.firstOffset := rfl

theorem setSeg_lastOffset (l : Log) (i : Nat) (s : segment) :
    (setSeg l i s).lastOffset = l.lastOffset := rfl

theorem setSeg_scache (l : Log) (i : Nat) (s : segment) : (setSeg l i s).scache = l.scache := rfl

theorem clearCache_get? (l : Log) (k : Nat) :
    (clearCache l).segments.get? k = l.segments.get? k ∨
    (clearCache l).segments.get? k =
      (l.segments.get? k).map fun s => { s with ebuf := [], epos := [] } := by
  unfold clearCache
  dsimp only
  by_cases hk : k ∈ l.scache
  · right
    exact foldl_dropSegCache_mem _ _ _ hk
  · left
    exact foldl_dropSegCache_notmem _ _ _ fun j hj hjk => hk (hjk ▸ hj)

theorem clearCache_get?_notmem (l : Log) (k : Nat) (hk : k ∉ l.scache) :
    (clearCache l).segments.get? k = l.segments.get? k := by
  unfold clearCache
  dsimp only
  exact foldl_dropSegCache_notmem _ _ _ fun j hj hjk => hk (hjk ▸ hj)

theorem clearCache_get?_mem (l : Log) (k : Nat) (hk : k ∈ l.scache) :
    (clearCache l).segments.get? k =
      (l.segments.get? k).map fun s => { s with ebuf := [], epos := [] } := by
  unfold clearCache
  dsimp only
  exact foldl_dropSegCache_mem _ _ _ hk

theorem clearCache_fields (l : Log) :
    (clearCache l).opts = l.opts ∧ (clearCache l).closed = l.closed ∧
    (clearCache l).corrupt = l.corrupt ∧ (clearCache l).firstOffset = l.firstOffset ∧
    (clearCache l).lastOffset = l.lastOffset ∧ (clearCache l).scache = [] ∧
    (clearCache l).segments.length = l.segments.length := by
  unfold clearCache
  dsimp only
  obtain ⟨h1, h2, h3, h4, h5, _, h7⟩ := foldl_dropSegCache_fields l.scache l
  exact ⟨h1, h2, h3, h4, h5, rfl, h7⟩

/-- `truncateFront` with no injected failures: a successful call leaves a
well-formed log — unchanged for the no-op case, else retargeted to
`firstOffset = index`. -/
theorem truncateFrontF_WF {l : Log} (hWF : WF l) (index : Int) {l2 : Log}
    (h : truncateFrontF l index noFail = .ok l2) :
    WF l2 ∧ l2.opts = l.opts ∧
      (l2 = l ∨ (l2.firstOffset = index ∧ l2.lastOffset = l.lastOffset ∧
        l.firstOffset < index ∧ index ≤ l.lastOffset)) := by
  rw [truncateFrontF] at h
  by_cases hrange : index < l.firstOffset ∨ l.lastOffset < index
  · rw [if_pos hrange] at h
    cases h
  · rw [if_neg hrange] at h
    push_neg at hrange
    by_cases hfe : index = l.firstOffset
    · rw [if_pos (by rw [beq_iff_eq]; exact hfe)] at h
      injection h with h
      exact ⟨h ▸ hWF, h ▸ rfl, Or.inl h.symm⟩
    · rw [if_neg (by rw [beq_iff_eq]; exact hfe)] at h
      have hlt : l.firstOffset < index := lt_of_le_of_ne hrange.1 (Ne.symm hfe)
      obtain ⟨l1, o, hload, hWF1, hopts1, hcl1, hco1, hfo1, hlo1, hF1, hsub1, hgeto,
        hodisk, homat, ⟨es0, hofd⟩, hole, hent⟩ := loadSegment_char hWF hrange.1 hrange.2
      rw [hload] at h
      dsimp only at h
      rw [hgeto] at h
      dsimp only at h
      have hes0 : segEs o = es0 := segEs_frames hofd
      have hepos : o.epos = posOf (segEs o) 0 := homat.2
      have hebuf : o.ebuf = o.fdata := homat.1
      have heplen : o.epos.length = es0.length := by
        rw [hepos, hes0, posOf_length]
      by_cases hkbad : index - o.offset < 0 ∨ (o.epos.length : Int) < index - o.offset
      · rw [if_pos hkbad] at h
        cases h
      · rw [if_neg hkbad] at h
        push_neg at hkbad
        cases he0 : (o.epos.drop (index - o.offset).toNat).head? with
        | none =>
          rw [he0] at h
          cases h
        | some e0 =>
          rw [he0] at h
          dsimp only at h
          have hge : o.epos.get? (index - o.offset).toNat = some e0 := by
            rw [List.get?_eq_getElem?, ← List.head?_drop]
            exact he0
          have hk_lt : (index - o.offset).toNat < es0.length := by
            by_contra hc
            rw [List.get?_eq_none.mpr (by omega)] at hge
            cases hge
          obtain ⟨e, hke⟩ : ∃ e, es0.get? (index - o.offset).toNat = some e := by
            cases hq : es0.get? (index - o.offset).toNat with
            | none =>
              rw [List.get?_eq_none] at hq
              omega
            | some e => exact ⟨e, rfl⟩
          have hge2 : (posOf es0 (List.length ([] : List Nat))).get?
              (index - o.offset).toNat = some e0 := by
            rw [show List.length ([] : List Nat) = 0 from rfl, ← hes0, ← hepos]
            exact hge
          obtain ⟨hsl1, hsl2, hsl3, hsl4⟩ := posOf_slice es0 [] _ e0 e hge2 hke
          simp only [List.nil_append, List.length_nil] at hsl1 hsl3 hsl4
          have hpos_le : e0.pos ≤ o.ebuf.length := by
            rw [hebuf, hofd]
            omega
          rw [if_neg (by omega)] at h
          rw [show tempPhase noFail (o.ebuf.drop e0.pos) = some (o.ebuf.drop e0.pos)
            from rfl] at h
          rw [show noFail.commitRename = (none : Option Nat) from rfl] at h
          dsimp only at h
          rw [show noFail.tailClose = (none : Option Nat) from rfl] at h
          rw [ite_self] at h
          dsimp only at h
          rw [findSegment_eq l index hWF.sorted_lt] at h
          have hub1 : 1 ≤ leCount l.segments index := hWF.ub_pos hrange.1
          have hublen : leCount l.segments index ≤ l.segments.length :=
            leCount_le_length _ _
          have hlen1 : l.segments.length = l1.segments.length :=
            List.Forall₂.length_eq hF1
          rw [show ((leCount l.segments index : Int) - 1 + 1).toNat =
            leCount l.segments index from by omega] at h
          -- the start-file content is the canonical encoding of the entry suffix
          have hstart : o.ebuf.drop e0.pos = frames (es0.drop (index - o.offset).toNat) := by
            rw [hebuf, hofd, hsl4]
            rw [show frames es0 = frames (es0.take (index - o.offset).toNat) ++
              frames (es0.drop (index - o.offset).toNat) from by
                rw [← frames_append, List.take_append_drop]]
            rw [Nat.zero_add]
            rw [List.drop_left]
          rcases hWF1.shape with hshape | hshape
          · -- every record is live: the removals succeed and the log is rebuilt
            have hallDisk : ∀ j s, l1.segments.get? j = some s → s.onDisk = true := by
              intro j s hjs
              have hm : s ∈ l1.segments := List.get?_mem hjs
              rw [hshape] at hm
              exact (List.mem_filter.mp hm).2
            obtain ⟨l2r, hrem, hlenr, hmarkr, hunchr, hoptsr, hclr, hcor, hfor, hlor, hscr⟩ :=
              removeSegs_ok (leCount l.segments index) l1 0 (by
                intro j hj0 hj
                cases hg : l1.segments.get? j with
                | none =>
                  rw [List.get?_eq_none] at hg
                  omega
                | some s => exact ⟨s, rfl, hallDisk j s hg⟩)
            rw [hrem] at h
            dsimp only at h
            rw [show noFail.finalRename = (none : Option Nat) from rfl] at h
            dsimp only at h
            have hgn : l2r.segments.get? (leCount l.segments index - 1) =
                some { o with onDisk := false } :=
              hmarkr _ o hgeto (Nat.zero_le _) (by omega)
            rw [hgn] at h
            dsimp only at h
            rw [hstart] at h
            have hkint : ((index - o.offset).toNat : Int) = index - o.offset :=
              Int.toNat_of_nonneg (by omega)
            by_cases htail : leCount l.segments index = l.segments.length
            · have hisT : ((leCount l.segments index : Int) - 1 ==
                  (l1.segments.length : Int) - 1) = true := by
                rw [beq_iff_eq, ← hlen1, htail]
              rw [hisT, if_pos rfl] at h
              rw [show noFail.reopen = (none : Option Nat) from rfl] at h
              dsimp only at h
              rw [show noFail.seek = (none : Option Nat) from rfl] at h
              dsimp only at h
              rw [if_neg (not_not_intro rfl)] at h
              rw [show noFail.readFile = (none : Option Nat) from rfl] at h
              dsimp only at h
              unfold loadSegmentEntries at h
              rw [setSeg_get?_eq _ _ _
                (show leCount l.segments index - 1 < l2r.segments.length by omega)] at h
              dsimp only at h
              rw [if_neg (by simp)] at h
              rw [parseEntries_frames] at h
              dsimp only at h
              rw [if_neg (show ¬((leCount l.segments index : Int) - 1 < 0) by omega)] at h
              rw [show ((leCount l.segments index : Int) - 1).toNat =
                leCount l.segments index - 1 from by omega] at h
              injection h with h
              subst h
              set L4 : Log := setSeg (setSeg l2r (leCount l.segments index - 1) { offset := index, onDisk := true, fdata := frames (List.drop (index - o.offset).toNat es0), ebuf := o.ebuf, epos := o.epos }) (leCount l.segments index - 1) { offset := index, onDisk := true, fdata := frames (List.drop (index - o.offset).toNat es0), ebuf := frames (List.drop (index - o.offset).toNat es0), epos := posOf (List.drop (index - o.offset).toNat es0) 0 } with hL4
              set LF : Log := { opts := (clearCache L4).opts, closed := (clearCache L4).closed, corrupt := (clearCache L4).corrupt, segments := List.drop (leCount l.segments index - 1) (clearCache L4).segments, firstOffset := index, lastOffset := (clearCache L4).lastOffset, scache := (clearCache L4).scache } with hLF
              have hccf := clearCache_fields L4
              have hnotmemT : leCount l.segments index - 1 ∉ L4.scache := by
                rw [hL4, setSeg_scache, setSeg_scache, hscr]
                intro hc
                have := hWF1.cacheBound _ hc
                omega
              have hpackT : ∃ ms : segment, (clearCache L4).segments.get? (leCount l.segments index - 1) = some ms ∧ ms.offset = index ∧ ms.onDisk = true ∧ ms.fdata = frames (List.drop (index - o.offset).toNat es0) ∧ ms.ebuf = frames (List.drop (index - o.offset).toNat es0) ∧ ms.epos = posOf (List.drop (index - o.offset).toNat es0) 0 := by
                refine ⟨{ offset := index, onDisk := true, fdata := frames (List.drop (index - o.offset).toNat es0), ebuf := frames (List.drop (index - o.offset).toNat es0), epos := posOf (List.drop (index - o.offset).toNat es0) 0 }, ?_, rfl, rfl, rfl, rfl, rfl⟩
                rw [clearCache_get?_notmem L4 _ hnotmemT, hL4]
                exact setSeg_get?_eq _ _ _ (by rw [setSeg_seg_length]; omega)
              obtain ⟨ms, hms, hmsoff, hmsdisk, hmsfd, hmseb, hmsep⟩ := hpackT
              have hEms : segEs ms = List.drop (index - o.offset).toNat es0 :=
                segEs_frames hmsfd
              have hL4len : L4.segments.length = l1.segments.length := by
                rw [hL4, setSeg_seg_length, setSeg_seg_length, hlenr]
              have hLFlen : LF.segments.length = 1 := by
                rw [hLF]
                show (List.drop _ _).length = 1
                rw [List.length_drop, hccf.2.2.2.2.2.2, hL4len]
                omega
              have hLFsegs : LF.segments = [ms] := by
                obtain ⟨a, ha⟩ := List.length_eq_one.mp hLFlen
                have hg0 : LF.segments.get? 0 = some ms := by
                  rw [hLF]
                  show (List.drop _ _).get? 0 = some ms
                  rw [List.get?_drop, Nat.add_zero]
                  exact hms
                rw [ha] at hg0
                injection hg0 with hg0
                rw [ha, hg0]
              have hLFlive : liveOf LF = [ms] := by
                rw [liveOf, hLFsegs, List.filter_cons, List.filter_nil]
                rw [show (ms.onDisk : Bool) = true from hmsdisk]
                rfl
              have hLFopts : LF.opts = l.opts := by
                rw [hLF]
                show (clearCache L4).opts = l.opts
                rw [hccf.1, hL4, setSeg_opts, setSeg_opts, hoptsr, hopts1]
              have hLFclosed : LF.closed = l.closed := by
                rw [hLF]
                show (clearCache L4).closed = l.closed
                rw [hccf.2.1, hL4, setSeg_closed, setSeg_closed, hclr, hcl1]
              have hLFcorrupt : LF.corrupt = l.corrupt := by
                rw [hLF]
                show (clearCache L4).corrupt = l.corrupt
                rw [hccf.2.2.1, hL4, setSeg_corrupt, setSeg_corrupt, hcor, hco1]
              have hLFlast : LF.lastOffset = l.lastOffset := by
                rw [hLF]
                show (clearCache L4).lastOffset = l.lastOffset
                rw [hccf.2.2.2.2.1, hL4, setSeg_lastOffset, setSeg_lastOffset, hlor, hlo1]
              have hLFfirst : LF.firstOffset = index := by rw [hLF]
              have hLFscache : LF.scache = [] := by
                rw [hLF]
                show (clearCache L4).scache = []
                exact hccf.2.2.2.2.2.1
              have htl1o : l1.segments.getLast? = some o := by
                rw [List.getLast?_eq_get?]
                rw [show l1.segments.length - 1 = leCount l.segments index - 1 from by omega]
                exact hgeto
              have hlast1 := (hWF1.tailMat o htl1o).2
              rw [hes0] at hlast1
              refine ⟨⟨?_, ?_, ?_, ?_, ?_, ?_, ?_, ?_, ?_, ?_, ?_, ?_, ?_, ?_⟩, hLFopts,
                Or.inr ⟨hLFfirst, hLFlast, hlt, hrange.2⟩⟩
              · rw [hLFclosed]
                exact hWF.notClosed
              · rw [hLFcorrupt]
                exact hWF.notCorrupt
              · rw [hLFopts]
                exact hWF.capPos
              · left
                rw [hLFlive, hLFsegs]
              · rw [hLFlive]
                simp
              · intro s hs
                rw [hLFlive, List.mem_singleton] at hs
                subst hs
                exact ⟨hmsdisk, ⟨_, hmsfd⟩, Or.inr ⟨by rw [hmseb, hmsfd], by rw [hmsep, hEms]⟩⟩
              · intro s hs
                rw [hLFlive, List.mem_singleton] at hs
                subst hs
                rw [hmsoff]
                have := hWF.first_nonneg
                omega
              · rw [hLFsegs]
                exact List.pairwise_singleton _ _
              · rw [hLFlive]
                exact List.chain'_singleton _
              · intro h0 hh0
                rw [hLFlive, List.head?_cons] at hh0
                injection hh0 with hh0
                rw [hLFfirst, ← hh0, hmsoff]
              · intro t ht
                rw [hLFsegs, List.getLast?_singleton] at ht
                injection ht with ht
                rw [← ht]
                constructor
                · exact ⟨by rw [hmseb, hmsfd], by rw [hmsep, hEms]⟩
                · rw [hLFlast, hEms, List.length_drop, hmsoff, ← hlo1, hlast1]
                  omega
              · intro _ h0 hh0
                rw [hLFlive, List.head?_cons] at hh0
                injection hh0 with hh0
                rw [← hh0, hEms]
                intro hc
                have hlenE : (List.drop (index - o.offset).toNat es0).length = 0 := by
                  rw [hc]
                  rfl
                rw [List.length_drop] at hlenE
                omega
              · intro i hi
                rw [hLFscache] at hi
                exact absurd hi (List.not_mem_nil i)
              · rw [hLFscache]
                exact List.nodup_nil
            · have hisT : ((leCount l.segments index : Int) - 1 ==
                  (l1.segments.length : Int) - 1) = false := by
                rw [beq_eq_false_iff_ne]
                intro hc
                rw [← hlen1] at hc
                exact htail (by omega)
              rw [hisT, if_neg Bool.false_ne_true] at h
              rw [if_neg (show ¬((leCount l.segments index : Int) - 1 < 0) by omega)] at h
              rw [show ((leCount l.segments index : Int) - 1).toNat =
                leCount l.segments index - 1 from by omega] at h
              injection h with h
              subst h
              have hsic : leCount l.segments index - 1 ∈ l1.scache := by
                rcases loadSegment_scache hWF.capPos hload with ⟨heq, -⟩ | hmem
                · exact absurd (by omega) htail
                · exact hmem
              set L3 : Log := setSeg l2r (leCount l.segments index - 1) { offset := index, onDisk := true, fdata := frames (List.drop (index - o.offset).toNat es0), ebuf := o.ebuf, epos := o.epos } with hL3
              set LF : Log := { opts := (clearCache L3).opts, closed := (clearCache L3).closed, corrupt := (clearCache L3).corrupt, segments := List.drop (leCount l.segments index - 1) (clearCache L3).segments, firstOffset := index, lastOffset := (clearCache L3).lastOffset, scache := (clearCache L3).scache } with hLF
              have hccf := clearCache_fields L3
              have hL3len : L3.segments.length = l1.segments.length := by
                rw [hL3, setSeg_seg_length, hlenr]
              have hMlen : (clearCache L3).segments.length = l1.segments.length := by
                rw [hccf.2.2.2.2.2.2, hL3len]
              have hLFlen : LF.segments.length = l1.segments.length - (leCount l.segments index - 1) := by
                rw [hLF]
                show (List.drop _ _).length = _
                rw [List.length_drop, hMlen]
              have hpackN : ∃ ns : segment, (clearCache L3).segments.get? (leCount l.segments index - 1) = some ns ∧ ns.offset = index ∧ ns.onDisk = true ∧ ns.fdata = frames (List.drop (index - o.offset).toNat es0) ∧ ns.ebuf = [] ∧ ns.epos = [] := by
                refine ⟨{ offset := index, onDisk := true, fdata := frames (List.drop (index - o.offset).toNat es0), ebuf := [], epos := [] }, ?_, rfl, rfl, rfl, rfl, rfl⟩
                rw [clearCache_get?_mem L3 _ (by rw [hL3, setSeg_scache, hscr]; exact hsic)]
                rw [hL3, setSeg_get?_eq _ _ _ (show leCount l.segments index - 1 < l2r.segments.length by omega)]
                rfl
              obtain ⟨ns, hns, hnsoff, hnsdisk, hnsfd, hnseb, hnsep⟩ := hpackN
              have hEns : segEs ns = List.drop (index - o.offset).toNat es0 := segEs_frames hnsfd
              have hLFget : ∀ j, LF.segments.get? j = (clearCache L3).segments.get? (leCount l.segments index - 1 + j) := by
                intro j
                rw [hLF]
                show (List.drop _ _).get? j = _
                exact List.get?_drop _ _ _
              have hLF0 : LF.segments.get? 0 = some ns := by
                rw [hLFget, Nat.add_zero]
                exact hns
              have hMj : ∀ j, leCount l.segments index ≤ j → ∀ b1, l1.segments.get? j = some b1 → ∃ b2, (clearCache L3).segments.get? j = some b2 ∧ cacheStep b1 b2 := by
                intro j hj b1 hb1
                have hL3j : L3.segments.get? j = some b1 := by
                  rw [hL3, setSeg_get?_ne _ _ _ _ (by omega), hunchr j (Or.inr (by omega))]
                  exact hb1
                rcases clearCache_get? L3 j with hc | hc
                · exact ⟨b1, by rw [hc]; exact hL3j, cacheStep_refl b1⟩
                · refine ⟨{ b1 with ebuf := [], epos := [] }, by rw [hc, hL3j]; rfl, ?_⟩
                  exact ⟨rfl, Or.inr ⟨hallDisk j b1 hb1, Or.inl ⟨rfl, rfl⟩⟩⟩
              have hLFj : ∀ j b2, LF.segments.get? (j + 1) = some b2 → ∃ b1, l1.segments.get? (leCount l.segments index + j) = some b1 ∧ cacheStep b1 b2 ∧ b2.onDisk = true := by
                intro j b2 hb2
                rw [hLFget, show leCount l.segments index - 1 + (j + 1) = leCount l.segments index + j from by omega] at hb2
                cases hb1 : l1.segments.get? (leCount l.segments index + j) with
                | none =>
                  have hlt2 : leCount l.segments index + j < (clearCache L3).segments.length := by
                    by_contra hc
                    rw [List.get?_eq_none.mpr (by omega)] at hb2
                    cases hb2
                  rw [hMlen] at hlt2
                  rw [List.get?_eq_none] at hb1
                  omega
                | some b1 =>
                  obtain ⟨b2x, hb2x, hstep⟩ := hMj _ (by omega) b1 hb1
                  rw [hb2x] at hb2
                  injection hb2 with hb2
                  subst hb2
                  refine ⟨b1, rfl, hstep, ?_⟩
                  rw [cacheStep_onDisk hstep]
                  exact hallDisk _ _ hb1
              have hallDiskLF : ∀ j s, LF.segments.get? j = some s → s.onDisk = true := by
                intro j s hjs
                cases j with
                | zero =>
                  rw [hLF0] at hjs
                  injection hjs with hjs
                  rw [← hjs]
                  exact hnsdisk
                | succ m =>
                  obtain ⟨b1, _, _, hd⟩ := hLFj m s hjs
                  exact hd
              have hLFliveEq : liveOf LF = LF.segments := by
                rw [liveOf]
                refine List.filter_eq_self.mpr ?_
                intro a ha
                obtain ⟨j, hj⟩ := List.mem_iff_get?.mp ha
                exact hallDiskLF j a hj
              have hchain1 : l1.segments.Chain' (fun a b => segEs b = [] → a.offset + ((segEs a).length : Int) = b.offset) := by
                rw [hshape]
                exact hWF1.adjEmpty
              have hord1 := hWF1.ordered
              have hLFopts : LF.opts = l.opts := by
                rw [hLF]
                show (clearCache L3).opts = l.opts
                rw [hccf.1, hL3, setSeg_opts, hoptsr, hopts1]
              have hLFclosed : LF.closed = l.closed := by
                rw [hLF]
                show (clearCache L3).closed = l.closed
                rw [hccf.2.1, hL3, setSeg_closed, hclr, hcl1]
              have hLFcorrupt : LF.corrupt = l.corrupt := by
                rw [hLF]
                show (clearCache L3).corrupt = l.corrupt
                rw [hccf.2.2.1, hL3, setSeg_corrupt, hcor, hco1]
              have hLFlast : LF.lastOffset = l.lastOffset := by
                rw [hLF]
                show (clearCache L3).lastOffset = l.lastOffset
                rw [hccf.2.2.2.2.1, hL3, setSeg_lastOffset, hlor, hlo1]
              have hLFfirst : LF.firstOffset = index := by rw [hLF]
              have hLFscache : LF.scache = [] := by
                rw [hLF]
                show (clearCache L3).scache = []
                exact hccf.2.2.2.2.2.1
              refine ⟨⟨?_, ?_, ?_, ?_, ?_, ?_, ?_, ?_, ?_, ?_, ?_, ?_, ?_, ?_⟩, hLFopts,
                Or.inr ⟨hLFfirst, hLFlast, hlt, hrange.2⟩⟩
              · rw [hLFclosed]
                exact hWF.notClosed
              · rw [hLFcorrupt]
                exact hWF.notCorrupt
              · rw [hLFopts]
                exact hWF.capPos
              · left
                rw [hLFliveEq]
              · intro hc
                rw [hLFliveEq] at hc
                rw [hc] at hLF0
                simp at hLF0
              · intro s hs
                rw [hLFliveEq] at hs
                obtain ⟨j, hj⟩ := List.mem_iff_get?.mp hs
                cases j with
                | zero =>
                  rw [hLF0] at hj
                  injection hj with hj
                  rw [← hj]
                  exact ⟨hnsdisk, ⟨_, hnsfd⟩, Or.inl ⟨hnseb, hnsep⟩⟩
                | succ m =>
                  obtain ⟨b1, hb1, hstep, _⟩ := hLFj m s hj
                  exact cacheStep_segLive hstep (hWF1.liveAll b1 (hshape ▸ List.get?_mem hb1))
              · intro s hs
                rw [hLFliveEq] at hs
                obtain ⟨j, hj⟩ := List.mem_iff_get?.mp hs
                cases j with
                | zero =>
                  rw [hLF0] at hj
                  injection hj with hj
                  rw [← hj, hnsoff]
                  have := hWF.first_nonneg
                  omega
                | succ m =>
                  obtain ⟨b1, hb1, hstep, _⟩ := hLFj m s hj
                  rw [cacheStep_offset hstep]
                  exact hWF1.liveNonneg b1 (hshape ▸ List.get?_mem hb1)
              · rw [List.pairwise_iff_get]
                intro i j hij
                rcases i with ⟨iv, hiv⟩
                rcases j with ⟨jv, hjv⟩
                have hij' : iv < jv := hij
                have hgi := List.get?_eq_get hiv
                have hgj := List.get?_eq_get hjv
                cases iv with
                | zero =>
                  rw [hLF0] at hgi
                  injection hgi with hgi
                  cases jv with
                  | zero => omega
                  | succ m =>
                    obtain ⟨b1, hb1, hstep, _⟩ := hLFj m _ hgj
                    have hsego := pairwise_rel_get? hord1
                      (show leCount l.segments index - 1 < leCount l.segments index + m from by omega)
                      hgeto hb1
                    obtain ⟨hso1, hso2⟩ := hsego
                    rw [hes0] at hso2
                    rw [← hgi]
                    refine ⟨?_, ?_⟩
                    · rw [hnsoff, cacheStep_offset hstep]
                      omega
                    · rw [hnsoff, cacheStep_offset hstep, hEns, List.length_drop]
                      omega
                | succ m =>
                  cases jv with
                  | zero => omega
                  | succ mm =>
                    obtain ⟨a1, ha1, hstepa, _⟩ := hLFj m _ hgi
                    obtain ⟨b1, hb1, hstepb, _⟩ := hLFj mm _ hgj
                    have hsego := pairwise_rel_get? hord1
                      (show leCount l.segments index + m < leCount l.segments index + mm from by omega)
                      ha1 hb1
                    obtain ⟨hso1, hso2⟩ := hsego
                    refine ⟨?_, ?_⟩
                    · rw [cacheStep_offset hstepa, cacheStep_offset hstepb]
                      exact hso1
                    · rw [cacheStep_offset hstepa, cacheStep_offset hstepb, cacheStep_segEs hstepa]
                      exact hso2
              · rw [hLFliveEq, List.chain'_iff_get]
                intro i hi
                have hgi := List.get?_eq_get (show i < LF.segments.length from by omega)
                have hgj := List.get?_eq_get (show i + 1 < LF.segments.length from by omega)
                cases i with
                | zero =>
                  rw [hLF0] at hgi
                  injection hgi with hgi
                  obtain ⟨b1, hb1, hstep, _⟩ := hLFj 0 _ hgj
                  have hch := chain'_rel_get? hchain1 hgeto
                    (by rw [show leCount l.segments index - 1 + 1 = leCount l.segments index + 0 from by omega]; exact hb1)
                  rw [← hgi]
                  intro hem
                  have hem1 : segEs b1 = [] := by
                    rw [← cacheStep_segEs hstep]
                    exact hem
                  have h2 := hch hem1
                  rw [hes0] at h2
                  rw [hnsoff, hEns, List.length_drop, cacheStep_offset hstep]
                  omega
                | succ m =>
                  obtain ⟨a1, ha1, hstepa, _⟩ := hLFj m _ hgi
                  obtain ⟨b1, hb1, hstepb, _⟩ := hLFj (m + 1) _ hgj
                  intro hem
                  have hch := chain'_rel_get? hchain1 ha1
                    (by rw [show leCount l.segments index + m + 1 = leCount l.segments index + (m + 1) from by omega]; exact hb1)
                  have hem1 : segEs b1 = [] := by
                    rw [← cacheStep_segEs hstepb]
                    exact hem
                  have h2 := hch hem1
                  rw [cacheStep_offset hstepa, cacheStep_offset hstepb, cacheStep_segEs hstepa]
                  exact h2
              · intro h0 hh0
                rw [hLFliveEq, ← List.get?_zero, hLF0] at hh0
                injection hh0 with hh0
                rw [hLFfirst, ← hh0, hnsoff]
              · intro t ht
                have ht' : LF.segments.get? (LF.segments.length - 1) = some t := by
                  rw [← List.getLast?_eq_get?]
                  exact ht
                have hMtail : (clearCache L3).segments.get? (l1.segments.length - 1) = l1.segments.get? (l1.segments.length - 1) := by
                  rw [clearCache_get?_notmem L3 _ (by rw [hL3, setSeg_scache, hscr]; intro hc; have := hWF1.cacheBound _ hc; omega)]
                  rw [hL3, setSeg_get?_ne _ _ _ _ (by omega), hunchr _ (Or.inr (by omega))]
                have ht2 : l1.segments.get? (l1.segments.length - 1) = some t := by
                  rw [← hMtail]
                  rw [hLFget] at ht'
                  rw [show leCount l.segments index - 1 + (LF.segments.length - 1) = l1.segments.length - 1 from by rw [hLFlen]; omega] at ht'
                  exact ht'
                have htl1 : l1.segments.getLast? = some t := by
                  rw [List.getLast?_eq_get?]
                  exact ht2
                obtain ⟨hmt, hlt1⟩ := hWF1.tailMat t htl1
                refine ⟨hmt, ?_⟩
                rw [hLFlast, ← hlo1]
                exact hlt1
              · intro _ h0 hh0
                rw [hLFliveEq, ← List.get?_zero, hLF0] at hh0
                injection hh0 with hh0
                rw [← hh0, hEns]
                intro hc
                have hlenE : (List.drop (index - o.offset).toNat es0).length = 0 := by
                  rw [hc]
                  rfl
                rw [List.length_drop] at hlenE
                omega
              · intro i hi
                rw [hLFscache] at hi
                exact absurd hi (List.not_mem_nil i)
              · rw [hLFscache]
                exact List.nodup_nil
          · -- stale head: either the owner would be the dead record itself,
            -- or the deletion loop hits the dead record and fails; no ok
            by_cases h1c : leCount l.segments index = 1
            · have ho0 : o = staleSeg := by
                rw [h1c, hshape] at hgeto
                simpa using hgeto.symm
              rw [ho0] at hodisk
              exact absurd hodisk (by simp [staleSeg])
            · rw [removeSegs_stale l1 _ (by omega) (by simp [hshape])] at h
              cases h

/-- `truncateBack` with no injected failures: a successful call leaves a
well-formed log — unchanged for the no-op cases, else retargeted to
`lastOffset = index`. -/
theorem truncateBackF_WF {l : Log} (hWF : WF l) (index : Int) {l2 : Log}
    (h : truncateBackF l index noFail = .ok l2) :
    WF l2 ∧ l2.opts = l.opts ∧
      (l2 = l ∨ (l2.lastOffset = index ∧ l2.firstOffset = l.firstOffset ∧
        l.firstOffset ≤ index ∧ index < l.lastOffset)) := by
  rw [truncateBackF] at h
  by_cases hall : index = l.firstOffset - 1
  · rw [if_pos (beq_iff_eq.mpr hall)] at h
    rw [truncateBackAll] at h
    by_cases hfl : l.firstOffset = l.lastOffset
    · rw [if_pos (beq_iff_eq.mpr hfl)] at h
      injection h with h
      exact ⟨h ▸ hWF, h ▸ rfl, Or.inl h.symm⟩
    · rw [if_neg (fun hc => hfl (beq_iff_eq.mp hc))] at h
      cases h
  · rw [if_neg (fun hc => hall (beq_iff_eq.mp hc))] at h
    by_cases hrange : index < l.firstOffset ∨ l.lastOffset < index
    · rw [if_pos hrange] at h
      cases h
    · rw [if_neg hrange] at h
      push_neg at hrange
      by_cases hle : index = l.lastOffset
      · rw [if_pos (beq_iff_eq.mpr hle)] at h
        injection h with h
        exact ⟨h ▸ hWF, h ▸ rfl, Or.inl h.symm⟩
      · rw [if_neg (fun hc => hle (beq_iff_eq.mp hc))] at h
        have hlt2 : index < l.lastOffset := lt_of_le_of_ne hrange.2 hle
        obtain ⟨l1, o, hload, hWF1, hopts1, hcl1, hco1, hfo1, hlo1, hF1, hsub1, hgeto,
          hodisk, homat, ⟨es0, hofd⟩, hole, hent⟩ := loadSegment_char hWF hrange.1 hrange.2
        rw [hload] at h
        dsimp only at h
        rw [hgeto] at h
        dsimp only at h
        have hes0 : segEs o = es0 := segEs_frames hofd
        have hepos : o.epos = posOf (segEs o) 0 := homat.2
        have hebuf : o.ebuf = o.fdata := homat.1
        have heplen : o.epos.length = es0.length := by
          rw [hepos, hes0, posOf_length]
        by_cases hkbad : index - o.offset < 0 ∨ (o.epos.length : Int) < index - o.offset + 1
        · rw [if_pos hkbad] at h
          cases h
        · rw [if_neg hkbad] at h
          push_neg at hkbad
          have hkint : ((index - o.offset).toNat : Int) = index - o.offset :=
            Int.toNat_of_nonneg (by omega)
          have hk1 : (index - o.offset + 1).toNat = (index - o.offset).toNat + 1 := by omega
          rw [hk1] at h
          have hk_lt : (index - o.offset).toNat + 1 ≤ es0.length := by omega
          have hgeL : (List.take ((index - o.offset).toNat + 1) o.epos).getLast? =
              o.epos.get? (index - o.offset).toNat := by
            rw [List.getLast?_eq_get?, List.length_take]
            rw [show min ((index - o.offset).toNat + 1) o.epos.length =
              (index - o.offset).toNat + 1 from by omega]
            rw [Nat.add_sub_cancel]
            exact List.get?_take (by omega)
          obtain ⟨e0, hge⟩ : ∃ e0, o.epos.get? (index - o.offset).toNat = some e0 := by
            cases hq : o.epos.get? (index - o.offset).toNat with
            | none =>
              rw [List.get?_eq_none] at hq
              omega
            | some e0 => exact ⟨e0, rfl⟩
          rw [hgeL, hge] at h
          dsimp only at h
          obtain ⟨e, hke⟩ : ∃ e, es0.get? (index - o.offset).toNat = some e := by
            cases hq : es0.get? (index - o.offset).toNat with
            | none =>
              rw [List.get?_eq_none] at hq
              omega
            | some e => exact ⟨e, rfl⟩
          have hge2 : (posOf es0 (List.length ([] : List Nat))).get?
              (index - o.offset).toNat = some e0 := by
            rw [show List.length ([] : List Nat) = 0 from rfl, ← hes0, ← hepos]
            exact hge
          obtain ⟨hsl1, hsl2, hsl3, hsl4⟩ := posOf_slice es0 [] _ e0 e hge2 hke
          simp only [List.nil_append, List.length_nil] at hsl1 hsl3 hsl4
          have htk : List.take ((index - o.offset).toNat + 1) es0 =
              List.take (index - o.offset).toNat es0 ++ [e] := by
            rw [List.take_succ]
            rw [List.get?_eq_getElem?] at hke
            rw [hke]
            rfl
          have hendp : e0.endp =
              (frames (List.take ((index - o.offset).toNat + 1) es0)).length := by
            rw [htk, frames_append, List.length_append]
            rw [show frames [e] = frameOf e from by
              rw [frames_cons e [], show frames ([] : List (List Nat)) = [] from rfl,
                List.append_nil]]
            omega
          rw [if_neg (show ¬(o.ebuf.length < e0.endp) from by rw [hebuf, hofd]; omega)] at h
          rw [show noFail.commitRename = (none : Option Nat) from rfl] at h
          dsimp only at h
          rw [show tempPhase noFail (List.take e0.endp o.ebuf) =
            some (List.take e0.endp o.ebuf) from rfl] at h
          dsimp only at h
          rw [show noFail.tailClose = (none : Option Nat) from rfl] at h
          dsimp only at h
          rw [findSegment_eq l index hWF.sorted_lt] at h
          have hub1 : 1 ≤ leCount l.segments index := hWF.ub_pos hrange.1
          have hublen : leCount l.segments index ≤ l.segments.length := leCount_le_length _ _
          have hlen1 : l.segments.length = l1.segments.length := List.Forall₂.length_eq hF1
          rw [if_neg (show ¬((leCount l.segments index : Int) - 1 < 0) by omega)] at h
          rw [show ((leCount l.segments index : Int) - 1).toNat =
            leCount l.segments index - 1 from by omega] at h
          have hstart2 : List.take e0.endp o.ebuf =
              frames (List.take ((index - o.offset).toNat + 1) es0) := by
            rw [hebuf, hofd, hendp]
            rw [show frames es0 = frames (List.take ((index - o.offset).toNat + 1) es0) ++
              frames (List.drop ((index - o.offset).toNat + 1) es0) from by
                rw [← frames_append, List.take_append_drop]]
            exact List.take_left _ _
          rw [hstart2] at h
          have hsi1 : l1.segments = staleSeg :: liveOf l1 →
              1 ≤ leCount l.segments index - 1 := by
            intro hs
            by_contra hc
            have h0 : leCount l.segments index - 1 = 0 := by omega
            rw [h0, hs, List.get?_cons_zero] at hgeto
            injection hgeto with hq
            rw [← hq] at hodisk
            simp [staleSeg] at hodisk
          have hdiskGe : ∀ j s, leCount l.segments index - 1 ≤ j →
              l1.segments.get? j = some s → s.onDisk = true := by
            intro j s hj hjs
            rcases hWF1.shape with hs | hs
            · have hm := List.get?_mem hjs
              rw [hs] at hm
              exact (List.mem_filter.mp hm).2
            · have h1 := hsi1 hs
              cases j with
              | zero => omega
              | succ m =>
                rw [hs, List.get?_cons_succ] at hjs
                exact (List.mem_filter.mp (List.get?_mem hjs)).2
          obtain ⟨l2r, hrem, hlenr, hmarkr, hunchr, hoptsr, hclr, hcor, hfor, hlor, hscr⟩ :=
            removeSegs_ok (l1.segments.length - (leCount l.segments index - 1)) l1
              (leCount l.segments index - 1) (by
                intro j hj0 hj
                cases hg : l1.segments.get? j with
                | none =>
                  rw [List.get?_eq_none] at hg
                  omega
                | some s => exact ⟨s, rfl, hdiskGe j s hj0 hg⟩)
          rw [hrem] at h
          dsimp only at h
          rw [show noFail.finalRename = (none : Option Nat) from rfl] at h
          dsimp only at h
          have hgn : l2r.segments.get? (leCount l.segments index - 1) =
              some { o with onDisk := false } :=
            hmarkr _ o hgeto (Nat.le_refl _) (by omega)
          rw [hgn] at h
          dsimp only at h
          rw [show noFail.reopen = (none : Option Nat) from rfl] at h
          dsimp only at h
          rw [show noFail.seek = (none : Option Nat) from rfl] at h
          dsimp only at h
          rw [if_neg (not_not_intro rfl)] at h
          rw [show noFail.readFile = (none : Option Nat) from rfl] at h
          dsimp only at h
          rw [show leCount l.segments index - 1 + 1 = leCount l.segments index from by omega] at h
          set L3 : Log := setSeg l2r (leCount l.segments index - 1) { offset := o.offset, onDisk := true, fdata := frames (List.take ((index - o.offset).toNat + 1) es0), ebuf := o.ebuf, epos := o.epos } with hL3
          set REC : Log := { opts := L3.opts, closed := L3.closed, corrupt := L3.corrupt, segments := List.take (leCount l.segments index) L3.segments, firstOffset := L3.firstOffset, lastOffset := index, scache := L3.scache } with hREC
          have hRECgetRaw : REC.segments.get? (leCount l.segments index - 1) = some { offset := o.offset, onDisk := true, fdata := frames (List.take ((index - o.offset).toNat + 1) es0), ebuf := o.ebuf, epos := o.epos } := by
            rw [hREC]
            show (List.take _ _).get? _ = _
            rw [List.get?_take (by omega), hL3]
            exact setSeg_get?_eq _ _ _ (by omega)
          have hCCget : (clearCache REC).segments.get? (leCount l.segments index - 1) = some { offset := o.offset, onDisk := true, fdata := frames (List.take ((index - o.offset).toNat + 1) es0), ebuf := o.ebuf, epos := o.epos } ∨ (clearCache REC).segments.get? (leCount l.segments index - 1) = some { offset := o.offset, onDisk := true, fdata := frames (List.take ((index - o.offset).toNat + 1) es0), ebuf := [], epos := [] } := by
            rcases clearCache_get? REC (leCount l.segments index - 1) with hc | hc
            · left
              rw [hc]
              exact hRECgetRaw
            · right
              rw [hc, hRECgetRaw]
              rfl
          have hLSE : loadSegmentEntries (clearCache REC) (leCount l.segments index - 1) = .ok (setSeg (clearCache REC) (leCount l.segments index - 1) { offset := o.offset, onDisk := true, fdata := frames (List.take ((index - o.offset).toNat + 1) es0), ebuf := frames (List.take ((index - o.offset).toNat + 1) es0), epos := posOf (List.take ((index - o.offset).toNat + 1) es0) 0 }) := by
            unfold loadSegmentEntries
            rcases hCCget with hc | hc
            · rw [hc]
              dsimp only
              rw [if_neg (by simp), parseEntries_frames]
            · rw [hc]
              dsimp only
              rw [if_neg (by simp), parseEntries_frames]
          rw [hLSE] at h
          dsimp only at h
          injection h with h
          subst h
          set LF : Log := setSeg (clearCache REC) (leCount l.segments index - 1) { offset := o.offset, onDisk := true, fdata := frames (List.take ((index - o.offset).toNat + 1) es0), ebuf := frames (List.take ((index - o.offset).toNat + 1) es0), epos := posOf (List.take ((index - o.offset).toNat + 1) es0) 0 } with hLF
          have hccf := clearCache_fields REC
          have hREClen : REC.segments.length = leCount l.segments index := by
            rw [hREC]
            show (List.take _ _).length = _
            rw [List.length_take, hL3, setSeg_seg_length, hlenr]
            omega
          have hCClen : (clearCache REC).segments.length = leCount l.segments index := by
            rw [hccf.2.2.2.2.2.2, hREClen]
          have hLFlen : LF.segments.length = leCount l.segments index := by
            rw [hLF, setSeg_seg_length, hCClen]
          have hLFopts : LF.opts = l.opts := by
            rw [hLF, setSeg_opts, hccf.1, hREC]
            show L3.opts = l.opts
            rw [hL3, setSeg_opts, hoptsr, hopts1]
          have hLFclosed : LF.closed = l.closed := by
            rw [hLF, setSeg_closed, hccf.2.1, hREC]
            show L3.closed = l.closed
            rw [hL3, setSeg_closed, hclr, hcl1]
          have hLFcorrupt : LF.corrupt = l.corrupt := by
            rw [hLF, setSeg_corrupt, hccf.2.2.1, hREC]
            show L3.corrupt = l.corrupt
            rw [hL3, setSeg_corrupt, hcor, hco1]
          have hLFfirst : LF.firstOffset = l.firstOffset := by
            rw [hLF, setSeg_firstOffset, hccf.2.2.2.1, hREC]
            show L3.firstOffset = l.firstOffset
            rw [hL3, setSeg_firstOffset, hfor, hfo1]
          have hLFlast : LF.lastOffset = index := by
            rw [hLF, setSeg_lastOffset, hccf.2.2.2.2.1, hREC]
          have hLFscache : LF.scache = [] := by
            rw [hLF, setSeg_scache]
            exact hccf.2.2.2.2.2.1
          have hdropnil : (clearCache REC).segments.drop (leCount l.segments index) = [] :=
            List.drop_eq_nil_of_le (by rw [hCClen])
          have hpackMS : ∃ ms : segment, LF.segments = (clearCache REC).segments.take (leCount l.segments index - 1) ++ [ms] ∧ ms.offset = o.offset ∧ ms.onDisk = true ∧ ms.fdata = frames (List.take ((index - o.offset).toNat + 1) es0) ∧ ms.ebuf = frames (List.take ((index - o.offset).toNat + 1) es0) ∧ ms.epos = posOf (List.take ((index - o.offset).toNat + 1) es0) 0 := by
            refine ⟨{ offset := o.offset, onDisk := true, fdata := frames (List.take ((index - o.offset).toNat + 1) es0), ebuf := frames (List.take ((index - o.offset).toNat + 1) es0), epos := posOf (List.take ((index - o.offset).toNat + 1) es0) 0 }, ?_, rfl, rfl, rfl, rfl, rfl⟩
            rw [hLF]
            show ((clearCache REC).segments.set _ _) = _
            rw [List.set_eq_take_cons_drop _ (by rw [hCClen]; omega)]
            rw [show leCount l.segments index - 1 + 1 = leCount l.segments index from by omega]
            rw [hdropnil]
          obtain ⟨ms, hSeq, hmsoff, hmsdisk, hmsfd, hmseb, hmsep⟩ := hpackMS
          have hEms : segEs ms = List.take ((index - o.offset).toNat + 1) es0 := segEs_frames hmsfd
          set PL : List segment := (clearCache REC).segments.take (leCount l.segments index - 1) with hPL
          have hPLlen : PL.length = leCount l.segments index - 1 := by
            rw [hPL, List.length_take, hCClen]
            omega
          have hRECj : ∀ j, j < leCount l.segments index - 1 → REC.segments.get? j = l1.segments.get? j := by
            intro j hj
            rw [hREC]
            show (List.take _ _).get? j = _
            rw [List.get?_take (by omega), hL3, setSeg_get?_ne _ _ _ _ (by omega)]
            exact hunchr j (Or.inl (by omega))
          have hFP : List.Forall₂ cacheStep (l1.segments.take (leCount l.segments index - 1)) PL := by
            refine forall₂_of_get? ?_ ?_
            · rw [List.length_take, hPLlen]
              omega
            · intro i a b ha hb
              have hilt : i < leCount l.segments index - 1 := by
                by_contra hc
                rw [List.get?_eq_none.mpr (by rw [hPLlen]; omega)] at hb
                cases hb
              rw [List.get?_take hilt] at ha
              rw [hPL, List.get?_take hilt] at hb
              rcases clearCache_get? REC i with hc | hc
              · rw [hc, hRECj i hilt, ha] at hb
                injection hb with hb
                rw [← hb]
                exact cacheStep_refl a
              · rw [hc, hRECj i hilt, ha] at hb
                injection hb with hb
                rw [← hb]
                refine ⟨rfl, ?_⟩
                cases hd : a.onDisk with
                | true => exact Or.inr ⟨rfl, Or.inl ⟨rfl, rfl⟩⟩
                | false =>
                  left
                  have ha2 : a = staleSeg := hWF1.offDisk_mem (List.get?_mem ha) hd
                  rw [ha2]
                  rfl
          have hfiltPL : liveOf LF = PL.filter (fun s => s.onDisk) ++ [ms] := by
            rw [liveOf, hSeq, List.filter_append]
            congr 1
            simp [hmsdisk]
          have hfiltF : List.Forall₂ cacheStep ((l1.segments.take (leCount l.segments index - 1)).filter (fun s => s.onDisk)) (PL.filter (fun s => s.onDisk)) := forall₂_filter_onDisk hFP
          have hmsne : segEs ms ≠ [] := by
            rw [hEms]
            intro hc
            have h0l : (List.take ((index - o.offset).toNat + 1) es0).length = 0 := by
              rw [hc]
              rfl
            rw [List.length_take] at h0l
            omega
          have hheadInfo : ∀ h0, (liveOf LF).head? = some h0 → ∃ s0, (liveOf l1).head? = some s0 ∧ h0.offset = s0.offset ∧ (segEs s0 ≠ [] → segEs h0 ≠ []) := by
            intro h0 hh0
            rw [hfiltPL] at hh0
            cases hPLf : PL.filter (fun s => s.onDisk) with
            | nil =>
              rw [hPLf, List.nil_append, List.head?_cons] at hh0
              injection hh0 with hh0
              have hfiltF2 := hfiltF
              rw [hPLf] at hfiltF2
              have hsrcnil : (l1.segments.take (leCount l.segments index - 1)).filter (fun s => s.onDisk) = [] :=
                List.forall₂_nil_right_iff.mp hfiltF2
              have hlt3 : leCount l.segments index - 1 < l1.segments.length := by omega
              have hgetelem : l1.segments.get ⟨leCount l.segments index - 1, hlt3⟩ = o := by
                rw [List.get?_eq_get hlt3] at hgeto
                injection hgeto with hg
              have hdropC : l1.segments.drop (leCount l.segments index - 1) = o :: l1.segments.drop (leCount l.segments index - 1 + 1) := by
                rw [List.drop_eq_get_cons hlt3, hgetelem]
              have hsplit : liveOf l1 = (l1.segments.take (leCount l.segments index - 1)).filter (fun s => s.onDisk) ++ (l1.segments.drop (leCount l.segments index - 1)).filter (fun s => s.onDisk) := by
                conv_lhs => rw [liveOf, show l1.segments = l1.segments.take (leCount l.segments index - 1) ++ l1.segments.drop (leCount l.segments index - 1) from (List.take_append_drop _ _).symm]
                rw [List.filter_append]
              have hlive1 : (liveOf l1).head? = some o := by
                rw [hsplit, hsrcnil, List.nil_append, hdropC]
                simp [List.filter_cons, hodisk]
              refine ⟨o, hlive1, by rw [← hh0, hmsoff], fun _ => by rw [← hh0]; exact hmsne⟩
            | cons q0 rest =>
              rw [hPLf, List.cons_append, List.head?_cons] at hh0
              injection hh0 with hh0
              have hfiltF2 := hfiltF
              rw [hPLf] at hfiltF2
              obtain ⟨s0, X, hs0q, hrestF2, hsrcEq⟩ := List.forall₂_cons_right_iff.mp hfiltF2
              have hpre : List.IsPrefix ((l1.segments.take (leCount l.segments index - 1)).filter (fun s => s.onDisk)) (liveOf l1) :=
                (List.take_prefix (leCount l.segments index - 1) l1.segments).filter _
              obtain ⟨tl, htl⟩ := hpre
              have hs0head : (liveOf l1).head? = some s0 := by
                rw [← htl, hsrcEq]
                rfl
              refine ⟨s0, hs0head, ?_, ?_⟩
              · rw [← hh0, cacheStep_offset hs0q]
              · intro hne hc
                rw [← hh0] at hc
                rw [cacheStep_segEs hs0q] at hc
                exact hne hc
          refine ⟨⟨?_, ?_, ?_, ?_, ?_, ?_, ?_, ?_, ?_, ?_, ?_, ?_, ?_, ?_⟩, hLFopts,
            Or.inr ⟨hLFlast, hLFfirst, hrange.1, hlt2⟩⟩
          · rw [hLFclosed]
            exact hWF.notClosed
          · rw [hLFcorrupt]
            exact hWF.notCorrupt
          · rw [hLFopts]
            exact hWF.capPos
          · rcases hWF1.shape with hs | hs
            · left
              rw [hfiltPL, hSeq]
              congr 1
              symm
              refine List.filter_eq_self.mpr ?_
              intro a ha
              obtain ⟨b1, hb1m, hstep⟩ := forall₂_mem_right hFP ha
              rw [cacheStep_onDisk hstep]
              have hbm : b1 ∈ l1.segments := List.mem_of_mem_take hb1m
              rw [hs] at hbm
              exact (List.mem_filter.mp hbm).2
            · right
              have h1 := hsi1 hs
              obtain ⟨m, hmEq⟩ : ∃ m, leCount l.segments index - 1 = m + 1 := ⟨leCount l.segments index - 2, by omega⟩
              have hFP2 := hFP
              rw [hmEq, hs, List.take_succ_cons] at hFP2
              obtain ⟨p0, PLr, hstale, hrestF, hPLeq⟩ := List.forall₂_cons_left_iff.mp hFP2
              have hp0 : p0 = staleSeg := cacheStep_stale hstale
              have hPLr_live : ∀ a ∈ PLr, a.onDisk = true := by
                intro a ha
                obtain ⟨b1, hb1m, hstep⟩ := forall₂_mem_right hrestF ha
                rw [cacheStep_onDisk hstep]
                exact (List.mem_filter.mp (List.mem_of_mem_take hb1m)).2
              have hfiltPLr : PLr.filter (fun s => s.onDisk) = PLr :=
                List.filter_eq_self.mpr hPLr_live
              rw [hfiltPL, hSeq, hPLeq, hp0]
              rw [show List.filter (fun s => s.onDisk) (staleSeg :: PLr) = PLr from by
                rw [List.filter_cons]
                simp [staleSeg, hfiltPLr]]
              rfl
          · rw [hfiltPL]
            intro hc
            exact absurd (List.append_eq_nil.mp hc).2 (by simp)
          · intro s hs
            rw [hfiltPL] at hs
            rcases List.mem_append.mp hs with hsp | hsm
            · obtain ⟨hmem, hdisk⟩ := List.mem_filter.mp hsp
              obtain ⟨b1, hb1m, hstep⟩ := forall₂_mem_right hFP hmem
              have hb1disk : b1.onDisk = true := by
                rw [← cacheStep_onDisk hstep]
                exact hdisk
              exact cacheStep_segLive hstep (hWF1.liveAll b1
                (List.mem_filter.mpr ⟨List.mem_of_mem_take hb1m, hb1disk⟩))
            · rw [List.mem_singleton] at hsm
              subst hsm
              exact ⟨hmsdisk, ⟨_, hmsfd⟩, Or.inr ⟨by rw [hmseb, hmsfd], by rw [hmsep, hEms]⟩⟩
          · intro s hs
            rw [hfiltPL] at hs
            rcases List.mem_append.mp hs with hsp | hsm
            · obtain ⟨hmem, hdisk⟩ := List.mem_filter.mp hsp
              obtain ⟨b1, hb1m, hstep⟩ := forall₂_mem_right hFP hmem
              rw [cacheStep_offset hstep]
              have hb1disk : b1.onDisk = true := by
                rw [← cacheStep_onDisk hstep]
                exact hdisk
              exact hWF1.liveNonneg b1
                (List.mem_filter.mpr ⟨List.mem_of_mem_take hb1m, hb1disk⟩)
            · rw [List.mem_singleton] at hsm
              subst hsm
              rw [hmsoff]
              exact hWF1.liveNonneg o (hWF1.get_live hgeto hsi1)
          · rw [hSeq]
            rw [List.pairwise_append]
            refine ⟨?_, List.pairwise_singleton _ _, ?_⟩
            · refine pairwise_transfer hFP ?_ (hWF1.ordered.sublist (List.take_sublist _ _))
              intro a b a1 b1 ha hb hr
              obtain ⟨hr1, hr2⟩ := hr
              refine ⟨?_, ?_⟩
              · rw [cacheStep_offset ha, cacheStep_offset hb]
                exact hr1
              · rw [cacheStep_offset ha, cacheStep_offset hb, cacheStep_segEs ha]
                exact hr2
            · intro a ha b hb
              rw [List.mem_singleton] at hb
              subst hb
              obtain ⟨b1, hb1m, hstep⟩ := forall₂_mem_right hFP ha
              obtain ⟨j, hj⟩ := List.mem_iff_get?.mp hb1m
              have hjlt : j < leCount l.segments index - 1 := by
                by_contra hc
                rw [List.get?_eq_none.mpr (by rw [List.length_take]; omega)] at hj
                cases hj
              rw [List.get?_take hjlt] at hj
              obtain ⟨hso1, hso2⟩ := pairwise_rel_get? hWF1.ordered hjlt hj hgeto
              refine ⟨?_, ?_⟩
              · rw [cacheStep_offset hstep, hmsoff]
                exact hso1
              · rw [cacheStep_offset hstep, hmsoff, cacheStep_segEs hstep]
                exact hso2
          · rw [hfiltPL, List.chain'_append]
            refine ⟨?_, List.chain'_singleton _, ?_⟩
            · refine chain'_transfer hfiltF ?_ ?_
              · intro a b a1 b1 ha hb hr hem
                rw [cacheStep_offset ha, cacheStep_segEs ha, cacheStep_offset hb]
                exact hr (by rw [← cacheStep_segEs hb]; exact hem)
              · have hpre : List.IsPrefix ((l1.segments.take (leCount l.segments index - 1)).filter (fun s => s.onDisk)) (liveOf l1) :=
                  (List.take_prefix (leCount l.segments index - 1) l1.segments).filter _
                exact hWF1.adjEmpty.prefix hpre
            · intro x hx y hy
              simp only [Option.mem_def, List.head?_cons] at hy
              injection hy with hy
              subst hy
              intro hem
              exact absurd hem hmsne
          · intro h0 hh0
            obtain ⟨s0, hs0, hoff, -⟩ := hheadInfo h0 hh0
            rw [hLFfirst, ← hfo1, hWF1.firstEq s0 hs0]
            exact hoff.symm
          · intro t ht
            rw [hSeq, List.getLast?_concat] at ht
            injection ht with ht
            subst ht
            refine ⟨⟨by rw [hmseb, hmsfd], by rw [hmsep, hEms]⟩, ?_⟩
            rw [hLFlast, hEms, List.length_take, hmsoff]
            rw [show min ((index - o.offset).toNat + 1) es0.length =
              (index - o.offset).toNat + 1 from by omega]
            omega
          · intro _ h0 hh0
            obtain ⟨s0, hs0, -, himp⟩ := hheadInfo h0 hh0
            exact himp (hWF1.headNonempty (by rw [hfo1, hlo1]; omega) s0 hs0)
          · intro i hi
            rw [hLFscache] at hi
            exact absurd hi (List.not_mem_nil i)
          · rw [hLFscache]
            exact List.nodup_nil

/-- A log holding one fresh empty segment at `off` is well-formed. -/
theorem WF_single_empty {l0 : Log} (hcap : 1 ≤ l0.opts.SegmentCacheSize)
    (hcl : l0.closed = false) (hco : l0.corrupt = false) (hsegs : l0.segments = [])
    (hsc : l0.scache = []) (off : Int) (hoff : 0 ≤ off) :
    WF (createInitialSegment l0 off) := by
  have hseg2 : (createInitialSegment l0 off).segments = [({ offset := off, onDisk := true, fdata := [], ebuf := [], epos := [] } : segment)] := by
    unfold createInitialSegment
    dsimp only
    rw [hsegs]
    rfl
  have hlive2 : liveOf (createInitialSegment l0 off) = [({ offset := off, onDisk := true, fdata := [], ebuf := [], epos := [] } : segment)] := by
    rw [liveOf, hseg2]
    rfl
  have hfo2 : (createInitialSegment l0 off).firstOffset = off := rfl
  have hlo2 : (createInitialSegment l0 off).lastOffset = off - 1 := rfl
  have hes : segEs ({ offset := off, onDisk := true, fdata := [], ebuf := [], epos := [] } : segment) = [] := by
    rw [segEs]
    show (decEntries []).getD [] = []
    rw [decEntries_nil]
    rfl
  refine ⟨hcl, hco, hcap, ?_, ?_, ?_, ?_, ?_, ?_, ?_, ?_, ?_, ?_, ?_⟩
  · left
    rw [hseg2, hlive2]
  · rw [hlive2]
    simp
  · intro s hs
    rw [hlive2, List.mem_singleton] at hs
    subst hs
    exact ⟨rfl, ⟨[], rfl⟩, Or.inl ⟨rfl, rfl⟩⟩
  · intro s hs
    rw [hlive2, List.mem_singleton] at hs
    subst hs
    exact hoff
  · rw [hseg2]
    exact List.pairwise_singleton _ _
  · rw [hlive2]
    exact List.chain'_singleton _
  · intro h0 hh0
    rw [hlive2, List.head?_cons] at hh0
    injection hh0 with hh0
    rw [hfo2, ← hh0]
  · intro t ht
    rw [hseg2, List.getLast?_singleton] at ht
    injection ht with ht
    subst ht
    refine ⟨⟨rfl, by rw [hes]; rfl⟩, ?_⟩
    rw [hlo2, hes]
    simp
  · intro hc h0 hh0
    rw [hfo2, hlo2] at hc
    omega
  · intro i hi
    have : (createInitialSegment l0 off).scache = [] := hsc
    rw [this] at hi
    exact absurd hi (List.not_mem_nil i)
  · have : (createInitialSegment l0 off).scache = [] := hsc
    rw [this]
    exact List.nodup_nil

/-- `clearCache` preserves well-formedness. -/
theorem clearCache_WF {l : Log} (hWF : WF l) : WF (clearCache l) := by
  obtain ⟨hf, ho, hc, hr, hfo, hlo, hsc, hg⟩ := clearCache_spec l hWF.offDisk_clean
  refine WF_transfer hWF ho hc hr hfo hlo hf ?_ ?_ ?_
  · intro t1 ht1
    have hlen : l.segments.length = (clearCache l).segments.length := List.Forall₂.length_eq hf
    have htg : (clearCache l).segments.get? ((clearCache l).segments.length - 1) = some t1 := by
      rw [← List.getLast?_eq_get?]
      exact ht1
    have h1 : l.segments.get? (l.segments.length - 1) = some t1 := by
      rw [← hg (l.segments.length - 1) (fun j hj => by have := hWF.cacheBound j hj; omega)]
      rw [show l.segments.length - 1 = (clearCache l).segments.length - 1 from by rw [hlen]]
      exact htg
    exact (hWF.tailMat t1 (by rw [List.getLast?_eq_get?]; exact h1)).1
  · intro i hi
    rw [hsc] at hi
    exact absurd hi (List.not_mem_nil i)
  · rw [hsc]
    exact List.nodup_nil

/-- `Sync` on a well-formed log is the identity. -/
theorem Sync_char {l : Log} (hWF : WF l) : Sync l = .ok l := by
  rw [Sync, if_neg (by rw [hWF.notCorrupt]; exact Bool.false_ne_true),
    if_neg (by rw [hWF.notClosed]; exact Bool.false_ne_true)]

/-- `ClearCache` on a well-formed log: drops every cached buffer, keeping
the observable state. -/
theorem ClearCache_char {l : Log} (hWF : WF l) :
    ClearCache l = .ok (clearCache l) ∧ WF (clearCache l) ∧
      (clearCache l).opts = l.opts ∧ (clearCache l).firstOffset = l.firstOffset ∧
      (clearCache l).lastOffset = l.lastOffset := by
  obtain ⟨hf, ho, hc, hr, hfo, hlo, hsc, hg⟩ := clearCache_spec l hWF.offDisk_clean
  refine ⟨?_, clearCache_WF hWF, ho, hfo, hlo⟩
  rw [ClearCache, if_neg (by rw [hWF.notCorrupt]; exact Bool.false_ne_true),
    if_neg (by rw [hWF.notClosed]; exact Bool.false_ne_true)]

/-- `Clear` on a well-formed log: reset to a single fresh segment at 0. -/
theorem Clear_char {l : Log} (hWF : WF l) :
    ∃ l2, Clear l = .ok l2 ∧ WF l2 ∧ l2.opts = l.opts ∧
      l2.firstOffset = 0 ∧ l2.lastOffset = -1 := by
  obtain ⟨hf, ho, hc, hr, hfo, hlo, hsc, hg⟩ := clearCache_spec l hWF.offDisk_clean
  refine ⟨createInitialSegment { clearCache l with segments := [] } 0, ?_, ?_, ?_, rfl, rfl⟩
  · rw [Clear, if_neg (by rw [hWF.notCorrupt]; exact Bool.false_ne_true),
      if_neg (by rw [hWF.notClosed]; exact Bool.false_ne_true)]
    rfl
  · refine WF_single_empty ?_ ?_ ?_ rfl ?_ 0 le_rfl
    · show 1 ≤ (clearCache l).opts.SegmentCacheSize
      rw [ho]
      exact hWF.capPos
    · show (clearCache l).closed = false
      rw [hc]
      exact hWF.notClosed
    · show (clearCache l).corrupt = false
      rw [hr]
      exact hWF.notCorrupt
    · show (clearCache l).scache = []
      exact hsc
  · show (clearCache l).opts = l.opts
    exact ho

/-- `TruncateFront` on a well-formed log. -/
theorem TruncateFront_char {l : Log} (hWF : WF l) (index : Int) {l2 : Log}
    (h : TruncateFront l index = .ok l2) :
    WF l2 ∧ l2.opts = l.opts ∧
      (l2 = l ∨ (l2.firstOffset = index ∧ l2.lastOffset = l.lastOffset ∧
        l.firstOffset < index ∧ index ≤ l.lastOffset)) := by
  rw [TruncateFront, if_neg (by rw [hWF.notCorrupt]; exact Bool.false_ne_true),
    if_neg (by rw [hWF.notClosed]; exact Bool.false_ne_true)] at h
  exact truncateFrontF_WF hWF index h

/-- `TruncateBack` on a well-formed log. -/
theorem TruncateBack_char {l : Log} (hWF : WF l) (index : Int) {l2 : Log}
    (h : TruncateBack l index = .ok l2) :
    WF l2 ∧ l2.opts = l.opts ∧
      (l2 = l ∨ (l2.lastOffset = index ∧ l2.firstOffset = l.firstOffset ∧
        l.firstOffset ≤ index ∧ index < l.lastOffset)) := by
  rw [TruncateBack, if_neg (by rw [hWF.notCorrupt]; exact Bool.false_ne_true),
    if_neg (by rw [hWF.notClosed]; exact Bool.false_ne_true)] at h
  exact truncateBackF_WF hWF index h

/-- `WriteBatch` with a caller-built consecutive batch behaves as
`writeBatch`. -/
theorem WriteBatch_char {l : Log} (hWF : WF l)
    (hz : l.lastOffset < l.firstOffset → l.firstOffset = 0)
    (o0 : Int) (ds : List (List Nat)) (hds : ds ≠ [])
    (ho0 : l.lastOffset + 1 ≤ o0) (hpos : 0 ≤ o0) :
    ∃ l2, WriteBatch l (mkBatch o0 ds) = .ok l2 ∧ WF l2 ∧
      l2.opts = l.opts ∧ l2.closed = false ∧ l2.corrupt = false ∧
      l2.lastOffset = o0 + ds.length - 1 ∧
      (l.firstOffset ≤ l.lastOffset → l2.firstOffset = l.firstOffset) ∧
      (l.lastOffset < l.firstOffset → l2.firstOffset = o0) ∧
      (∀ i : Nat, i < ds.length → entriesAt l2.segments (o0 + i) = ds.get? i) ∧
      (∀ off : Int, off < o0 → entriesAt l2.segments off = entriesAt l.segments off) ∧
      (∀ off : Int, o0 + ds.length ≤ off → entriesAt l2.segments off = none) := by
  obtain ⟨l2, heq, hWF2, hopts2, hcl2, hco2, hlast2, hfp, hfj, _, hbatch, hbelow, hbeyond⟩ :=
    writeBatch_char hWF hz o0 ds hds ho0 hpos
  refine ⟨l2, ?_, hWF2, hopts2, hcl2, hco2, hlast2, hfp, hfj, hbatch, hbelow, hbeyond⟩
  rw [WriteBatch, if_neg (by rw [hWF.notCorrupt]; exact Bool.false_ne_true),
    if_neg (by rw [hWF.notClosed]; exact Bool.false_ne_true)]
  rw [if_neg (show ¬((mkBatch o0 ds).entries.isEmpty = true) from by
    cases ds with
    | nil => exact absurd rfl hds
    | cons d dr => simp [mkBatch, mkEntries])]
  exact heq

/-- Opening over an empty directory yields the fresh log: one empty segment
at offset 0, `firstOffset = 0`, `lastOffset = -1`. -/
theorem openLog_empty (opts : Options) :
    openLog opts [] = .ok (createInitialSegment (emptyLog (normalizeOpts opts)) 0) ∧
      WF (createInitialSegment (emptyLog (normalizeOpts opts)) 0) ∧
      (createInitialSegment (emptyLog (normalizeOpts opts)) 0).firstOffset = 0 ∧
      (createInitialSegment (emptyLog (normalizeOpts opts)) 0).lastOffset = -1 := by
  have hcap : 1 ≤ (normalizeOpts opts).SegmentCacheSize := by
    rw [normalizeOpts]
    dsimp only
    by_cases hc : (opts.SegmentCacheSize == 0) = true
    · rw [if_pos hc]
      decide
    · rw [if_neg hc]
      have h0 : opts.SegmentCacheSize ≠ 0 := by
        intro h0
        exact hc (by rw [h0]; rfl)
      omega
  refine ⟨?_, WF_single_empty hcap rfl rfl rfl rfl 0 le_rfl, rfl, rfl⟩
  rw [openLog, load]
  rw [show loadMarkerCheck [] = .ok ⟨[], -1, -1, -1⟩ from rfl]
  dsimp only
  rw [loadFinish]
  rfl

/-- Every reachable state is well-formed; an empty reachable log sits at
`firstOffset = 0`. -/
theorem Reach_WF {opts : Options} {l : Log} (h : Reach opts l) :
    WF l ∧ (l.lastOffset < l.firstOffset → l.firstOffset = 0) := by
  induction h with
  | openR hop =>
    obtain ⟨heq, hWF, hfo, hlo⟩ := openLog_empty opts
    rw [heq] at hop
    injection hop with hop
    rw [← hop]
    exact ⟨hWF, fun _ => hfo⟩
  | writeR hre hpos hle hds hwb ih =>
    obtain ⟨hWF0, hz0⟩ := ih
    obtain ⟨l2, heq, hWF2, hopts2, hcl2, hco2, hlast2, hfp, hfj, hbatch, hbelow, hbeyond⟩ :=
      WriteBatch_char hWF0 hz0 _ _ hds hle hpos
    rw [heq] at hwb
    injection hwb with hwb
    rw [← hwb]
    refine ⟨hWF2, ?_⟩
    intro hlt
    rename_i l0 l1 o0 ds
    have hds1 : 1 ≤ ds.length := List.length_pos.mpr hds
    rcases le_or_lt l0.firstOffset l0.lastOffset with hcase | hcase
    · rw [hfp hcase, hlast2] at hlt
      omega
    · rw [hfj hcase, hlast2] at hlt
      omega
  | truncFrontR hre htf ih =>
    obtain ⟨hWF0, hz0⟩ := ih
    obtain ⟨hWF2, hopts2, hdisj⟩ := TruncateFront_char hWF0 _ htf
    refine ⟨hWF2, ?_⟩
    rcases hdisj with rfl | ⟨hf2, hl2, hfl, hle2⟩
    · exact hz0
    · intro hlt
      rw [hf2, hl2] at hlt
      omega
  | truncBackR hre htb ih =>
    obtain ⟨hWF0, hz0⟩ := ih
    obtain ⟨hWF2, hopts2, hdisj⟩ := TruncateBack_char hWF0 _ htb
    refine ⟨hWF2, ?_⟩
    rcases hdisj with rfl | ⟨hl2, hf2, hfl, hlt2⟩
    · exact hz0
    · intro hlt
      rw [hf2, hl2] at hlt
      omega
  | clearR hre hcl ih =>
    obtain ⟨hWF0, hz0⟩ := ih
    obtain ⟨l2, heq, hWF2, _, hf2, hl2⟩ := Clear_char hWF0
    rw [heq] at hcl
    injection hcl with hcl
    rw [← hcl]
    exact ⟨hWF2, fun _ => hf2⟩
  | syncR hre hs ih =>
    obtain ⟨hWF0, hz0⟩ := ih
    rw [Sync_char hWF0] at hs
    injection hs with hs
    rw [← hs]
    exact ⟨hWF0, hz0⟩
  | clearCacheR hre hcc ih =>
    obtain ⟨hWF0, hz0⟩ := ih
    obtain ⟨heq, hWF2, _, hf2, hl2⟩ := ClearCache_char hWF0
    rw [heq] at hcc
    injection hcc with hcc
    rw [← hcc]
    refine ⟨hWF2, ?_⟩
    rw [hf2, hl2]
    exact hz0
  | readR hre hrd ih =>
    obtain ⟨hWF0, hz0⟩ := ih
    obtain ⟨hWF2, _, _, _, hf2, hl2, _⟩ := Read_ok_state hWF0 hrd
    refine ⟨hWF2, ?_⟩
    rw [hf2, hl2]
    exact hz0

theorem forall₂_head? {R : segment → segment → Prop} {L L1 : List segment}
    (h : List.Forall₂ R L L1) {a : segment} (ha : L.head? = some a) :
    ∃ b, L1.head? = some b ∧ R a b := by
  cases h with
  | nil => cases ha
  | cons hab hrest =>
    rw [List.head?_cons] at ha
    injection ha with ha
    exact ⟨_, rfl, ha ▸ hab⟩

/-- The live tail of a well-formed log is the last segment of the record
list. -/
theorem WF.liveLast {l : Log} (h : WF l) : (liveOf l).getLast? = l.segments.getLast? := by
  rcases h.shape with hs | hs
  · rw [hs]
  · obtain ⟨a, r, hlive⟩ := liveOf_head h
    rw [hs, hlive, List.getLast?_cons_cons]

/-- Reading at a nonnegative offset ignores the dead initial record. -/
theorem entriesAt_stale_cons (L : List segment) (off : Int) (hoff : 0 ≤ off) :
    entriesAt (staleSeg :: L) off = entriesAt L off := by
  rw [entriesAt, entriesAt]
  rw [List.takeWhile_cons, if_pos (show decide (staleSeg.offset ≤ off) = true from by
    simp only [staleSeg, decide_eq_true_eq]
    exact hoff)]
  cases htw : L.takeWhile (fun s => decide (s.offset ≤ off)) with
  | nil =>
    rw [List.getLast?_singleton]
    dsimp only
    rw [segLookup]
    rw [show staleSeg.fdata = [] from rfl, decEntries_nil]
    dsimp only
    rw [List.get?_eq_none.mpr (by simp)]
    rfl
  | cons a r =>
    rw [List.getLast?_cons_cons]

/-- A log rebuilt from the live segments of a well-formed log (same cores,
all caches legal, tail materialized, empty LRU) is well-formed. -/
theorem WF_mapRebuild {l : Log} (hWF : WF l) {l2 : Log}
    (hsegs2 : List.Forall₂ cacheStep (liveOf l) l2.segments)
    (hcap2 : 1 ≤ l2.opts.SegmentCacheSize) (hcl2 : l2.closed = false)
    (hco2 : l2.corrupt = false)
    (hfo2 : l2.firstOffset = l.firstOffset) (hlo2 : l2.lastOffset = l.lastOffset)
    (htail2 : ∀ t1, l2.segments.getLast? = some t1 → segMat t1)
    (hsc2 : l2.scache = []) : WF l2 := by
  have hR : ∀ a b a1 b1, cacheStep a a1 → cacheStep b b1 → segOrder a b → segOrder a1 b1 := by
    intro a b a1 b1 ha hb hr
    obtain ⟨hr1, hr2⟩ := hr
    refine ⟨?_, ?_⟩
    · rw [cacheStep_offset ha, cacheStep_offset hb]
      exact hr1
    · rw [cacheStep_offset ha, cacheStep_offset hb, cacheStep_segEs ha]
      exact hr2
  have hallLive : ∀ s ∈ l2.segments, segLive s := by
    intro s hs
    obtain ⟨b1, hb1m, hstep⟩ := forall₂_mem_right hsegs2 hs
    exact cacheStep_segLive hstep (hWF.liveAll b1 hb1m)
  have hliveEq : liveOf l2 = l2.segments := by
    rw [liveOf]
    refine List.filter_eq_self.mpr ?_
    intro a ha
    exact (hallLive a ha).1
  refine ⟨hcl2, hco2, hcap2, Or.inl hliveEq.symm, ?_, ?_, ?_, ?_, ?_, ?_, ?_, ?_, ?_, ?_⟩
  · rw [hliveEq]
    intro hc
    rw [hc] at hsegs2
    rw [List.forall₂_nil_right_iff] at hsegs2
    exact hWF.liveNe hsegs2
  · rw [hliveEq]
    exact hallLive
  · rw [hliveEq]
    intro s hs
    obtain ⟨b1, hb1m, hstep⟩ := forall₂_mem_right hsegs2 hs
    rw [cacheStep_offset hstep]
    exact hWF.liveNonneg b1 hb1m
  · refine pairwise_transfer hsegs2 hR ?_
    exact hWF.ordered.sublist (List.filter_sublist _)
  · rw [hliveEq]
    refine chain'_transfer hsegs2 ?_ hWF.adjEmpty
    intro a b a1 b1 ha hb hr hem
    rw [cacheStep_offset ha, cacheStep_segEs ha, cacheStep_offset hb]
    exact hr (by rw [← cacheStep_segEs hb]; exact hem)
  · intro h0 hh0
    rw [hliveEq] at hh0
    obtain ⟨a, r, hlive⟩ := liveOf_head hWF
    obtain ⟨b, hb, hstep⟩ := forall₂_head? hsegs2 (by rw [hlive]; rfl)
    rw [hh0] at hb
    injection hb with hb
    rw [hfo2, hWF.firstEq a (by rw [hlive]; rfl), hb, cacheStep_offset hstep]
  · intro t1 ht1
    refine ⟨htail2 t1 ht1, ?_⟩
    cases hgt : l.segments.getLast? with
    | none =>
      rw [List.getLast?_eq_none_iff] at hgt
      exact absurd hgt hWF.segments_ne
    | some t =>
      obtain ⟨t1x, ht1x, hstept⟩ := forall₂_getLast? hsegs2 (by rw [hWF.liveLast]; exact hgt)
      rw [ht1] at ht1x
      injection ht1x with ht1x
      rw [hlo2, (hWF.tailMat t hgt).2, ht1x, cacheStep_offset hstept, cacheStep_segEs hstept]
  · intro hfl h0 hh0
    rw [hliveEq] at hh0
    obtain ⟨a, r, hlive⟩ := liveOf_head hWF
    obtain ⟨b, hb, hstep⟩ := forall₂_head? hsegs2 (by rw [hlive]; rfl)
    rw [hh0] at hb
    injection hb with hb
    rw [hb, cacheStep_segEs hstep]
    refine hWF.headNonempty ?_ a (by rw [hlive]; rfl)
    rw [hfo2, hlo2] at hfl
    exact hfl
  · intro i hi
    rw [hsc2] at hi
    exact absurd hi (List.not_mem_nil i)
  · rw [hsc2]
    exact List.nodup_nil

/-- Scanning a listing of plain segment files accumulates one dormant
segment per file and records no marker. -/
theorem scanDir_plain (fs : List DirEntry)
    (hplain : ∀ f ∈ fs, f.kind = FKind.plain ∧ 0 ≤ f.offset) :
    ∀ st, scanDir fs st = .ok { st with
      segs := st.segs ++ fs.map fun f => ⟨f.offset, true, f.content, [], []⟩ } := by
  induction fs with
  | nil =>
    intro st
    rw [scanDir]
    simp
  | cons f rest ih =>
    intro st
    obtain ⟨hk, ho⟩ := hplain f (List.mem_cons_self _ _)
    rw [scanDir]
    rw [if_neg (show ¬(f.offset == -1) = true from by rw [beq_iff_eq]; omega)]
    rw [hk]
    dsimp only
    rw [ih (fun g hg => hplain g (List.mem_cons_of_mem _ hg))]
    rw [List.map_cons, List.append_assoc]
    rfl

/-- The persistent directory of a log lists exactly its live segments. -/
theorem dirOf_eq (l : Log) :
    dirOf l = (liveOf l).map fun s => ⟨s.offset, FKind.plain, s.fdata⟩ := by
  rw [dirOf, liveOf]
  induction l.segments with
  | nil => rfl
  | cons s rest ih =>
    rw [List.filterMap_cons, List.filter_cons]
    cases hd : s.onDisk with
    | true =>
      simp
      exact ih
    | false =>
      simp
      exact ih

/-- Reloading the quiescent directory of a well-formed log reproduces its
observable state: same bounds, same stored entries, fresh caches. -/
theorem load_dirOf {l : Log} (hWF : WF l) (opts2 : Options)
    (hcap2 : 1 ≤ opts2.SegmentCacheSize) :
    ∃ l2, load opts2 (dirOf l) = .ok l2 ∧ WF l2 ∧ l2.opts = opts2 ∧
      l2.firstOffset = l.firstOffset ∧ l2.lastOffset = l.lastOffset ∧
      ∀ off, entriesAt l2.segments off = entriesAt (liveOf l) off := by
  obtain ⟨h0, r, hlive⟩ := liveOf_head hWF
  have hscan : scanDir (dirOf l) ⟨[], -1, -1, -1⟩ =
      .ok ⟨(liveOf l).map fun s => ⟨s.offset, true, s.fdata, [], []⟩, -1, -1, -1⟩ := by
    rw [scanDir_plain (dirOf l) ?_ ⟨[], -1, -1, -1⟩]
    · rw [dirOf_eq, List.map_map]
      rfl
    · intro f hf
      rw [dirOf_eq] at hf
      obtain ⟨s, hsm, hfe⟩ := List.mem_map.mp hf
      rw [← hfe]
      exact ⟨rfl, hWF.liveNonneg s hsm⟩
  have hmc : loadMarkerCheck (dirOf l) =
      .ok ⟨(liveOf l).map fun s => ⟨s.offset, true, s.fdata, [], []⟩, -1, -1, -1⟩ := by
    rw [loadMarkerCheck, hscan]
    dsimp only
    rw [if_neg (show ¬((((liveOf l).map fun s => (⟨s.offset, true, s.fdata, [], []⟩ : segment)).isEmpty) = true) from by
      rw [hlive]
      simp)]
    rfl
  rw [load, hmc]
  dsimp only
  cases hgt : l.segments.getLast? with
  | none =>
    rw [List.getLast?_eq_none_iff] at hgt
    exact absurd hgt hWF.segments_ne
  | some t =>
    have htlive : t ∈ liveOf l := hWF.tail_live hgt
    obtain ⟨htmat, hlo⟩ := hWF.tailMat t hgt
    obtain ⟨htdisk, ⟨tes, htes⟩, _⟩ := hWF.liveAll t htlive
    have hgl2 : ((liveOf l).map fun s => (⟨s.offset, true, s.fdata, [], []⟩ : segment)).getLast? =
        some ⟨t.offset, true, t.fdata, [], []⟩ := by
      rw [List.getLast?_map, hWF.liveLast, hgt]
      rfl
    rw [loadFinish]
    dsimp only
    rw [if_neg (show ¬((((liveOf l).map fun s => (⟨s.offset, true, s.fdata, [], []⟩ : segment)).isEmpty) = true) from by
      rw [hlive]
      simp)]
    rw [show (((-1 : Int)) != -1) = false from rfl]
    rw [if_neg Bool.false_ne_true, if_neg Bool.false_ne_true, if_neg Bool.false_ne_true]
    rw [show ((liveOf l).map fun s => (⟨s.offset, true, s.fdata, [], []⟩ : segment)).head? =
      some ⟨h0.offset, true, h0.fdata, [], []⟩ from by rw [hlive]; rfl]
    rw [hgl2]
    dsimp only
    have hlen1 : 1 ≤ ((liveOf l).map fun s => (⟨s.offset, true, s.fdata, [], []⟩ : segment)).length := by
      rw [hlive]
      simp
    have hget_t : ((liveOf l).map fun s => (⟨s.offset, true, s.fdata, [], []⟩ : segment)).get?
        (((liveOf l).map fun s => (⟨s.offset, true, s.fdata, [], []⟩ : segment)).length - 1) =
        some ⟨t.offset, true, t.fdata, [], []⟩ := by
      rw [← List.getLast?_eq_get?]
      exact hgl2
    set L0 : Log := { opts := (emptyLog opts2).opts, closed := (emptyLog opts2).closed, corrupt := (emptyLog opts2).corrupt, segments := List.map (fun s => (⟨s.offset, true, s.fdata, [], []⟩ : segment)) (liveOf l), firstOffset := h0.offset, lastOffset := (emptyLog opts2).lastOffset, scache := (emptyLog opts2).scache } with hL0
    have hLSE3 : loadSegmentEntries L0
        (((liveOf l).map fun s => (⟨s.offset, true, s.fdata, [], []⟩ : segment)).length - 1) =
        .ok (setSeg L0 (((liveOf l).map fun s => (⟨s.offset, true, s.fdata, [], []⟩ : segment)).length - 1)
          ⟨t.offset, true, t.fdata, t.fdata, posOf tes 0⟩) := by
      unfold loadSegmentEntries
      rw [show L0.segments.get? (((liveOf l).map fun s => (⟨s.offset, true, s.fdata, [], []⟩ : segment)).length - 1) = some ⟨t.offset, true, t.fdata, [], []⟩ from hget_t]
      dsimp only
      rw [if_neg (by simp)]
      rw [show (⟨t.offset, true, t.fdata, [], []⟩ : segment).fdata = frames tes from htes]
      rw [parseEntries_frames]
    rw [hLSE3]
    dsimp only
    have hgl3 : (setSeg L0 (((liveOf l).map fun s => (⟨s.offset, true, s.fdata, [], []⟩ : segment)).length - 1) ⟨t.offset, true, t.fdata, t.fdata, posOf tes 0⟩).segments.getLast? =
        some ⟨t.offset, true, t.fdata, t.fdata, posOf tes 0⟩ := by
      rw [List.getLast?_eq_get?, setSeg_seg_length]
      exact setSeg_get?_eq _ _ _ (by
        show _ < ((liveOf l).map fun s => (⟨s.offset, true, s.fdata, [], []⟩ : segment)).length
        omega)
    rw [hgl3]
    dsimp only
    have hmsegt : cacheStep (⟨t.offset, true, t.fdata, [], []⟩ : segment)
        (⟨t.offset, true, t.fdata, t.fdata, posOf tes 0⟩ : segment) := by
      refine ⟨rfl, Or.inr ⟨rfl, Or.inr ⟨rfl, ?_⟩⟩⟩
      show posOf tes 0 = posOf (segEs (⟨t.offset, true, t.fdata, t.fdata, posOf tes 0⟩ : segment)) 0
      rw [segEs_frames (show (⟨t.offset, true, t.fdata, t.fdata, posOf tes 0⟩ : segment).fdata = frames tes from htes)]
    have hsegEq : List.Forall₂ cacheStep (liveOf l)
        ((((liveOf l).map fun s => (⟨s.offset, true, s.fdata, [], []⟩ : segment)).set
          (((liveOf l).map fun s => (⟨s.offset, true, s.fdata, [], []⟩ : segment)).length - 1)
          ⟨t.offset, true, t.fdata, t.fdata, posOf tes 0⟩)) := by
      have hs1 : List.Forall₂ cacheStep (liveOf l)
          ((liveOf l).map fun s => (⟨s.offset, true, s.fdata, [], []⟩ : segment)) := by
        refine List.forall₂_map_right_iff.mpr (List.forall₂_same.mpr fun s hs => ?_)
        refine ⟨?_, Or.inr ⟨(hWF.liveAll s hs).1, Or.inl ⟨rfl, rfl⟩⟩⟩
        show ((⟨s.offset, true, s.fdata, [], []⟩ : segment).offset, _, _) = (s.offset, s.onDisk, s.fdata)
        rw [(hWF.liveAll s hs).1]
      have hs2 := forall₂_set _ (fun x _ => cacheStep_refl x) _ _ _ hget_t hmsegt
      exact forall₂_cacheStep_trans hs1 hs2
    have hfirstEq : h0.offset = l.firstOffset := (hWF.firstEq h0 (by rw [hlive]; rfl)).symm
    have hlastEq : t.offset + ((posOf tes 0).length : Int) - 1 = l.lastOffset := by
      rw [posOf_length, hlo, segEs_frames htes]
    refine ⟨_, rfl, ?_, rfl, hfirstEq, hlastEq, ?_⟩
    · refine WF_mapRebuild hWF hsegEq hcap2 rfl rfl hfirstEq hlastEq ?_ rfl
      intro t1 ht1
      rw [show (setSeg L0 (((liveOf l).map fun s => (⟨s.offset, true, s.fdata, [], []⟩ : segment)).length - 1) ⟨t.offset, true, t.fdata, t.fdata, posOf tes 0⟩).segments.getLast? = some ⟨t.offset, true, t.fdata, t.fdata, posOf tes 0⟩ from hgl3] at ht1
      injection ht1 with ht1
      rw [← ht1]
      refine ⟨rfl, ?_⟩
      show posOf tes 0 = posOf (segEs (⟨t.offset, true, t.fdata, t.fdata, posOf tes 0⟩ : segment)) 0
      rw [segEs_frames (show (⟨t.offset, true, t.fdata, t.fdata, posOf tes 0⟩ : segment).fdata = frames tes from htes)]
    · intro off
      exact entriesAt_congr _ _ off (forall₂_cacheStep_core hsegEq)

/-- `Close` on a well-formed log only sets the closed flag. -/
theorem Close_char {l : Log} (hWF : WF l) : Close l = .ok { l with closed := true } := by
  rw [Close, if_neg (by rw [hWF.notClosed]; exact Bool.false_ne_true)]
  dsimp only
  rw [if_neg (by rw [hWF.notCorrupt]; exact Bool.false_ne_true)]

theorem normalize_cap (opts : Options) : 1 ≤ (normalizeOpts opts).SegmentCacheSize := by
  rw [normalizeOpts]
  dsimp only
  by_cases hc : (opts.SegmentCacheSize == 0) = true
  · rw [if_pos hc]
    decide
  · rw [if_neg hc]
    have h0 : opts.SegmentCacheSize ≠ 0 := by
      intro h0
      exact hc (by rw [h0]; rfl)
    omega

/-- At a nonnegative offset the stored-entry lookup agrees between the full
record list and its live part. -/
theorem entriesAt_live {l : Log} (hWF : WF l) (off : Int) (hoff : 0 ≤ off) :
    entriesAt (liveOf l) off = entriesAt l.segments off := by
  rcases hWF.shape with hs | hs
  · rw [hs]
  · rw [hs, entriesAt_stale_cons _ _ hoff]

/-- Close-and-reopen over the quiescent directory reproduces the bounds and
every in-range read of a reachable log. -/
theorem reopen_char {opts : Options} {l : Log} (hre : Reach opts l) {lc : Log}
    (hclose : Close l = .ok lc) (opts2 : Options) :
    ∃ l2, openLog opts2 (dirOf lc) = .ok l2 ∧
      FirstIndex l2 = FirstIndex l ∧ LastIndex l2 = LastIndex l ∧
      ∀ off, l.firstOffset ≤ off → off ≤ l.lastOffset →
        readVal (Read l2 off) = readVal (Read l off) := by
  obtain ⟨hWF, hz⟩ := Reach_WF hre
  rw [Close_char hWF] at hclose
  injection hclose with hclose
  obtain ⟨l2, hload, hWF2, hopts2, hfo2, hlo2, hent2⟩ :=
    load_dirOf hWF (normalizeOpts opts2) (normalize_cap opts2)
  refine ⟨l2, ?_, ?_, ?_, ?_⟩
  · rw [openLog, ← hclose]
    exact hload
  · rw [FirstIndex, FirstIndex, hWF.notClosed, hWF.notCorrupt, hWF2.notClosed,
      hWF2.notCorrupt, hfo2]
  · rw [LastIndex, LastIndex, hWF.notClosed, hWF.notCorrupt, hWF2.notClosed,
      hWF2.notCorrupt, hlo2]
  · intro off h1 h2
    have h0off : 0 ≤ off := le_trans hWF.first_nonneg h1
    rw [Read_spec hWF h1 h2, Read_spec hWF2 (by rw [hfo2]; exact h1) (by rw [hlo2]; exact h2)]
    rw [hent2 off, entriesAt_live hWF off h0off]

/-- Bounds invariant: `firstOffset ≤ lastOffset + 1`, with equality exactly
on an empty log. -/
theorem WF_bounds {l : Log} (hWF : WF l) :
    l.firstOffset ≤ l.lastOffset + 1 ∧
      (l.firstOffset = l.lastOffset + 1 ↔ entryCount l = 0) := by
  obtain ⟨h0, r, hlive⟩ := liveOf_head hWF
  have hfo : l.firstOffset = h0.offset := hWF.firstEq h0 (by rw [hlive]; rfl)
  cases hgt : l.segments.getLast? with
  | none =>
    rw [List.getLast?_eq_none_iff] at hgt
    exact absurd hgt hWF.segments_ne
  | some t =>
    obtain ⟨-, hlo⟩ := hWF.tailMat t hgt
    have hlt : (liveOf l).getLast? = some t := by
      rw [hWF.liveLast]
      exact hgt
    have hpw : (liveOf l).Pairwise segOrder := hWF.ordered.sublist (List.filter_sublist _)
    cases hr : r with
    | nil =>
      have hth : t = h0 := by
        rw [hlive, hr, List.getLast?_singleton] at hlt
        injection hlt with hlt
        exact hlt.symm
      have hcount : entryCount l = (segEs h0).length := by
        rw [entryCount, hlive, hr]
        simp
      constructor
      · rw [hfo, hlo, hth]
        omega
      · rw [hfo, hlo, hth, hcount]
        omega
    | cons a r2 =>
      have htm : t ∈ a :: r2 := by
        rw [hlive, hr, List.getLast?_cons_cons] at hlt
        exact List.mem_of_mem_getLast? hlt
      have hpw2 := hpw
      rw [hlive, hr, List.pairwise_cons] at hpw2
      have hord : segOrder h0 t := hpw2.1 t htm
      constructor
      · rw [hfo, hlo]
        have := hord.1
        have h0le : (0 : Int) ≤ ((segEs t).length : Int) := by positivity
        omega
      · constructor
        · intro heq
          rw [hfo, hlo] at heq
          have := hord.1
          omega
        · intro hec
          exfalso
          have hall : ∀ s ∈ liveOf l, (segEs s).length = 0 := by
            intro s hs
            rw [entryCount] at hec
            have := List.sum_eq_zero_iff.mp hec ((segEs s).length)
              (List.mem_map.mpr ⟨s, hs, rfl⟩)
            exact this
          have hch := hWF.adjEmpty
          rw [hlive, hr, List.chain'_cons] at hch
          have hrel := hch.1 (by
            rw [← List.length_eq_zero]
            exact hall a (by rw [hlive, hr]; exact List.mem_cons_of_mem _ (List.mem_cons_self _ _)))
          have h0z : (segEs h0).length = 0 := hall h0 (by rw [hlive]; exact List.mem_cons_self _ _)
          have hlt0 : h0.offset < a.offset := (hpw2.1 a (List.mem_cons_self _ _)).1
          rw [h0z] at hrel
          omega


theorem countTrunc_hasKind (dir : List DirEntry) :
    hasKind dir FKind.trunc = true ↔ 1 ≤ countTrunc dir := by
  rw [hasKind, countTrunc, List.any_eq_true]
  constructor
  · rintro ⟨f, hf, hp⟩
    have hm : f ∈ dir.filter fun f => f.kind == FKind.trunc && f.offset != -1 :=
      List.mem_filter.mpr ⟨hf, hp⟩
    have := List.length_pos.mpr (List.ne_nil_of_mem hm)
    omega
  · intro h
    have hne : (dir.filter fun f => f.kind == FKind.trunc && f.offset != -1) ≠ [] := by
      intro hc
      rw [hc] at h
      simp at h
    obtain ⟨f, hf⟩ := List.exists_mem_of_ne_nil _ hne
    obtain ⟨hm, hp⟩ := List.mem_filter.mp hf
    exact ⟨f, hm, hp⟩

/-- The directory loop: it fails with `corrupt` exactly on a second
TRUNCATE; otherwise the final marker positions record which kinds appeared,
and a segment record is kept for every surviving entry. -/
theorem scanDir_spec (dir : List DirEntry) : ∀ st : ScanSt,
    ((st.truncIdx ≠ -1 ∧ hasKind dir FKind.trunc = true) ∨ 2 ≤ countTrunc dir →
      scanDir dir st = .error .corrupt) ∧
    (¬((st.truncIdx ≠ -1 ∧ hasKind dir FKind.trunc = true) ∨ 2 ≤ countTrunc dir) →
      ∃ st2, scanDir dir st = .ok st2 ∧
        ((st2.startIdx ≠ -1) ↔ (st.startIdx ≠ -1 ∨ hasKind dir FKind.start = true)) ∧
        ((st2.endIdx ≠ -1) ↔ (st.endIdx ≠ -1 ∨ hasKind dir FKind.fend = true)) ∧
        ((st2.truncIdx ≠ -1) ↔ (st.truncIdx ≠ -1 ∨ hasKind dir FKind.trunc = true)) ∧
        (st2.segs = [] ↔ (st.segs = [] ∧ ∀ f ∈ dir, f.offset = -1))) := by
  induction dir with
  | nil =>
    intro st
    have hK : ∀ k, hasKind ([] : List DirEntry) k = false := fun k => rfl
    have hT : countTrunc ([] : List DirEntry) = 0 := rfl
    constructor
    · intro h
      rcases h with ⟨_, h2⟩ | h3
      · rw [hK] at h2
        cases h2
      · rw [hT] at h3
        omega
    · intro _
      refine ⟨st, rfl, ?_, ?_, ?_, ?_⟩ <;> simp [hK]
  | cons f rest ih =>
    intro st
    by_cases hskip : f.offset = -1
    · have hbe : (f.offset == -1) = true := beq_iff_eq.mpr hskip
      have hbne : (f.offset != -1) = false := by
        rw [bne, hbe]
        rfl
      have hK : ∀ k, hasKind (f :: rest) k = hasKind rest k := by
        intro k
        rw [hasKind, List.any_cons, hbne]
        simp [hasKind]
      have hT : countTrunc (f :: rest) = countTrunc rest := by
        rw [countTrunc, List.filter_cons]
        rw [show (f.kind == FKind.trunc && f.offset != -1) = false from by
          rw [hbne]
          simp]
        simp [countTrunc]
      obtain ⟨ih1, ih2⟩ := ih st
      constructor
      · intro h
        rw [scanDir, if_pos hbe]
        refine ih1 ?_
        rcases h with ⟨h1, h2⟩ | h3
        · rw [hK] at h2
          exact Or.inl ⟨h1, h2⟩
        · rw [hT] at h3
          exact Or.inr h3
      · intro h
        rw [scanDir, if_pos hbe]
        obtain ⟨st2, hs, hA, hB, hC, hD⟩ := ih2 (by
          intro hc
          refine h ?_
          rcases hc with ⟨h1, h2⟩ | h3
          · exact Or.inl ⟨h1, by rw [hK]; exact h2⟩
          · exact Or.inr (by rw [hT]; exact h3))
        refine ⟨st2, hs, by rw [hK]; exact hA, by rw [hK]; exact hB, by rw [hK]; exact hC, ?_⟩
        rw [hD]
        simp only [List.forall_mem_cons]
        constructor
        · rintro ⟨h1, h2⟩
          exact ⟨h1, hskip, h2⟩
        · rintro ⟨h1, _, h2⟩
          exact ⟨h1, h2⟩
    · have hbe : (f.offset == -1) = false := beq_eq_false_iff_ne.mpr hskip
      have hbne : (f.offset != -1) = true := by
        rw [bne, hbe]
        rfl
      have hKgen : ∀ k, hasKind (f :: rest) k = ((f.kind == k) || hasKind rest k) := by
        intro k
        rw [hasKind, List.any_cons, hbne]
        simp [hasKind]
      cases hk : f.kind with
      | start =>
        obtain ⟨ih1, ih2⟩ := ih { st with startIdx := (st.segs.length : Int), segs := st.segs ++ [⟨f.offset, true, f.content, [], []⟩] }
        have hKt : hasKind (f :: rest) FKind.trunc = hasKind rest FKind.trunc := by
          rw [hKgen, hk]
          rfl
        have hKe : hasKind (f :: rest) FKind.fend = hasKind rest FKind.fend := by
          rw [hKgen, hk]
          rfl
        have hKst : hasKind (f :: rest) FKind.start = true := by
          rw [hKgen, hk]
          rfl
        have hT : countTrunc (f :: rest) = countTrunc rest := by
          rw [countTrunc, List.filter_cons]
          rw [show (f.kind == FKind.trunc && f.offset != -1) = false from by rw [hk]; rfl]
          simp [countTrunc]
        constructor
        · intro h
          rw [scanDir, if_neg (by rw [hbe]; exact Bool.false_ne_true), hk]
          dsimp only
          refine ih1 ?_
          rcases h with ⟨h1, h2⟩ | h3
          · rw [hKt] at h2
            exact Or.inl ⟨h1, h2⟩
          · rw [hT] at h3
            exact Or.inr h3
        · intro h
          rw [scanDir, if_neg (by rw [hbe]; exact Bool.false_ne_true), hk]
          dsimp only
          obtain ⟨st2, hs, hA, hB, hC, hD⟩ := ih2 (by
            intro hc
            refine h ?_
            rcases hc with ⟨h1, h2⟩ | h3
            · exact Or.inl ⟨h1, by rw [hKt]; exact h2⟩
            · exact Or.inr (by rw [hT]; exact h3))
          refine ⟨st2, hs, ?_, ?_, ?_, ?_⟩
          · rw [hKst]
            refine iff_of_true (hA.mpr (Or.inl ?_)) (Or.inr rfl)
            dsimp only
            omega
          · rw [hKe]
            exact hB
          · rw [hKt]
            exact hC
          · rw [hD]
            dsimp only
            constructor
            · rintro ⟨h1, -⟩
              exact absurd h1 (by simp)
            · rintro ⟨-, hall⟩
              exact absurd (hall f (List.mem_cons_self _ _)) hskip
      | fend =>
        obtain ⟨ih1, ih2⟩ := ih { st with endIdx := if st.endIdx == -1 then (st.segs.length : Int) else st.endIdx, segs := st.segs ++ [⟨f.offset, true, f.content, [], []⟩] }
        have hKt : hasKind (f :: rest) FKind.trunc = hasKind rest FKind.trunc := by
          rw [hKgen, hk]
          rfl
        have hKe : hasKind (f :: rest) FKind.fend = true := by
          rw [hKgen, hk]
          rfl
        have hKst : hasKind (f :: rest) FKind.start = hasKind rest FKind.start := by
          rw [hKgen, hk]
          rfl
        have hT : countTrunc (f :: rest) = countTrunc rest := by
          rw [countTrunc, List.filter_cons]
          rw [show (f.kind == FKind.trunc && f.offset != -1) = false from by rw [hk]; rfl]
          simp [countTrunc]
        have hEnd : (if st.endIdx == -1 then (st.segs.length : Int) else st.endIdx) ≠ -1 := by
          by_cases he : (st.endIdx == -1) = true
          · rw [if_pos he]
            omega
          · rw [if_neg he]
            intro hc
            exact he (beq_iff_eq.mpr hc)
        constructor
        · intro h
          rw [scanDir, if_neg (by rw [hbe]; exact Bool.false_ne_true), hk]
          dsimp only
          refine ih1 ?_
          rcases h with ⟨h1, h2⟩ | h3
          · rw [hKt] at h2
            exact Or.inl ⟨h1, h2⟩
          · rw [hT] at h3
            exact Or.inr h3
        · intro h
          rw [scanDir, if_neg (by rw [hbe]; exact Bool.false_ne_true), hk]
          dsimp only
          obtain ⟨st2, hs, hA, hB, hC, hD⟩ := ih2 (by
            intro hc
            refine h ?_
            rcases hc with ⟨h1, h2⟩ | h3
            · exact Or.inl ⟨h1, by rw [hKt]; exact h2⟩
            · exact Or.inr (by rw [hT]; exact h3))
          refine ⟨st2, hs, ?_, ?_, ?_, ?_⟩
          · rw [hKst]
            exact hA
          · rw [hKe]
            exact iff_of_true (hB.mpr (Or.inl hEnd)) (Or.inr rfl)
          · rw [hKt]
            exact hC
          · rw [hD]
            dsimp only
            constructor
            · rintro ⟨h1, -⟩
              exact absurd h1 (by simp)
            · rintro ⟨-, hall⟩
              exact absurd (hall f (List.mem_cons_self _ _)) hskip
      | trunc =>
        have hKt : hasKind (f :: rest) FKind.trunc = true := by
          rw [hKgen, hk]
          rfl
        have hKe : hasKind (f :: rest) FKind.fend = hasKind rest FKind.fend := by
          rw [hKgen, hk]
          rfl
        have hKst : hasKind (f :: rest) FKind.start = hasKind rest FKind.start := by
          rw [hKgen, hk]
          rfl
        have hT : countTrunc (f :: rest) = countTrunc rest + 1 := by
          rw [countTrunc, List.filter_cons]
          rw [show (f.kind == FKind.trunc && f.offset != -1) = true from by
            rw [hk, hbne]
            rfl]
          simp [countTrunc]
        by_cases htr : st.truncIdx ≠ -1
        · have hcond : (st.truncIdx != -1) = true := by
            rw [bne, beq_eq_false_iff_ne.mpr htr]
            rfl
          constructor
          · intro _
            rw [scanDir, if_neg (by rw [hbe]; exact Bool.false_ne_true), hk]
            dsimp only
            rw [if_pos hcond]
          · intro h
            exact absurd (Or.inl ⟨htr, hKt⟩) h
        · push_neg at htr
          have hcond : (st.truncIdx != -1) = false := by
            rw [bne, beq_iff_eq.mpr htr]
            rfl
          obtain ⟨ih1, ih2⟩ := ih { st with truncIdx := (st.segs.length : Int), segs := st.segs ++ [⟨f.offset, true, f.content, [], []⟩] }
          constructor
          · intro h
            rw [scanDir, if_neg (by rw [hbe]; exact Bool.false_ne_true), hk]
            dsimp only
            rw [if_neg (by rw [hcond]; exact Bool.false_ne_true)]
            refine ih1 ?_
            rcases h with ⟨h1, -⟩ | h3
            · exact absurd htr h1
            · rw [hT] at h3
              refine Or.inl ⟨by dsimp only; omega, ?_⟩
              exact (countTrunc_hasKind rest).mpr (by omega)
          · intro h
            rw [scanDir, if_neg (by rw [hbe]; exact Bool.false_ne_true), hk]
            dsimp only
            rw [if_neg (by rw [hcond]; exact Bool.false_ne_true)]
            have hrest0 : countTrunc rest = 0 := by
              by_contra hc
              refine h (Or.inr ?_)
              rw [hT]
              omega
            obtain ⟨st2, hs, hA, hB, hC, hD⟩ := ih2 (by
              intro hc
              rcases hc with ⟨-, h2⟩ | h3
              · rw [countTrunc_hasKind] at h2
                omega
              · omega)
            refine ⟨st2, hs, ?_, ?_, ?_, ?_⟩
            · rw [hKst]
              exact hA
            · rw [hKe]
              exact hB
            · rw [hKt]
              refine iff_of_true (hC.mpr (Or.inl ?_)) (Or.inr rfl)
              dsimp only
              omega
            · rw [hD]
              dsimp only
              constructor
              · rintro ⟨h1, -⟩
                exact absurd h1 (by simp)
              · rintro ⟨-, hall⟩
                exact absurd (hall f (List.mem_cons_self _ _)) hskip
      | plain =>
        obtain ⟨ih1, ih2⟩ := ih { st with segs := st.segs ++ [⟨f.offset, true, f.content, [], []⟩] }
        have hKt : hasKind (f :: rest) FKind.trunc = hasKind rest FKind.trunc := by
          rw [hKgen, hk]
          rfl
        have hKe : hasKind (f :: rest) FKind.fend = hasKind rest FKind.fend := by
          rw [hKgen, hk]
          rfl
        have hKst : hasKind (f :: rest) FKind.start = hasKind rest FKind.start := by
          rw [hKgen, hk]
          rfl
        have hT : countTrunc (f :: rest) = countTrunc rest := by
          rw [countTrunc, List.filter_cons]
          rw [show (f.kind == FKind.trunc && f.offset != -1) = false from by rw [hk]; rfl]
          simp [countTrunc]
        constructor
        · intro h
          rw [scanDir, if_neg (by rw [hbe]; exact Bool.false_ne_true), hk]
          dsimp only
          refine ih1 ?_
          rcases h with ⟨h1, h2⟩ | h3
          · rw [hKt] at h2
            exact Or.inl ⟨h1, h2⟩
          · rw [hT] at h3
            exact Or.inr h3
        · intro h
          rw [scanDir, if_neg (by rw [hbe]; exact Bool.false_ne_true), hk]
          dsimp only
          obtain ⟨st2, hs, hA, hB, hC, hD⟩ := ih2 (by
            intro hc
            refine h ?_
            rcases hc with ⟨h1, h2⟩ | h3
            · exact Or.inl ⟨h1, by rw [hKt]; exact h2⟩
            · exact Or.inr (by rw [hT]; exact h3))
          refine ⟨st2, hs, ?_, ?_, ?_, ?_⟩
          · rw [hKst]
            exact hA
          · rw [hKe]
            exact hB
          · rw [hKt]
            exact hC
          · rw [hD]
            dsimp only
            constructor
            · rintro ⟨h1, -⟩
              exact absurd h1 (by simp)
            · rintro ⟨-, hall⟩
              exact absurd (hall f (List.mem_cons_self _ _)) hskip

/-- The scan of `load` rejects a directory as corrupt exactly on the marker
combinations of `markerConflict`: two *distinct* marker kinds present, or
two TRUNCATE files. -/
theorem loadMarkerCheck_corrupt (dir : List DirEntry) :
    loadMarkerCheck dir = .error .corrupt ↔ markerConflict dir = true := by
  obtain ⟨h1, h2⟩ := scanDir_spec dir ⟨[], -1, -1, -1⟩
  by_cases hct : 2 ≤ countTrunc dir
  · rw [loadMarkerCheck, h1 (Or.inr hct)]
    refine iff_of_true rfl ?_
    rw [markerConflict]
    simp [hct]
  · have hnc : ¬((⟨[], -1, -1, -1⟩ : ScanSt).truncIdx ≠ -1 ∧
        hasKind dir FKind.trunc = true ∨ 2 ≤ countTrunc dir) := by
      rintro (⟨ha, -⟩ | hb)
      · exact ha rfl
      · exact hct hb
    obtain ⟨st2, hs, hA, hB, hC, hD⟩ := h2 hnc
    have hA' : (st2.startIdx ≠ -1) ↔ hasKind dir FKind.start = true :=
      hA.trans (or_iff_right (fun h => h rfl))
    have hB' : (st2.endIdx ≠ -1) ↔ hasKind dir FKind.fend = true :=
      hB.trans (or_iff_right (fun h => h rfl))
    have hC' : (st2.truncIdx ≠ -1) ↔ hasKind dir FKind.trunc = true :=
      hC.trans (or_iff_right (fun h => h rfl))
    rw [loadMarkerCheck, hs]
    dsimp only
    by_cases hse : st2.segs.isEmpty = true
    · rw [if_pos hse]
      have hsegs : st2.segs = [] := List.isEmpty_iff.mp hse
      have hall : ∀ f ∈ dir, f.offset = -1 := (hD.mp hsegs).2
      have hk0 : ∀ k, hasKind dir k = false := by
        intro k
        rw [hasKind]
        cases hany : dir.any (fun f => f.kind == k && f.offset != -1) with
        | false => rfl
        | true =>
          obtain ⟨f, hfm, hfp⟩ := List.any_eq_true.mp hany
          simp only [Bool.and_eq_true] at hfp
          have hfo := hall f hfm
          rw [show (f.offset != -1) = false from by rw [bne, beq_iff_eq.mpr hfo]; rfl] at hfp
          simp at hfp
      refine iff_of_false (by intro hc; cases hc) ?_
      rw [markerConflict, hk0, hk0, hk0]
      simp [hct]
    · rw [if_neg hse]
      by_cases hcond : ((st2.startIdx != -1 && st2.endIdx != -1) ||
          (st2.startIdx != -1 && st2.truncIdx != -1) ||
          (st2.truncIdx != -1 && st2.endIdx != -1)) = true
      · rw [if_pos hcond]
        refine iff_of_true rfl ?_
        rw [markerConflict]
        simp only [Bool.or_eq_true, Bool.and_eq_true, bne_iff_ne] at hcond
        simp only [Bool.or_eq_true, Bool.and_eq_true, decide_eq_true_eq]
        rcases hcond with (⟨u1, u2⟩ | ⟨u1, u2⟩) | ⟨u1, u2⟩
        · exact Or.inl (Or.inl (Or.inl ⟨hA'.mp u1, hB'.mp u2⟩))
        · exact Or.inl (Or.inl (Or.inr ⟨hA'.mp u1, hC'.mp u2⟩))
        · exact Or.inl (Or.inr ⟨hC'.mp u1, hB'.mp u2⟩)
      · rw [if_neg hcond]
        refine iff_of_false (by intro hc; cases hc) ?_
        intro hmc
        refine hcond ?_
        rw [markerConflict] at hmc
        simp only [Bool.or_eq_true, Bool.and_eq_true, decide_eq_true_eq] at hmc
        simp only [Bool.or_eq_true, Bool.and_eq_true, bne_iff_ne]
        rcases hmc with ((⟨u1, u2⟩ | ⟨u1, u2⟩) | ⟨u1, u2⟩) | h4
        · exact Or.inl (Or.inl ⟨hA'.mpr u1, hB'.mpr u2⟩)
        · exact Or.inl (Or.inr ⟨hA'.mpr u1, hC'.mpr u2⟩)
        · exact Or.inr ⟨hC'.mpr u1, hB'.mpr u2⟩
        · exact absurd h4 hct
/-! ## Reachability of the concrete example states -/

theorem reach_exFresh : Reach DefaultOptions exFresh :=
  Reach.openR (openLog_empty DefaultOptions).1

theorem writeBatch_exOne : WriteBatch exFresh (mkBatch 0 [[7]]) = .ok exOne := by
  simp [WriteBatch, mkBatch, mkEntries, writeBatch, writeBatchFinish, writeLoop, cycle,
    segAppendEntry, putUvarint, frameOf, pushCache, setSeg, exFresh, createInitialSegment,
    emptyLog, normalizeOpts, DefaultOptions, exOne, exSeg1]

theorem reach_exOne : Reach DefaultOptions exOne :=
  @Reach.writeR DefaultOptions exFresh exOne 0 [[7]] reach_exFresh (by decide) (by decide)
    (by simp) writeBatch_exOne

theorem writeBatch_exTwo : WriteBatch exFresh (mkBatch 0 [[7], [8]]) = .ok exTwo := by
  simp [WriteBatch, mkBatch, mkEntries, writeBatch, writeBatchFinish, writeLoop, cycle,
    segAppendEntry, putUvarint, frameOf, pushCache, setSeg, exFresh, createInitialSegment,
    emptyLog, normalizeOpts, DefaultOptions, exTwo, exSeg2]

theorem reach_exTwo : Reach DefaultOptions exTwo :=
  @Reach.writeR DefaultOptions exFresh exTwo 0 [[7], [8]] reach_exFresh (by decide) (by decide)
    (by simp) writeBatch_exTwo

theorem writeBatch_exJump : WriteBatch exOne (mkBatch 3 [[9]]) = .ok exJump := by
  simp [WriteBatch, mkBatch, mkEntries, writeBatch, writeBatchFinish, writeLoop, cycle,
    segAppendEntry, putUvarint, frameOf, pushCache, setSeg, exOne, exSeg1,
    DefaultOptions, exJump, exJumpSeg]

theorem reach_exJump : Reach DefaultOptions exJump :=
  @Reach.writeR DefaultOptions exOne exJump 3 [[9]] reach_exOne (by decide) (by decide)
    (by simp) writeBatch_exJump

/-! ## Claim theorems -/

/-- C1 (amended): appending a batch of entries at *consecutive* offsets
starting at or past `lastOffset + 1` on a reachable log stores every
payload, and reading each offset back returns exactly the payload written
there. -/
theorem C1_batch_append_read {opts : Options} {l : Log} (hre : Reach opts l)
    (o0 : Int) (ds : List (List Nat)) (hds : ds ≠ [])
    (ho0 : l.lastOffset + 1 ≤ o0) (hpos : 0 ≤ o0) :
    ∃ l2, WriteBatch l (mkBatch o0 ds) = .ok l2 ∧
      ∀ i : Nat, i < ds.length →
        ∃ d, ds.get? i = some d ∧ readVal (Read l2 (o0 + i)) = .ok d := by
  obtain ⟨hWF, hz⟩ := Reach_WF hre
  obtain ⟨l2, heq, hWF2, -, -, -, hlast2, hfp, hfj, hbatch, -, -⟩ :=
    WriteBatch_char hWF hz o0 ds hds ho0 hpos
  refine ⟨l2, heq, ?_⟩
  intro i hi
  obtain ⟨d, hd⟩ : ∃ d, ds.get? i = some d := by
    rw [List.get?_eq_get hi]
    exact ⟨_, rfl⟩
  refine ⟨d, hd, ?_⟩
  have h1 : l2.firstOffset ≤ o0 + i := by
    rcases le_or_lt l.firstOffset l.lastOffset with hc | hc
    · have he := hfp hc
      omega
    · have he := hfj hc
      omega
  have h2 : o0 + (i : Int) ≤ l2.lastOffset := by
    rw [hlast2]
    omega
  rw [Read_spec hWF2 h1 h2, hbatch i hi, hd]

theorem C1_batch_append_read_w :
    ∃ l2, WriteBatch exFresh (mkBatch 0 [[7]]) = .ok l2 ∧
      ∀ i : Nat, i < ([[7]] : List (List Nat)).length →
        ∃ d, ([[7]] : List (List Nat)).get? i = some d ∧
          readVal (Read l2 ((0 : Int) + i)) = .ok d :=
  C1_batch_append_read reach_exFresh 0 [[7]] (by simp) (by decide) (by decide)

/-- C1 counterexample: a batch whose offsets skip an index (0, then 2) is
accepted, but reading the second entry's offset back panics (`.oob`)
instead of returning the payload written there. -/
theorem C1_gap_counterexample :
    Reach DefaultOptions exFresh ∧
    WriteBatch exFresh ⟨[⟨0, 1⟩, ⟨2, 1⟩], [7, 8]⟩ = .ok exGap ∧
    readVal (Read exGap 2) = .error .oob := by
  refine ⟨reach_exFresh, ?_, ?_⟩
  · simp [WriteBatch, writeBatch, writeBatchFinish, writeLoop, cycle, segAppendEntry,
      putUvarint, frameOf, pushCache, setSeg, exFresh, createInitialSegment, emptyLog,
      normalizeOpts, DefaultOptions, exGap, exSeg2]
  · simp [Read, readVal, exGap, exSeg2, DefaultOptions, loadSegment, cacheHitIdx,
      findSegment, bsearchLoop, loadSegmentEntries, parseEntries, loadNextEntry,
      uvarint, pushCache, setSeg]

/-- C2: closing a reachable log and reopening its directory restores the
first index, the last index, and every read result inside the bounds. -/
theorem C2_close_reopen {opts : Options} {l : Log} (hre : Reach opts l) {lc : Log}
    (hclose : Close l = .ok lc) (opts2 : Options) :
    ∃ l2, openLog opts2 (dirOf lc) = .ok l2 ∧
      FirstIndex l2 = FirstIndex l ∧ LastIndex l2 = LastIndex l ∧
      ∀ off, l.firstOffset ≤ off → off ≤ l.lastOffset →
        readVal (Read l2 off) = readVal (Read l off) :=
  reopen_char hre hclose opts2

theorem C2_close_reopen_w :
    ∃ l2, openLog DefaultOptions (dirOf { exFresh with closed := true }) = .ok l2 ∧
      FirstIndex l2 = FirstIndex exFresh ∧ LastIndex l2 = LastIndex exFresh ∧
      ∀ off, exFresh.firstOffset ≤ off → off ≤ exFresh.lastOffset →
        readVal (Read l2 off) = readVal (Read exFresh off) :=
  C2_close_reopen reach_exFresh
    (Close_char (openLog_empty DefaultOptions).2.1) DefaultOptions

/-- C2 counterexample: after a *successful* append at offset `-2`, the last
index is `-2`, but closing and reopening the directory reports last index
`0`: the indexes are not restored for every state reachable by successful
appends. -/
theorem C2_reopen_counterexample :
    Write exFresh (-2) [7] = .ok exNeg ∧
    Close exNeg = .ok { exNeg with closed := true } ∧
    openLog DefaultOptions (dirOf { exNeg with closed := true }) = .ok exOne ∧
    LastIndex exNeg = .ok (-2) ∧ LastIndex exOne = .ok 0 := by
  refine ⟨?_, rfl, ?_, rfl, rfl⟩
  · simp [Write, batchWrite, writeBatch, writeBatchFinish, writeLoop, cycle,
      segAppendEntry, putUvarint, frameOf, pushCache, setSeg, exFresh,
      createInitialSegment, emptyLog, normalizeOpts, DefaultOptions, exNeg, exSeg1]
  · simp [openLog, load, loadMarkerCheck, scanDir, loadFinish, dirOf, emptyLog,
      normalizeOpts, DefaultOptions, exNeg, exSeg1, exOne, loadSegmentEntries,
      parseEntries, loadNextEntry, uvarint, setSeg, pushCache, createInitialSegment]

/-- C3: `truncate_back(first_index() - 1)` does not empty the log.  On a
one-entry log it is a silent no-op — it returns ok, the entry stays
readable and `last_index()` is still `first_index()`, not
`first_index() - 1`; on a two-entry log it fails with the filesystem's
not-found error (the truncate-all path opens a marker file that was never
created). -/
theorem C3_truncate_back_all_bug :
    WriteBatch exFresh (mkBatch 0 [[7]]) = .ok exOne ∧
    FirstIndex exOne = .ok 0 ∧
    TruncateBack exOne (0 - 1) = .ok exOne ∧
    LastIndex exOne = .ok 0 ∧
    readVal (Read exOne 0) = .ok [7] ∧
    WriteBatch exFresh (mkBatch 0 [[7], [8]]) = .ok exTwo ∧
    TruncateBack exTwo (0 - 1) = .err .fsNotFound exTwo := by
  refine ⟨writeBatch_exOne, rfl, ?_, rfl, ?_, writeBatch_exTwo, ?_⟩
  · simp [TruncateBack, truncateBackF, truncateBackAll, noFail, exOne, exSeg1,
      DefaultOptions]
  · simp [Read, readVal, exOne, exSeg1, DefaultOptions, loadSegment, cacheHitIdx,
      findSegment, bsearchLoop, uvarint, pushCache, setSeg]
  · simp [TruncateBack, truncateBackF, truncateBackAll, noFail, exTwo, exSeg2,
      DefaultOptions]

/-- C4 (amended): on a reachable *non-empty* log, truncating the front at
the current first index is a no-op: it returns ok with the log unchanged. -/
theorem C4_truncate_front_first {opts : Options} {l : Log} (hre : Reach opts l)
    (hne : l.firstOffset ≤ l.lastOffset) :
    TruncateFront l l.firstOffset = .ok l := by
  obtain ⟨hWF, -⟩ := Reach_WF hre
  rw [TruncateFront, if_neg (by rw [hWF.notCorrupt]; exact Bool.false_ne_true),
    if_neg (by rw [hWF.notClosed]; exact Bool.false_ne_true), truncateFrontF,
    if_neg (by omega), if_pos (by simp)]

theorem C4_truncate_front_first_w : TruncateFront exOne 0 = .ok exOne :=
  C4_truncate_front_first reach_exOne (by decide)

/-- C4 counterexample: on a reachable *empty* log the same call is not a
no-op returning success: it fails with `ErrOutOfRange`. -/
theorem C4_empty_counterexample :
    Reach DefaultOptions exFresh ∧ FirstIndex exFresh = .ok 0 ∧
    TruncateFront exFresh 0 = .err .outOfRange exFresh :=
  ⟨reach_exFresh, rfl, rfl⟩

/-- C5: an I/O failure after the commit rename of `truncateFront` (here:
reopening the rewritten tail segment fails with error code 3) is returned
verbatim: the log is *not* marked corrupt, and a subsequent operation
(`Sync`, `FirstIndex`) still succeeds instead of returning `Corrupt` —
although the directory was already rewritten (the in-memory `firstOffset`
still reads 0 while the truncation to index 1 is committed on disk). -/
theorem C5_postcommit_not_corrupt :
    WriteBatch exFresh (mkBatch 0 [[7], [8]]) = .ok exTwo ∧
    truncateFrontF exTwo 1 { noFail with reopen := some 3 } = .err (.ioErr 3) exErr5 ∧
    exErr5.corrupt = false ∧
    Sync exErr5 = .ok exErr5 ∧
    FirstIndex exErr5 = .ok 0 := by
  refine ⟨writeBatch_exTwo, ?_, rfl, rfl, rfl⟩
  simp [truncateFrontF, noFail, tempPhase, removeSegs, loadSegment, cacheHitIdx,
    findSegment, bsearchLoop, loadSegmentEntries, parseEntries, loadNextEntry, uvarint,
    setSeg, pushCache, clearCache, dropSegCache, exTwo, exSeg2, exErr5, exErr5Seg, DefaultOptions]

/-- C6 (amended): the directory scan of `open` fails with `Corrupt` exactly
when two *distinct* marker kinds are present or at least two TRUNCATE
markers are; several markers of the same kind START or END pass the
check. -/
theorem C6_marker_check (dir : List DirEntry) :
    loadMarkerCheck dir = .error .corrupt ↔ markerConflict dir = true :=
  loadMarkerCheck_corrupt dir

theorem C6_marker_check_w :
    loadMarkerCheck exDir2S = .error .corrupt ↔ markerConflict exDir2S = true :=
  C6_marker_check exDir2S

/-- C6 counterexample: a directory holding *two* START marker files — more
than one marker of the kinds START/END/TRUNCATE — is not rejected: the scan
succeeds, keeping the later marker's position. -/
theorem C6_two_starts_counterexample :
    (exDir2S.filter fun f => f.kind == FKind.start).length = 2 ∧
    loadMarkerCheck exDir2S =
      .ok { segs := [{ offset := 0, onDisk := true, fdata := [1, 7], ebuf := [], epos := [] },
                     { offset := 1, onDisk := true, fdata := [1, 8], ebuf := [], epos := [] }],
            startIdx := 1, endIdx := -1, truncIdx := -1 } := by
  refine ⟨rfl, ?_⟩
  simp [loadMarkerCheck, scanDir, exDir2S]

/-- C7: on a well-formed log, `Read` returns `NotFound` exactly when the
offset lies outside `[firstOffset, lastOffset]`; and a log opened over an
empty directory has `firstOffset = 0`, `lastOffset = -1`, so `Read 0` on it
returns `NotFound`. -/
theorem C7_notfound_iff :
    (∀ (l : Log) (off : Int), WF l →
      ((∃ l1, Read l off = .err .notFound l1) ↔
        (off < l.firstOffset ∨ l.lastOffset < off))) ∧
    (∀ opts : Options, ∃ l0, openLog opts [] = .ok l0 ∧
      l0.firstOffset = 0 ∧ l0.lastOffset = -1 ∧ Read l0 0 = .err .notFound l0) := by
  constructor
  · intro l off hWF
    constructor
    · rintro ⟨l1, h⟩
      by_contra hout
      have h1 : l.firstOffset ≤ off := by omega
      have h2 : off ≤ l.lastOffset := by omega
      have hs := Read_spec hWF h1 h2
      rw [h] at hs
      cases hent : entriesAt l.segments off with
      | some e =>
        rw [hent] at hs
        simp [readVal] at hs
      | none =>
        rw [hent] at hs
        simp [readVal] at hs
    · intro hout
      rw [Read, if_neg (by rw [hWF.notCorrupt]; exact Bool.false_ne_true),
        if_neg (by rw [hWF.notClosed]; exact Bool.false_ne_true), if_pos hout]
      exact ⟨l, rfl⟩
  · intro opts
    obtain ⟨heq, -, hfo, hlo⟩ := openLog_empty opts
    exact ⟨_, heq, hfo, hlo, rfl⟩

theorem C7_notfound_iff_w :
    ∃ l1, Read exFresh 5 = .err .notFound l1 :=
  (C7_notfound_iff.1 exFresh 5 (openLog_empty DefaultOptions).2.1).mpr
    (Or.inr (by decide))

/-- C8: writing a first batch starting at any offset `k > 0` to a freshly
opened empty log succeeds; `firstOffset` jumps to `k`, `lastOffset` lands
on the batch's highest offset `k + n - 1`, the initial segment's record is
left stale (its file deleted), and the first *live* segment starts at
`k`. -/
theorem C8_first_jump {opts : Options} {l0 : Log} (hopen : openLog opts [] = .ok l0)
    {k : Int} (hk : 0 < k) {ds : List (List Nat)} (hds : ds ≠ []) :
    ∃ l2, WriteBatch l0 (mkBatch k ds) = .ok l2 ∧
      l2.firstOffset = k ∧ l2.lastOffset = k + ds.length - 1 ∧
      l2.segments.head? = some staleSeg ∧
      ∃ s, (liveOf l2).head? = some s ∧ s.offset = k ∧ s.onDisk = true := by
  obtain ⟨heq, hWF, hfo, hlo⟩ := openLog_empty opts
  rw [heq] at hopen
  injection hopen with hopen
  subst hopen
  obtain ⟨l2, hwb, hWF2, -, -, -, hlast2, -, hfj, hstale, -, -, -⟩ :=
    writeBatch_char hWF (fun _ => hfo) k ds hds (by omega) (by omega)
  refine ⟨l2, ?_, ?_, hlast2, ?_, ?_⟩
  · rw [WriteBatch, if_neg (by rw [hWF.notCorrupt]; exact Bool.false_ne_true),
      if_neg (by rw [hWF.notClosed]; exact Bool.false_ne_true),
      if_neg (show ¬((mkBatch k ds).entries.isEmpty = true) from by
        cases ds with
        | nil => exact absurd rfl hds
        | cons d dr => simp [mkBatch, mkEntries])]
    exact hwb
  · exact hfj (by omega)
  · exact hstale (by omega) hk
  · obtain ⟨h0, r, hlive⟩ := liveOf_head hWF2
    refine ⟨h0, by rw [hlive]; rfl, ?_, ?_⟩
    · have hfe := hWF2.firstEq h0 (by rw [hlive]; rfl)
      rw [← hfe]
      exact hfj (by omega)
    · have hmem : h0 ∈ liveOf l2 := by
        rw [hlive]
        exact List.mem_cons_self _ _
      exact (hWF2.liveAll h0 hmem).1

theorem C8_first_jump_w :
    ∃ l2, WriteBatch exFresh (mkBatch 5 [[1]]) = .ok l2 ∧
      l2.firstOffset = 5 ∧
      l2.lastOffset = 5 + (([[1]] : List (List Nat)).length : Int) - 1 ∧
      l2.segments.head? = some staleSeg ∧
      ∃ s, (liveOf l2).head? = some s ∧ s.offset = 5 ∧ s.onDisk = true :=
  @C8_first_jump DefaultOptions exFresh (openLog_empty DefaultOptions).1 5 (by decide)
    [[1]] (by simp)

/-- C9 (amended): on every *reachable* log, `firstOffset ≤ lastOffset + 1`,
with equality exactly when the log stores no entries. -/
theorem C9_bounds {opts : Options} {l : Log} (hre : Reach opts l) :
    l.firstOffset ≤ l.lastOffset + 1 ∧
      (l.firstOffset = l.lastOffset + 1 ↔ entryCount l = 0) :=
  WF_bounds (Reach_WF hre).1

theorem C9_bounds_w :
    exFresh.firstOffset ≤ exFresh.lastOffset + 1 ∧
      (exFresh.firstOffset = exFresh.lastOffset + 1 ↔ entryCount exFresh = 0) :=
  C9_bounds reach_exFresh

/-- C9 counterexample: the bounds inequality is not preserved by every
successful operation: `Write` at offset `-2` on the fresh log succeeds and
leaves `firstOffset = 0 > lastOffset + 1 = -1`. -/
theorem C9_negative_write_counterexample :
    Write exFresh (-2) [7] = .ok exNeg ∧
    ¬(exNeg.firstOffset ≤ exNeg.lastOffset + 1) := by
  refine ⟨?_, by decide⟩
  simp [Write, batchWrite, writeBatch, writeBatchFinish, writeLoop, cycle, segAppendEntry,
    putUvarint, frameOf, pushCache, setSeg, exFresh, createInitialSegment, emptyLog,
    normalizeOpts, DefaultOptions, exNeg, exSeg1]

/-- C10 (amended): on a reachable log, reading an offset inside
`[firstOffset, lastOffset]` either returns the entry the segments store at
that offset, or — at a hole left by a jumping batch — ends in the modelled
Go panic `.oob` (an out-of-bounds index into the owning segment's position
table); no third outcome. -/
theorem C10_read_total {opts : Options} {l : Log} (hre : Reach opts l) (off : Int)
    (h1 : l.firstOffset ≤ off) (h2 : off ≤ l.lastOffset) :
    (∃ d, entriesAt l.segments off = some d ∧ readVal (Read l off) = .ok d) ∨
    (entriesAt l.segments off = none ∧ readVal (Read l off) = .error .oob) := by
  have hWF := (Reach_WF hre).1
  have hs := Read_spec hWF h1 h2
  cases hent : entriesAt l.segments off with
  | some d =>
    rw [hent] at hs
    exact Or.inl ⟨d, rfl, hs⟩
  | none =>
    rw [hent] at hs
    exact Or.inr ⟨rfl, hs⟩

theorem C10_read_total_w :
    (∃ d, entriesAt exOne.segments 0 = some d ∧ readVal (Read exOne 0) = .ok d) ∨
    (entriesAt exOne.segments 0 = none ∧ readVal (Read exOne 0) = .error .oob) :=
  C10_read_total reach_exOne 0 (by decide) (by decide)

/-- C10 counterexample: `Read` is not total in the Go sense: after appends
at offsets 0 and 3 the offset 1 lies inside `[first, last]`, yet `Read 1`
indexes the owning segment's position table out of bounds — the modelled
panic `.oob` — rather than returning data or a regular error value. -/
theorem C10_hole_counterexample :
    Reach DefaultOptions exJump ∧
    exJump.firstOffset ≤ 1 ∧ (1 : Int) ≤ exJump.lastOffset ∧
    readVal (Read exJump 1) = .error .oob := by
  refine ⟨reach_exJump, by decide, by decide, ?_⟩
  simp [Read, readVal, exJump, exJumpSeg, exSeg1, loadSegment, cacheHitIdx, findSegment,
    bsearchLoop, loadSegmentEntries, parseEntries, loadNextEntry, uvarint,
    pushCache, setSeg, DefaultOptions]

end Wal
